import Mathlib

/-!
Verification of the permpy `Permutation` core (permutation.py): shallow
embedding of the pattern-containment search, interval/decomposition engine,
indexing bijections and list algebra, with proofs of their specification
properties.

Permutations are embedded as `List Nat` in one-line notation, values
`0..n-1`, exactly as the Python class stores them (a tuple of ints).
Fallible Python code (assertions, exceptions) is embedded with `Option`.
-/

namespace Permpy

/-- `Permutation.standardize(L)`: asserts all elements distinct, sorts a
copy, and maps each element to its index in the sorted copy.  The
assertion failure is embedded as `none`. -/
def standardize {α : Type} [LinearOrder α] [DecidableEq α] (L : List α) : Option (List Nat) :=
  if L.Nodup then
    some (L.map (fun x => (L.insertionSort (· ≤ ·)).indexOf x))
  else none

/-- Rank closed form: the rank of `x` is the number of elements of `L`
strictly below `x`. -/
def stdSpec {α : Type} [LinearOrder α] [DecidableEq α] (L : List α) : List Nat :=
  L.map (fun x => L.countP (fun y => decide (y < x)))

/-- A list is a (zero-indexed, one-line) permutation iff it is a
rearrangement of `0, 1, ..., n-1`. -/
def isPerm (p : List Nat) : Prop := p.Perm (List.range p.length)

instance : DecidablePred isPerm := fun p => List.decidablePerm p (List.range p.length)

/-- index of value `x` in a strictly sorted list is the number of smaller elements -/
theorem indexOf_sorted_eq_countP {α : Type} [LinearOrder α] [DecidableEq α]
    (S : List α) (hS : S.Sorted (· < ·)) (x : α) (hx : x ∈ S) :
    S.indexOf x = S.countP (fun y => decide (y < x)) := by
  induction S with
  | nil => cases hx
  | cons a S ih =>
    rw [List.sorted_cons] at hS
    obtain ⟨ha, hS'⟩ := hS
    by_cases hxa : x = a
    · subst hxa
      rw [List.indexOf_cons_self, List.countP_cons]
      have h0 : List.countP (fun y => decide (y < x)) S = 0 :=
        List.countP_eq_zero.mpr (fun y hy => by simpa using not_lt.mpr (ha y hy).le)
      simp [h0]
    · have hx' : x ∈ S := (List.mem_cons.mp hx).resolve_left hxa
      have hax : a < x := ha x hx'
      rw [List.indexOf_cons_ne S (Ne.symm hxa), List.countP_cons, ih hS' hx']
      simp [hax]

theorem standardize_eq_stdSpec {α : Type} [LinearOrder α] [DecidableEq α]
    (L : List α) (h : L.Nodup) : standardize L = some (stdSpec L) := by
  unfold standardize stdSpec
  rw [if_pos h]
  refine congrArg some (List.map_congr_left ?_)
  intro x hx
  have hperm : (L.insertionSort (· ≤ ·)).Perm L := L.perm_insertionSort (· ≤ ·)
  have hsorted : (L.insertionSort (· ≤ ·)).Sorted (· ≤ ·) := L.sorted_insertionSort (· ≤ ·)
  have hnd : (L.insertionSort (· ≤ ·)).Nodup := hperm.nodup_iff.mpr h
  have hstrict : (L.insertionSort (· ≤ ·)).Sorted (· < ·) := hsorted.lt_of_le hnd
  rw [indexOf_sorted_eq_countP _ hstrict x (hperm.mem_iff.mpr hx)]
  rw [hperm.countP_eq]

theorem standardize_eq_none {α : Type} [LinearOrder α] [DecidableEq α]
    (L : List α) (h : ¬ L.Nodup) : standardize L = none := by
  unfold standardize
  rw [if_neg h]

theorem stdSpec_length {α : Type} [LinearOrder α] [DecidableEq α] (L : List α) :
    (stdSpec L).length = L.length := by
  unfold stdSpec; rw [List.length_map]

theorem isPerm.nodup {p : List Nat} (h : isPerm p) : p.Nodup :=
  h.nodup_iff.mpr (List.nodup_range _)

theorem isPerm.lt_length {p : List Nat} (h : isPerm p) {x : Nat} (hx : x ∈ p) :
    x < p.length :=
  List.mem_range.mp (h.mem_iff.mp hx)

theorem isPerm.mem_of_lt {p : List Nat} (h : isPerm p) {v : Nat} (hv : v < p.length) :
    v ∈ p :=
  h.mem_iff.mpr (List.mem_range.mpr hv)

theorem countP_lt_range (n v : Nat) :
    (List.range n).countP (fun y => decide (y < v)) = min v n := by
  induction n with
  | zero => simp
  | succ n ih =>
    rw [List.range_succ, List.countP_append, ih]
    by_cases h : n < v
    · simp [h]; omega
    · simp [h]; omega

theorem countP_lt_of_isPerm {p : List Nat} (h : isPerm p) (v : Nat) :
    p.countP (fun y => decide (y < v)) = min v p.length := by
  rw [h.countP_eq, countP_lt_range]

/-- standardizing an already-standard permutation is the identity -/
theorem stdSpec_of_isPerm {p : List Nat} (h : isPerm p) : stdSpec p = p := by
  apply List.ext_getElem (stdSpec_length p)
  intro i h1 h2
  unfold stdSpec
  rw [List.getElem_map]
  rw [countP_lt_of_isPerm h]
  have : p[i] < p.length := h.lt_length (p.getElem_mem h2)
  omega

/-- the ranks of a strictly sorted list are `0, 1, ..., n-1` in order -/
theorem map_rank_sorted {α : Type} [LinearOrder α] [DecidableEq α] :
    ∀ (S : List α), S.Sorted (· < ·) →
      S.map (fun x => S.countP (fun y => decide (y < x))) = List.range S.length := by
  intro S hS
  induction S with
  | nil => rfl
  | cons a S ih =>
    rw [List.sorted_cons] at hS
    obtain ⟨ha, hS'⟩ := hS
    have h0 : (a :: S).countP (fun y => decide (y < a)) = 0 := by
      apply List.countP_eq_zero.mpr
      intro y hy
      rcases List.mem_cons.mp hy with rfl | hy'
      · simp
      · simpa using not_lt.mpr (ha y hy').le
    have hrest : S.map (fun x => (a :: S).countP (fun y => decide (y < x)))
        = S.map (fun x => S.countP (fun y => decide (y < x)) + 1) := by
      apply List.map_congr_left
      intro x hx
      rw [List.countP_cons]
      simp [ha x hx]
    rw [List.map_cons, h0, hrest]
    have : S.map (fun x => S.countP (fun y => decide (y < x)) + 1)
        = (S.map (fun x => S.countP (fun y => decide (y < x)))).map (· + 1) := by
      rw [List.map_map]; rfl
    rw [this, ih hS', List.length_cons, List.range_succ_eq_map]

theorem stdSpec_perm_range {α : Type} [LinearOrder α] [DecidableEq α]
    (L : List α) (h : L.Nodup) : (stdSpec L).Perm (List.range L.length) := by
  have hperm : (L.insertionSort (· ≤ ·)).Perm L := L.perm_insertionSort (· ≤ ·)
  have hsorted : (L.insertionSort (· ≤ ·)).Sorted (· ≤ ·) := L.sorted_insertionSort (· ≤ ·)
  have hnd : (L.insertionSort (· ≤ ·)).Nodup := hperm.nodup_iff.mpr h
  have hstrict : (L.insertionSort (· ≤ ·)).Sorted (· < ·) := hsorted.lt_of_le hnd
  unfold stdSpec
  have step1 : (L.map (fun x => L.countP (fun y => decide (y < x)))).Perm
      ((L.insertionSort (· ≤ ·)).map (fun x => L.countP (fun y => decide (y < x)))) :=
    (hperm.map _).symm
  have step2 : (L.insertionSort (· ≤ ·)).map (fun x => L.countP (fun y => decide (y < x)))
      = (L.insertionSort (· ≤ ·)).map
          (fun x => (L.insertionSort (· ≤ ·)).countP (fun y => decide (y < x))) := by
    apply List.map_congr_left
    intro x _
    rw [hperm.countP_eq]
  have step3 : (L.insertionSort (· ≤ ·)).map (fun x => L.countP (fun y => decide (y < x)))
      = List.range (L.insertionSort (· ≤ ·)).length := by
    rw [step2]
    exact map_rank_sorted _ hstrict
  rw [← hperm.length_eq]
  exact step3 ▸ step1

theorem stdSpec_isPerm {α : Type} [LinearOrder α] [DecidableEq α]
    (L : List α) (h : L.Nodup) : isPerm (stdSpec L) := by
  unfold isPerm
  rw [stdSpec_length]
  exact stdSpec_perm_range L h

/-- strict monotonicity of the rank on members of the list -/
theorem countP_lt_lt {α : Type} [LinearOrder α] {L : List α} {x y : α}
    (hx : x ∈ L) (hxy : x < y) :
    L.countP (fun z => decide (z < x)) < L.countP (fun z => decide (z < y)) := by
  induction L with
  | nil => cases hx
  | cons a l ih =>
    rw [List.countP_cons, List.countP_cons]
    have mono : l.countP (fun z => decide (z < x)) ≤ l.countP (fun z => decide (z < y)) :=
      List.countP_mono_left (fun z _ hz => by
        simp only [decide_eq_true_eq] at hz ⊢
        exact hz.trans hxy)
    rcases List.mem_cons.mp hx with rfl | hmem
    · simp [hxy]
      omega
    · have hlt := ih hmem
      by_cases hax : a < x
      · have hay : a < y := hax.trans hxy
        simp [hax, hay]
        omega
      · by_cases hay : a < y
        · simp [hax, hay]; omega
        · simp [hax, hay]; omega

theorem countP_lt_mono {α : Type} [LinearOrder α] {L : List α} {x y : α}
    (hxy : x ≤ y) :
    L.countP (fun z => decide (z < x)) ≤ L.countP (fun z => decide (z < y)) :=
  List.countP_mono_left (fun z _ hz => by
    simp only [decide_eq_true_eq] at hz ⊢
    exact lt_of_lt_of_le hz hxy)

theorem getD_eq_getElem {α : Type} (l : List α) (d : α) {i : Nat} (h : i < l.length) :
    l.getD i d = l[i] := by
  unfold List.getD
  rw [List.get?_eq_getElem?, List.getElem?_eq_getElem h]
  rfl

/-- counting elements equals counting positions -/
theorem countP_eq_countP_range {α : Type} (l : List α) (d : α) (p : α → Bool) :
    l.countP p = (List.range l.length).countP (fun i => p (l.getD i d)) := by
  induction l with
  | nil => simp
  | cons a l ih =>
    rw [List.countP_cons, List.length_cons, List.range_succ_eq_map, List.countP_cons]
    rw [List.countP_map]
    have : ((fun i => p ((a :: l).getD i d)) ∘ Nat.succ) = (fun i => p (l.getD i d)) := by
      funext i
      simp [List.getD_cons_succ]
    rw [this, ← ih]
    simp [List.getD_cons_zero]

/-- ranks compare exactly as the underlying values do -/
theorem rank_lt_iff {α : Type} [LinearOrder α] {L : List α} (h : L.Nodup)
    {i j : Nat} (hi : i < L.length) (hj : j < L.length) :
    (L.countP (fun y => decide (y < L[i])) < L.countP (fun y => decide (y < L[j]))
      ↔ L[i] < L[j]) := by
  constructor
  · intro hlt
    rcases lt_trichotomy L[i] L[j] with h1 | h1 | h1
    · exact h1
    · rw [h1] at hlt
      exact absurd hlt (lt_irrefl _)
    · exact absurd (countP_lt_lt (L.getElem_mem hj) h1) (not_lt.mpr hlt.le)
  · intro hlt
    exact countP_lt_lt (L.getElem_mem hi) hlt

/-- order isomorphism of two integer sequences, position by position -/
def ordIso (s q : List Nat) : Prop :=
  s.length = q.length ∧ ∀ i j, i < s.length → j < s.length →
    (s.getD i 0 < s.getD j 0 ↔ q.getD i 0 < q.getD j 0)

theorem standardize_iso {s q : List Nat} (hs : s.Nodup) (hq : isPerm q)
    (h : standardize s = some q) : ordIso s q := by
  rw [standardize_eq_stdSpec s hs] at h
  have hq' : q = stdSpec s := (Option.some.injEq _ _ ▸ h).symm
  subst hq'
  constructor
  · rw [stdSpec_length]
  · intro i j hi hj
    have hj2 : j < (stdSpec s).length := by rw [stdSpec_length]; exact hj
    have hi2 : i < (stdSpec s).length := by rw [stdSpec_length]; exact hi
    rw [getD_eq_getElem _ _ hi, getD_eq_getElem _ _ hj,
        getD_eq_getElem _ _ hi2, getD_eq_getElem _ _ hj2]
    unfold stdSpec
    rw [List.getElem_map, List.getElem_map]
    exact (rank_lt_iff hs hi hj).symm

theorem iso_standardize {s q : List Nat} (hs : s.Nodup) (hq : isPerm q)
    (h : ordIso s q) : standardize s = some q := by
  obtain ⟨hlen, hiso⟩ := h
  rw [standardize_eq_stdSpec s hs]
  congr 1
  apply List.ext_getElem (by rw [stdSpec_length, hlen])
  intro i h1 h2
  have hi : i < s.length := by rw [← stdSpec_length s]; exact h1
  unfold stdSpec
  rw [List.getElem_map]
  rw [countP_eq_countP_range s 0 _]
  have hcong : (List.range s.length).countP (fun j => decide (s.getD j 0 < s.getD i 0))
      = (List.range s.length).countP (fun j => decide (q.getD j 0 < q.getD i 0)) := by
    apply List.countP_congr
    intro j hjmem
    have hj : j < s.length := List.mem_range.mp hjmem
    simp only [decide_eq_true_eq]
    exact hiso j i hj hi
  have hback : (List.range q.length).countP (fun j => decide (q.getD j 0 < q.getD i 0))
      = q.countP (fun y => decide (y < q.getD i 0)) :=
    (countP_eq_countP_range q 0 (fun y => decide (y < q.getD i 0))).symm
  have hgd : s.getD i 0 = s[i] := getD_eq_getElem _ _ hi
  rw [hgd] at hcong
  rw [hcong, hlen, hback, countP_lt_of_isPerm hq]
  have hq2 : q.getD i 0 = q[i] := getD_eq_getElem _ _ h2
  rw [hq2]
  have : q[i] < q.length := hq.lt_length (q.getElem_mem h2)
  omega

/-! ## Interval and decomposition engine -/

/-- Python `min` of a list (unused default 0 for the empty list). -/
def pmin : List Nat → Nat
  | [] => 0
  | a :: l => l.foldl Nat.min a

/-- Python `max` of a list (unused default 0 for the empty list). -/
def pmax : List Nat → Nat
  | [] => 0
  | a :: l => l.foldl Nat.max a

/-- the interval test `max(self[j:j+i]) - min(self[j:j+i]) == i - 1` -/
def icond (p : List Nat) (i j : Nat) : Bool :=
  pmax ((p.drop j).take i) - pmin ((p.drop j).take i) == i - 1

/-- the descending scan of `maximal_interval` over interval lengths
`len(self)-1, ..., 2`; each length scans start offsets left to right -/
def miOuter (p : List Nat) : Nat → Nat × Nat
  | 0 => (0, 0)
  | 1 => (0, 0)
  | i + 2 =>
    match (List.range (p.length - (i + 2) + 1)).find? (fun j => icond p (i + 2) j) with
    | some j => (i + 2, j)
    | none => miOuter p (i + 1)

/-- `Permutation.maximal_interval`: `(i, j)` with `i` the largest nontrivial
interval length and `j` its leftmost start, `(0, 0)` if none exists -/
def maximal_interval (p : List Nat) : Nat × Nat := miOuter p (p.length - 1)

/-- inner loop of `simple_location`: `j` descending from `len(self)-1` to `i`,
updating the running-window min/max arrays in place, returning at the first
window whose values span exactly `i` -/
def slInner (p : List Nat) (i : Nat) : Nat → List Nat → List Nat →
    Option (Nat × Nat) × List Nat × List Nat
  | j, mins, maxs =>
    if j < i then (none, mins, maxs)
    else
      -- the Python locals `mins[j] = min(mins[j-1], self[j])` and
      -- `maxs[j] = max(maxs[j-1], self[j])` are inlined below
      if Nat.max (maxs.getD (j - 1) 0) (p.getD j 0)
          - Nat.min (mins.getD (j - 1) 0) (p.getD j 0) = i then
        (some (i, j), mins.set j (Nat.min (mins.getD (j - 1) 0) (p.getD j 0)),
          maxs.set j (Nat.max (maxs.getD (j - 1) 0) (p.getD j 0)))
      else
        match j with
        | 0 => (none, mins.set j (Nat.min (mins.getD (j - 1) 0) (p.getD j 0)),
            maxs.set j (Nat.max (maxs.getD (j - 1) 0) (p.getD j 0)))
        | jp + 1 => slInner p i jp
            (mins.set j (Nat.min (mins.getD (j - 1) 0) (p.getD j 0)))
            (maxs.set j (Nat.max (maxs.getD (j - 1) 0) (p.getD j 0)))

/-- outer loop of `simple_location`: `i` ascending over `1, ..., len(self)-2`
(the fuel argument counts the remaining iterations) -/
def slOuter (p : List Nat) : Nat → Nat → List Nat → List Nat → Option (Nat × Nat)
  | 0, _, _, _ => none
  | fuel + 1, i, mins, maxs =>
    match slInner p i (p.length - 1) mins maxs with
    | (some x, _, _) => some x
    | (none, mins2, maxs2) => slOuter p fuel (i + 1) mins2 maxs2

/-- `Permutation.simple_location`: `(i, j)` where `j - i .. j` is the first
interval window found (smallest span `i`), `(0, 0)` if the permutation is
simple -/
def simple_location (p : List Nat) : Nat × Nat :=
  (slOuter p (p.length - 2) 1 p p).getD (0, 0)

/-- `Permutation.is_simple` -/
def is_simple (p : List Nat) : Bool := (simple_location p).1 == 0

/-- the `while not base.is_simple()` reduction loop of
`Permutation.decomposition`; the two Python `assert`s and the
`Permutation(...)` constructor failures are embedded as `none`.  The fuel
argument bounds the iteration count (each pass shortens the base, so
`len(p) + 1` is always enough). -/
def decompLoop : Nat → List Nat → List (List Nat) → Option (List Nat × List (List Nat))
  | 0, _, _ => none
  | fuel + 1, base, comps =>
    if is_simple base then some (base, comps)
    else if base.length ≠ comps.length then none
    else
      match maximal_interval base with
      | (i, j) =>
        if i = 0 then none
        else
          match standardize ((base.drop j).take i),
                standardize (base.take j ++ [base.getD j 0] ++ base.drop (i + j)) with
          | some K, some nb => decompLoop fuel nb (comps.take j ++ [K] ++ comps.drop (i + j))
          | _, _ => none

/-- `Permutation.decomposition`: components start as singletons
(`Permutation([1])` is the singleton permutation `[0]`) -/
def decomposition (p : List Nat) : Option (List Nat × List (List Nat)) :=
  decompLoop (p.length + 1) p (List.replicate p.length [0])

/-- the `for entry in range(0, len(self))` loop of `Permutation.inflate`:
replaces the entry of `NL` at the position of value `entry` by the
shifted component; a failing `L.index(entry)` is embedded as `none` -/
def inflateLoop (base : List Nat) (comps : List (List Nat)) :
    Nat → Nat → List (Nat ⊕ List Nat) → Nat → Option (List (Nat ⊕ List Nat))
  | 0, _, NL, _ => some NL
  | rem + 1, entry, NL, current =>
    let index := base.indexOf entry
    if index < base.length then
      let piece := (comps.getD index []).map (fun v => v + current)
      inflateLoop base comps rem (entry + 1) (NL.set index (Sum.inr piece))
        (current + (comps.getD index []).length)
    else none

/-- `Permutation.inflate(components)`: asserts the component count, replaces
each value of the base by its shifted component, flattens, and feeds the
result through the `Permutation` constructor.  A leftover non-list entry in
`NL` (only possible when the base is not a permutation) would make the
Python flattening raise, embedded as `none`. -/
def inflate (base : List Nat) (comps : List (List Nat)) : Option (List Nat) :=
  if base.length ≠ comps.length then none
  else
    match inflateLoop base comps base.length 0 (base.map Sum.inl) 0 with
    | none => none
    | some NL =>
      match NL.mapM (fun e => match e with | Sum.inr l => some l | Sum.inl _ => none) with
      | none => none
      | some Ls => standardize Ls.flatten

example : standardize [2, 4, 1, 3, 5] = some [1, 3, 0, 2, 4] := by decide
example : maximal_interval [1, 3, 0, 2, 4] = (4, 0) := by decide
example : simple_location [1, 3, 0, 2, 4] = (3, 3) := by decide
example : is_simple [1, 3, 0, 2, 4] = false := by decide
example : decomposition [1, 3, 0, 2, 4] = some ([0, 1], [[1, 3, 0, 2], [0]]) := by decide
example : inflate [0, 1] [[1, 3, 0, 2], [0]] = some [1, 3, 0, 2, 4] := by decide
example : is_simple [1, 3, 0, 4, 2] = true := by decide
example : decomposition [1, 3, 0, 4, 2]
    = some ([1, 3, 0, 4, 2], [[0], [0], [0], [0], [0]]) := by decide

/-! ## Indexing bijection between S_n and {0, ..., n!-1} -/

/-- the in-place `swap(i, j)` helper used by `ind2perm` and `perm2ind` -/
def lswap (l : List Nat) (i j : Nat) : List Nat :=
  (l.set i (l.getD j 0)).set j (l.getD i 0)

/-- the `for i in range(n, 0, -1)` loop of `ind2perm`: at counter `i+1`,
swap positions `i` and `k % (i+1)`, then divide `k` -/
def ind2permLoop : List Nat → Nat → Nat → List Nat
  | res, _, 0 => res
  | res, k, i + 1 => ind2permLoop (lswap res i (k % (i + 1))) (k / (i + 1)) i

/-- `Permutation.ind2perm(k, n)`; the final `Permutation(result)` constructor
standardizes the assembled list -/
def ind2perm (k n : Nat) : Option (List Nat) :=
  standardize (ind2permLoop (List.range n) k n)

/-- the `for i in range(n-1, 0, -1)` loop of `perm2ind`: read the digit
`q[i]`, grow the multiplier, and swap value `i` into position `i` -/
def perm2indLoop : List Nat → Nat → Nat → Nat → Nat
  | _, acc, _, 0 => acc
  | q, acc, mult, i + 1 =>
    perm2indLoop (lswap q (i + 1) (q.indexOf (i + 1))) (acc + q.getD (i + 1) 0 * mult)
      (mult * (i + 2)) i

/-- `Permutation.perm2ind()` -/
def perm2ind (p : List Nat) : Nat := perm2indLoop p 0 1 (p.length - 1)

example : ind2perm 0 3 = some [1, 2, 0] := by decide
example : perm2ind [0, 1, 2] = 5 := by decide
example : ind2perm 5 3 = some [0, 1, 2] := by decide
example : ind2perm 4 3 = some [0, 2, 1] := by decide
example : perm2ind [0, 2, 1] = 4 := by decide

/-! ## Insert, delete, powers, construction -/

/-- Python sequence indexing: negative indices count from the end,
anything outside `[-n, n)` raises `IndexError` (embedded as `none`) -/
def pyIndex (n : Nat) (i : Int) : Option Nat :=
  if 0 ≤ i ∧ i < (n : Int) then some i.toNat
  else if -(n : Int) ≤ i ∧ i < 0 then some ((n : Int) + i).toNat
  else none

/-- Python slice `l[:i]`: clamps, never raises -/
def pySliceTo {α : Type} (l : List α) (i : Int) : List α :=
  if 0 ≤ i then l.take i.toNat else l.take (l.length - (-i).toNat)

/-- Python slice `l[i:]`: clamps, never raises -/
def pySliceFrom {α : Type} (l : List α) (i : Int) : List α :=
  if 0 ≤ i then l.drop i.toNat else l.drop (l.length - (-i).toNat)

/-- `Permutation.delete(idx)`: `del p[idx]` (an `IndexError` is `none`)
followed by the `Permutation` constructor -/
def delete (p : List Nat) (idx : Int) : Option (List Nat) :=
  match pyIndex p.length idx with
  | none => none
  | some j => standardize (p.take j ++ p.drop (j + 1))

/-- `Permutation.insert(idx, val)`: shift every entry `>= val` up by one,
splice `val` in before position `idx` (Python slices clamp out-of-range
indices), and standardize via the constructor -/
def insert (p : List Nat) (idx val : Int) : Option (List Nat) :=
  let sh : List Int :=
    p.map (fun x : Nat => if val ≤ (x : Int) then (x : Int) + 1 else (x : Int))
  standardize (pySliceTo sh idx ++ [val] ++ pySliceFrom sh idx)

/-- `Permutation.__mul__`: composition `h[i] = self[other[i]]`, with the
length assertion embedded as `none` -/
def pymul (a b : List Nat) : Option (List Nat) :=
  if a.length = b.length then standardize (b.map (fun v => a.getD v 0)) else none

/-- the `for i in range(power - 1): ans *= self` loop of `__pow__` -/
def pypowLoop : Nat → List Nat → List Nat → Option (List Nat)
  | 0, ans, _ => some ans
  | t + 1, ans, p =>
    match pymul ans p with
    | none => none
    | some ans2 => pypowLoop t ans2 p

/-- `Permutation.__pow__(power)` for an integer exponent: raises (`none`)
when the exponent is negative, returns the identity for `0`, otherwise
repeated self-composition -/
def pypow (p : List Nat) (power : Int) : Option (List Nat) :=
  if power < 0 then none
  else if power = 0 then standardize (List.range p.length)
  else pypowLoop (power.toNat - 1) p p

/-- `Permutation.__new__` on an iterable of distinct comparable entries:
`entries = list(p)` (so the `len(entries) == 0 and len(p) > 0` error branch
is unreachable) followed by `standardize`, whose distinctness assertion is
embedded as `none` -/
def permutationOfList (L : List Int) : Option (List Nat) := standardize L

/-! ## Containment search engine -/

/-- one step of the `for j in range(i+1, n)` scan of `set_up_bounds`;
state `(max_below, lower_bound[i], min_above, upper_bound[i])`, sentinel
`-1` throughout -/
def buStep (L : List Nat) (Li : Nat) (st : Int × Int × Int × Int) (j : Nat) :
    Int × Int × Int × Int :=
  let Lj : Int := (L.getD j 0 : Nat)
  let (mb, lbi, ma, ubi) := st
  if Lj < (Li : Int) then
    if mb < Lj then (Lj, (j : Int), ma, ubi) else (mb, lbi, ma, ubi)
  else
    if Lj < ma ∨ ma = -1 then (mb, lbi, Lj, (j : Int)) else (mb, lbi, ma, ubi)

/-- `set_up_bounds` entry for a single position `i` -/
def boundsFor (L : List Nat) (i : Nat) : Int × Int :=
  let st := (List.range' (i + 1) (L.length - (i + 1))).foldl
    (buStep L (L.getD i 0)) (-1, -1, -1, -1)
  (st.2.1, st.2.2.2)

/-- `Permutation.set_up_bounds`: for every pattern position, the position
(right of it) of the closest value below and of the closest value above -/
def set_up_bounds (L : List Nat) : List Int × List Int :=
  ((List.range L.length).map (fun i => (boundsFor L i).1),
   (List.range L.length).map (fun i => (boundsFor L i).2))

/-- `Permutation.involvement_fits`: the bound-table feasibility test for
pattern position `r`; `l` lists the host indices assigned to pattern
positions `r, r+1, ..., n-1` (so `l.getD 0 0 = indices[r]`) -/
def involvement_fits (P : List Nat) (lb ub : List Int) (l : List Nat) (r : Nat) : Bool :=
  (lb.getD r (-1) == -1
    || decide (P.getD (l.getD 0 0) 0 > P.getD (l.getD ((lb.getD r (-1)).toNat - r) 0) 0))
  && (ub.getD r (-1) == -1
    || decide (P.getD (l.getD 0 0) 0 < P.getD (l.getD ((ub.getD r (-1)).toNat - r) 0) 0))

/-- `Permutation.involvement_check`, with the in-place candidate decrement
made functional: `searchLoop r suf c` tries host indices `c-1, c-2, ..., 0`
for pattern position `r` (Python starts at `indices[r+1] - 1`, and the
callers pass exactly that bound), recursing leftwards on success of the
feasibility test -/
def searchLoop (P : List Nat) (lb ub : List Int) : Nat → List Nat → Nat → Bool
  | _, _, 0 => false
  | r, suf, c + 1 =>
    (involvement_fits P lb ub (c :: suf) r &&
      (match r with
       | 0 => true
       | rp + 1 => searchLoop P lb ub rp (c :: suf) c))
    || searchLoop P lb ub r suf c
  termination_by r _ c => (r, c)

/-- `involvement_check(..., next)` with `r = next + 1` positions still to
assign (`next = -1`, the trivially-true base case, is `r = 0`) -/
def srch (P : List Nat) (lb ub : List Int) (r : Nat) (suf : List Nat) : Bool :=
  match r with
  | 0 => true
  | rp + 1 => searchLoop P lb ub rp suf (suf.getD 0 0)

/-- the `while indices[len(self)-1] >= 0` loop of `involved_in`
(`last_require == 0` path): try `c - 1` as the host index of the last
pattern position, then count down -/
def involveTop (P : List Nat) (lb ub : List Int) (n : Nat) : Nat → Bool
  | 0 => false
  | c + 1 => srch P lb ub (n - 1) [c] || involveTop P lb ub n c

/-- `Permutation.involved_in(P)` (with the default `last_require = 0`):
the bound-table-pruned backtracking search for an occurrence of the
pattern `q` in the host `P` -/
def involved_in (q P : List Nat) : Bool :=
  let bounds := set_up_bounds q
  if q.length ≤ 1 && q.length ≤ P.length then true
  else involveTop P bounds.1 bounds.2 q.length P.length

/-- `Permutation.avoids(p)` (with `lr = 0`): `not p.involved_in(self)` -/
def avoids (P q : List Nat) : Bool := ! (involved_in q P)

/-- `Permutation.involves(p)` (with `lr = 0`) -/
def involves (P q : List Nat) : Bool := involved_in q P

/-- `Permutation.occurrences(pattern)`: brute-force count over all
`itertools.combinations` subsequences of the host whose standardization
equals the pattern -/
def occurrences (P pattern : List Nat) : Nat :=
  (P.sublists.filter (fun s => s.length == pattern.length
      && (standardize s == some pattern))).length

example : occurrences [0, 1, 2] [0, 1] = 3 := by decide
example : occurrences [0, 1, 2, 3, 4, 5] [1, 2, 0] = 0 := by decide

example : insert [0] 5 0 = some [1, 0] := by decide
example : delete [0, 1] (-1) = some [0] := by decide
example : delete [0, 1] 2 = none := by decide
example : ((insert [2, 0, 1] 1 1).bind (fun r => delete r 1)) = some [2, 0, 1] := by decide
example : pypow [1, 0] 2 = some [0, 1] := by decide
example : pypow [1, 0] (-1) = none := by decide
example : permutationOfList [3, 3] = none := by decide

/-! ## Claim C6: insert/delete inverse law -/

theorem stdSpec_map_strictMono {α β : Type} [LinearOrder α] [LinearOrder β]
    [DecidableEq α] [DecidableEq β] (f : α → β) (hf : StrictMono f) (l : List α) :
    stdSpec (l.map f) = stdSpec l := by
  unfold stdSpec
  rw [List.map_map]
  apply List.map_congr_left
  intro x _
  show (l.map f).countP (fun y => decide (y < f x)) = l.countP (fun y => decide (y < x))
  rw [List.countP_map]
  apply List.countP_congr
  intro y _
  show decide (f y < f x) = true ↔ decide (y < x) = true
  simp only [decide_eq_true_eq]
  exact hf.lt_iff_lt

theorem isPerm_of_nodup_lt {l : List Nat} (hnd : l.Nodup)
    (hlt : ∀ x ∈ l, x < l.length) : isPerm l := by
  have hndr : (List.range l.length).Nodup := List.nodup_range _
  apply List.perm_of_nodup_nodup_toFinset_eq hnd hndr
  have hsub : l.toFinset ⊆ (List.range l.length).toFinset := by
    intro x hx
    rw [List.mem_toFinset] at hx ⊢
    exact List.mem_range.mpr (hlt x hx)
  apply Finset.eq_of_subset_of_card_le hsub
  rw [List.toFinset_card_of_nodup hnd, List.toFinset_card_of_nodup hndr,
    List.length_range]

/-- the value-shift map of `insert`, at the `Nat` level -/
def shiftAbove (v : Nat) (x : Nat) : Nat := if v ≤ x then x + 1 else x

theorem shiftAbove_strictMono (v : Nat) : StrictMono (shiftAbove v) := by
  intro a b hab
  unfold shiftAbove
  by_cases ha : v ≤ a <;> by_cases hb : v ≤ b <;> simp [ha, hb] <;> omega

/-- inserting `v` anywhere into the shifted list gives a permutation of
length `n + 1` -/
theorem insert_middle_isPerm {p : List Nat} (hp : isPerm p) {v : Nat}
    (hv : v ≤ p.length) (t : Nat) :
    isPerm ((p.map (shiftAbove v)).take t ++ v :: (p.map (shiftAbove v)).drop t) := by
  have hnd : (p.map (shiftAbove v)).Nodup := hp.nodup.map (shiftAbove_strictMono v).injective
  have hvnot : v ∉ p.map (shiftAbove v) := by
    intro hmem
    obtain ⟨x, _, hx⟩ := List.mem_map.mp hmem
    unfold shiftAbove at hx
    by_cases hc : v ≤ x <;> simp [hc] at hx <;> omega
  have hperm : ((p.map (shiftAbove v)).take t ++ v :: (p.map (shiftAbove v)).drop t).Perm
      (v :: p.map (shiftAbove v)) := by
    refine (List.perm_middle).trans ?_
    rw [List.take_append_drop]
  have hnd2 : ((p.map (shiftAbove v)).take t ++ v :: (p.map (shiftAbove v)).drop t).Nodup :=
    hperm.nodup_iff.mpr (List.nodup_cons.mpr ⟨hvnot, hnd⟩)
  apply isPerm_of_nodup_lt hnd2
  intro x hx
  have hx2 : x ∈ v :: p.map (shiftAbove v) := hperm.mem_iff.mp hx
  have hlen : ((p.map (shiftAbove v)).take t ++ v :: (p.map (shiftAbove v)).drop t).length
      = p.length + 1 := by
    rw [hperm.length_eq, List.length_cons, List.length_map]
  rw [hlen]
  rcases List.mem_cons.mp hx2 with rfl | hx'
  · omega
  · obtain ⟨y, hy, hyx⟩ := List.mem_map.mp hx'
    have := hp.lt_length hy
    unfold shiftAbove at hyx
    by_cases hc : v ≤ y <;> simp [hc] at hyx <;> omega

/-- C6: for any permutation `p`, any position `i ∈ [0, len(p)]` and any
value `v ∈ [0, len(p)]`, `p.insert(i, v).delete(i) == p`. -/
theorem insert_delete_inverse (p : List Nat) (i v : Nat) (hp : isPerm p)
    (hi : i ≤ p.length) (hv : v ≤ p.length) :
    (insert p (i : Int) (v : Int)).bind (fun r => delete r (i : Int)) = some p := by
  have hcast : p.map (fun x : Nat => if (v : Int) ≤ (x : Int) then (x : Int) + 1 else (x : Int))
      = (p.map (shiftAbove v)).map (fun n : Nat => (n : Int)) := by
    rw [List.map_map]
    apply List.map_congr_left
    intro x _
    show (if (v : Int) ≤ (x : Int) then (x : Int) + 1 else (x : Int))
      = ((shiftAbove v x : Nat) : Int)
    unfold shiftAbove
    by_cases hc : v ≤ x
    · rw [if_pos (by exact_mod_cast hc), if_pos hc]
      push_cast
      ring
    · rw [if_neg (by exact_mod_cast hc), if_neg hc]
  set sN := p.map (shiftAbove v) with hsN
  have hslice : ∀ l : List Int, pySliceTo l (i : Int) = l.take i
      ∧ pySliceFrom l (i : Int) = l.drop i := by
    intro l
    constructor
    · unfold pySliceTo
      rw [if_pos (Int.natCast_nonneg i)]
      simp
    · unfold pySliceFrom
      rw [if_pos (Int.natCast_nonneg i)]
      simp
  have hA : pySliceTo (sN.map (fun n : Nat => (n : Int))) (i : Int) ++ [(v : Int)]
        ++ pySliceFrom (sN.map (fun n : Nat => (n : Int))) (i : Int)
      = (sN.take i ++ v :: sN.drop i).map (fun n : Nat => (n : Int)) := by
    rw [(hslice _).1, (hslice _).2, ← List.map_take, ← List.map_drop]
    simp
  set M : List Nat := sN.take i ++ v :: sN.drop i with hM
  have hMperm : isPerm M := insert_middle_isPerm hp hv i
  have hinsert : insert p (i : Int) (v : Int) = some M := by
    simp only [insert]
    rw [hcast, hA]
    rw [standardize_eq_stdSpec _ (hMperm.nodup.map (fun a b hab => by exact_mod_cast hab))]
    rw [stdSpec_map_strictMono _ (fun a b hab => by exact_mod_cast hab)]
    rw [stdSpec_of_isPerm hMperm]
  rw [hinsert]
  show delete M (i : Int) = some p
  unfold delete
  have htklen : (sN.take i).length = i := by
    rw [List.length_take, hsN, List.length_map]
    omega
  have hMlen : M.length = p.length + 1 := by
    rw [hM, List.length_append, List.length_cons, List.length_drop,
      htklen, hsN, List.length_map]
    omega
  have hpy : pyIndex M.length (i : Int) = some i := by
    unfold pyIndex
    have hcond : 0 ≤ (i : Int) ∧ (i : Int) < (M.length : Int) := by
      constructor
      · exact Int.natCast_nonneg i
      · exact_mod_cast (by omega : i < M.length)
    rw [if_pos hcond]
    simp
  rw [hpy]
  show standardize (M.take i ++ M.drop (i + 1)) = some p
  have htake : M.take i = sN.take i := by
    rw [hM]
    exact List.take_left' htklen
  have hdrop : M.drop (i + 1) = sN.drop i := by
    rw [hM]
    have h1 : (sN.take i ++ v :: sN.drop i).drop (i + 1)
        = ((sN.take i ++ v :: sN.drop i).drop i).drop 1 := by
      rw [List.drop_drop]
    rw [h1, List.drop_left' htklen, List.drop_one]
    rfl
  rw [htake, hdrop, List.take_append_drop]
  rw [standardize_eq_stdSpec _ (hp.nodup.map (shiftAbove_strictMono v).injective)]
  rw [stdSpec_map_strictMono _ (shiftAbove_strictMono v)]
  rw [stdSpec_of_isPerm hp]

/-- witness for C6 at `p = [2,0,1]`, `i = 1`, `v = 1` -/
theorem insert_delete_inverse_witness :
    (insert [2, 0, 1] 1 1).bind (fun r => delete r 1) = some [2, 0, 1] :=
  insert_delete_inverse [2, 0, 1] 1 1 (by decide) (by decide) (by decide)

/-! ## Claim C3: the decomposition of [2,4,1,3,5] -/

/-- C3 counterexample: `[2,4,1,3,5]` (standardized `[1,3,0,2,4]`) is NOT
simple — its first four entries form the nontrivial interval `2 4 1 3`
(value block `{0,1,2,3}`) — and `decomposition` accordingly contracts it,
returning base `[0,1]` with components `[[1,3,0,2],[0]]`, not the
permutation itself with singleton components. -/
theorem decomposition_24135_not_simple :
    standardize [2, 4, 1, 3, 5] = some [1, 3, 0, 2, 4]
    ∧ is_simple [1, 3, 0, 2, 4] = false
    ∧ decomposition [1, 3, 0, 2, 4] = some ([0, 1], [[1, 3, 0, 2], [0]]) := by
  decide

/-- C3 amended: `[2,4,1,3,5]` is not simple; it contains the nontrivial
interval at positions 0–3, and `decomposition()` returns base `[0,1]` with
components `[[1,3,0,2],[0]]`.  On a permutation that actually is simple,
such as `[2,4,1,5,3]` (standardized `[1,3,0,4,2]`), `decomposition()`
does return the permutation itself together with all-singleton
components. -/
theorem decomposition_24135_amended :
    is_simple [1, 3, 0, 2, 4] = false
    ∧ decomposition [1, 3, 0, 2, 4] = some ([0, 1], [[1, 3, 0, 2], [0]])
    ∧ is_simple [1, 3, 0, 4, 2] = true
    ∧ decomposition [1, 3, 0, 4, 2]
        = some ([1, 3, 0, 4, 2], [[0], [0], [0], [0], [0]]) := by
  decide

/-! ## Claim C5: the concrete values of the indexing bijection -/

/-- C5 counterexample: `ind2perm(0, 3)` is `[1,2,0]`, not the identity,
and `perm2ind([0,1,2])` is `5`, not `0`: with `k = 0` the construction
loop performs `swap(2,0)` then `swap(1,0)` on `[0,1,2]`. -/
theorem ind2perm_zero_not_identity :
    ind2perm 0 3 = some [1, 2, 0] ∧ perm2ind [0, 1, 2] = 5 := by
  decide

/-- C5 amended: `ind2perm(0,3)` returns `[1,2,0]` and
`perm2ind([0,1,2])` returns `5 = 3! - 1` (the identity corresponds to the
index `n! - 1`, not `0`); the round trip over all `3! = 6` indices does
hold. -/
theorem ind2perm_perm2ind_len3 :
    ind2perm 0 3 = some [1, 2, 0]
    ∧ perm2ind [0, 1, 2] = 5
    ∧ ind2perm 5 3 = some [0, 1, 2]
    ∧ ((List.range 6).all
        (fun k => (ind2perm k 3).map perm2ind == some k)) = true := by
  decide

/-! ## Claim C7: domain violations -/

/-- C7 counterexample: `insert` with an out-of-range index does NOT fail:
Python slices clamp, so `Permutation([1]).insert(5, 0)` returns the
permutation `[1,0]` — a result value is returned. -/
theorem insert_out_of_range_returns : insert [0] 5 0 = some [1, 0] := by
  decide

/-- C7 amended: `delete(i)` fails exactly when `i` is outside Python's
valid index range `[-len(p), len(p))`: out-of-range indices fail, and
every in-range index (including negative ones, which count from the end)
returns a permutation; `p ** e` fails for every negative integer exponent
(and, in Python, for non-integer exponents, which a `Lean` integer
embedding cannot state); but `insert(i, v)` never fails on an out-of-range
index — the slices clamp it, and a permutation is returned. -/
theorem domain_violation_behavior :
    (∀ (p : List Nat) (i : Int), p.Nodup →
      (delete p i = none ↔ (i < -(p.length : Int) ∨ (p.length : Int) ≤ i)))
    ∧ (∀ (p : List Nat) (e : Int), e < 0 → pypow p e = none)
    ∧ (∀ (p : List Nat) (i v : Int), p.Nodup → ∃ r, insert p i v = some r) := by
  have hsucc : ∀ (p : List Nat), p.Nodup → ∀ j, j < p.length →
      ∃ r, standardize (p.take j ++ p.drop (j + 1)) = some r := by
    intro p hnd j hj
    have hsub : List.Sublist (p.take j ++ p.drop (j + 1)) p := by
      rw [← List.eraseIdx_eq_take_drop_succ]
      exact List.eraseIdx_sublist _ _
    exact ⟨_, standardize_eq_stdSpec _ (hsub.nodup hnd)⟩
  refine ⟨?_, ?_, ?_⟩
  · intro p i hnd
    constructor
    · intro hnone
      by_contra hc
      push_neg at hc
      obtain ⟨hc1, hc2⟩ := hc
      have hj : ∃ j, j < p.length ∧ pyIndex p.length i = some j := by
        unfold pyIndex
        by_cases h0 : 0 ≤ i
        · refine ⟨i.toNat, by omega, ?_⟩
          rw [if_pos ⟨h0, by omega⟩]
        · refine ⟨((p.length : Int) + i).toNat, by omega, ?_⟩
          rw [if_neg (by omega), if_pos ⟨by omega, by omega⟩]
      obtain ⟨j, hjlt, hjeq⟩ := hj
      obtain ⟨r, hr⟩ := hsucc p hnd j hjlt
      unfold delete at hnone
      simp only [hjeq] at hnone
      rw [hr] at hnone
      cases hnone
    · intro h
      unfold delete pyIndex
      have h1 : ¬ (0 ≤ i ∧ i < (p.length : Int)) := by omega
      have h2 : ¬ (-(p.length : Int) ≤ i ∧ i < 0) := by omega
      rw [if_neg h1, if_neg h2]
  · intro p e h
    unfold pypow
    rw [if_pos h]
  · intro p i v hnd
    unfold insert
    set g : Nat → Int := fun x => if v ≤ (x : Int) then (x : Int) + 1 else (x : Int) with hg
    have hginj : Function.Injective g := by
      intro a b hab
      simp only [hg] at hab
      by_cases ha : v ≤ (a : Int) <;> by_cases hb : v ≤ (b : Int) <;>
        simp [ha, hb] at hab <;> omega
    have hshnd : (p.map g).Nodup := hnd.map hginj
    have hvnot : v ∉ p.map g := by
      intro hmem
      obtain ⟨x, _, hx⟩ := List.mem_map.mp hmem
      simp only [hg] at hx
      by_cases hc : v ≤ (x : Int) <;> simp [hc] at hx <;> omega
    have hsplit : pySliceTo (p.map g) i ++ [v] ++ pySliceFrom (p.map g) i
        = (p.map g).take (if 0 ≤ i then i.toNat else (p.map g).length - (-i).toNat)
          ++ v :: (p.map g).drop (if 0 ≤ i then i.toNat else (p.map g).length - (-i).toNat) := by
      unfold pySliceTo pySliceFrom
      by_cases h0 : 0 ≤ i <;> simp [h0]
    have hperm : (pySliceTo (p.map g) i ++ [v] ++ pySliceFrom (p.map g) i).Perm
        (v :: p.map g) := by
      rw [hsplit]
      refine (List.perm_middle).trans ?_
      rw [List.take_append_drop]
    have hnodup : (pySliceTo (p.map g) i ++ [v] ++ pySliceFrom (p.map g) i).Nodup :=
      hperm.nodup_iff.mpr (List.nodup_cons.mpr ⟨hvnot, hshnd⟩)
    exact ⟨_, standardize_eq_stdSpec _ hnodup⟩

/-- witness for the amended C7 theorem at concrete inputs: an out-of-range
delete fails, an in-range negative delete succeeds, a negative power fails,
an out-of-range insert returns -/
theorem domain_violation_behavior_witness :
    delete [0, 1] 5 = none ∧ ¬ delete [0, 1] (-1) = none
      ∧ pypow [0] (-2) = none ∧ ∃ r, insert [0] 7 0 = some r :=
  ⟨(domain_violation_behavior.1 [0, 1] 5 (by decide)).mpr (by decide),
   fun h => absurd
     ((domain_violation_behavior.1 [0, 1] (-1) (by decide)).mp h) (by decide),
   domain_violation_behavior.2.1 [0] (-2) (by decide),
   domain_violation_behavior.2.2 [0] 7 0 (by decide)⟩

/-! ## Claim C8: construction from duplicated input fails -/

/-- C8: building a `Permutation` from a sequence with a duplicated element
fails: `standardize`'s distinctness assertion raises, the constructor
propagates it, and no value is produced. -/
theorem construction_duplicate_fails (L : List Int) (h : ¬ L.Nodup) :
    permutationOfList L = none ∧ standardize L = none :=
  ⟨standardize_eq_none L h, standardize_eq_none L h⟩

/-- witness for C8 at the duplicated input `[3, 3]` -/
theorem construction_duplicate_fails_witness :
    permutationOfList [3, 3] = none ∧ standardize ([3, 3] : List Int) = none :=
  construction_duplicate_fails [3, 3] (by decide)

/-! ## Claim C9: characterization of maximal_interval -/

/-- `find?` over an ascending integer range finds the least hit -/
theorem find?_range_first {pred : Nat → Bool} :
    ∀ (n s : Nat) {j}, (List.range' s n).find? pred = some j →
      pred j = true ∧ s ≤ j ∧ j < s + n ∧ ∀ i, s ≤ i → i < j → pred i = false := by
  intro n
  induction n with
  | zero => intro s j h; simp [List.range'] at h
  | succ m ih =>
    intro s j h
    rw [List.range'_succ] at h
    by_cases hps : pred s
    · rw [List.find?_cons_of_pos _ hps] at h
      obtain rfl : s = j := by simpa using h
      exact ⟨hps, le_refl _, by omega, fun i h1 h2 => absurd h1 (by omega)⟩
    · rw [List.find?_cons_of_neg _ hps] at h
      obtain ⟨hj, hsj, hjlt, hmin⟩ := ih (s + 1) h
      refine ⟨hj, by omega, by omega, ?_⟩
      intro i h1 h2
      rcases Nat.eq_or_lt_of_le h1 with rfl | h1'
      · exact Bool.not_eq_true _ ▸ (by simpa using hps)
      · exact hmin i h1' h2

theorem find?_range_none {pred : Nat → Bool} {n : Nat}
    (h : (List.range n).find? pred = none) : ∀ i < n, pred i = false := by
  intro i hi
  have := List.find?_eq_none.mp h i (List.mem_range.mpr hi)
  simpa using this

/-- characterization of the descending scan `miOuter`: the `(0,0)` sentinel -/
theorem miOuter_eq_zero (p : List Nat) :
    ∀ imax, imax < p.length ∨ imax ≤ 1 →
      (miOuter p imax = (0, 0) ↔
        ∀ L j, 2 ≤ L → L ≤ imax → j + L ≤ p.length → icond p L j = false) := by
  intro imax
  induction imax with
  | zero =>
    intro _
    simp only [miOuter]
    constructor
    · intro _ L j h2 h0 _
      omega
    · intro _
      trivial
  | succ m ih =>
    intro him
    match m, him with
    | 0, _ =>
      simp only [miOuter]
      constructor
      · intro _ L j h2 h1 _
        omega
      · intro _
        trivial
    | Nat.succ mp, him =>
      have hlt : mp + 2 < p.length := by omega
      rw [show mp + 1 + 1 = mp + 2 by rfl]
      constructor
      · intro h L j h2 hL hjL
        unfold miOuter at h
        rcases hfind : (List.range (p.length - (mp + 2) + 1)).find? (fun j => icond p (mp + 2) j) with _ | j0
        · rw [hfind] at h
          rcases Nat.eq_or_lt_of_le hL with rfl | hL'
          · exact find?_range_none hfind j (by omega)
          · exact (ih (by omega)).mp h L j h2 (by omega) hjL
        · rw [hfind] at h
          exact absurd h (by simp)
      · intro hall
        unfold miOuter
        rcases hfind : (List.range (p.length - (mp + 2) + 1)).find? (fun j => icond p (mp + 2) j) with _ | j0
        · exact (ih (by omega)).mpr (fun L j h2 hL hjL => hall L j h2 (by omega) hjL)
        · exfalso
          rw [List.range_eq_range'] at hfind
          obtain ⟨hj, _, hjlt, _⟩ := find?_range_first _ _ hfind
          have : icond p (mp + 2) j0 = false := hall (mp + 2) j0 (by omega) (le_refl _) (by omega)
          rw [this] at hj
          cases hj

/-- characterization of the descending scan `miOuter`: a nonzero result is
the longest interval window, at its leftmost start -/
theorem miOuter_eq_some (p : List Nat) :
    ∀ imax i j, imax < p.length ∨ imax ≤ 1 →
      miOuter p imax = (i, j) → i ≠ 0 →
        2 ≤ i ∧ i ≤ imax ∧ j + i ≤ p.length ∧ icond p i j = true
        ∧ (∀ L j2, i < L → L ≤ imax → j2 + L ≤ p.length → icond p L j2 = false)
        ∧ (∀ j2, j2 < j → icond p i j2 = false) := by
  intro imax
  induction imax with
  | zero =>
    intro i j _ h hi
    simp only [miOuter] at h
    obtain ⟨h1, h2⟩ := Prod.mk.inj h
    exact absurd h1.symm hi
  | succ m ih =>
    intro i j him h hi
    match m, him with
    | 0, _ =>
      simp only [miOuter] at h
      obtain ⟨h1, h2⟩ := Prod.mk.inj h
      exact absurd h1.symm hi
    | Nat.succ mp, him =>
      have hlt : mp + 2 < p.length := by omega
      rw [show mp + 1 + 1 = mp + 2 by rfl] at h ⊢
      unfold miOuter at h
      rcases hfind : (List.range (p.length - (mp + 2) + 1)).find? (fun j => icond p (mp + 2) j) with _ | j0
      · rw [hfind] at h
        obtain ⟨h2, hle, hjL, hcond, hlonger, hleft⟩ := ih i j (by omega) h hi
        refine ⟨h2, by omega, hjL, hcond, ?_, hleft⟩
        intro L j2 hL1 hL2 hj2
        rcases Nat.eq_or_lt_of_le hL2 with rfl | hL'
        · exact find?_range_none hfind j2 (by omega)
        · exact hlonger L j2 hL1 (by omega) hj2
      · rw [hfind] at h
        rw [List.range_eq_range'] at hfind
        obtain ⟨hj0, _, hj0lt, hmin⟩ := find?_range_first _ _ hfind
        obtain ⟨rfl, rfl⟩ := Prod.mk.inj h
        refine ⟨by omega, le_refl _, by omega, hj0, ?_, ?_⟩
        · intro L j2 hL1 hL2 _
          omega
        · intro j2 hj2
          exact hmin j2 (by omega) hj2

/-- C9: `maximal_interval` returns `(i, j)` with `i` the largest interval
window length in `[2, n-1]` and `j` the smallest start achieving it, and
returns `(0, 0)` exactly when no window of length `2..n-1` satisfies
`max - min == length - 1`. -/
theorem maximal_interval_spec (p : List Nat) (hp : isPerm p) :
    ((maximal_interval p = (0, 0)) ↔
      (∀ L j, 2 ≤ L → L + 1 ≤ p.length → j + L ≤ p.length → icond p L j = false))
    ∧ (∀ i j, maximal_interval p = (i, j) → i ≠ 0 →
        2 ≤ i ∧ i + 1 ≤ p.length ∧ j + i ≤ p.length ∧ icond p i j = true
        ∧ (∀ L j2, i < L → L + 1 ≤ p.length → j2 + L ≤ p.length → icond p L j2 = false)
        ∧ (∀ j2, j2 < j → icond p i j2 = false)) := by
  have hside : p.length - 1 < p.length ∨ p.length - 1 ≤ 1 := by omega
  constructor
  · rw [show maximal_interval p = miOuter p (p.length - 1) from rfl]
    rw [miOuter_eq_zero p (p.length - 1) hside]
    constructor
    · intro h L j h2 hL hjL
      exact h L j h2 (by omega) hjL
    · intro h L j h2 hL hjL
      exact h L j h2 (by omega) hjL
  · intro i j h hi
    obtain ⟨h2, hle, hjL, hcond, hlonger, hleft⟩ :=
      miOuter_eq_some p (p.length - 1) i j hside h hi
    refine ⟨h2, by omega, hjL, hcond, ?_, hleft⟩
    intro L j2 hL1 hL2 hj2
    exact hlonger L j2 hL1 (by omega) hj2

/-- witness for C9 at the permutation `[1, 0, 2]`, whose maximal interval
is the window of length 2 at position 0 -/
theorem maximal_interval_spec_witness :
    isPerm [1, 0, 2] ∧ icond [1, 0, 2] 2 0 = true :=
  ⟨by decide,
   ((maximal_interval_spec [1, 0, 2] (by decide)).2 2 0 (by decide) (by decide)).2.2.2.1⟩

/-! ## Claim C10: the two interval detectors agree -/

theorem getD_set_self {l : List Nat} {t : Nat} {a : Nat} (h : t < l.length) :
    (l.set t a).getD t 0 = a := by
  unfold List.getD
  rw [List.get?_eq_getElem?, List.getElem?_set]
  simp [h]

theorem getD_set_ne {l : List Nat} {s t : Nat} {a : Nat} (h : s ≠ t) :
    (l.set s a).getD t 0 = l.getD t 0 := by
  unfold List.getD
  rw [List.get?_eq_getElem?, List.get?_eq_getElem?, List.getElem?_set]
  simp [h]

theorem pmin_append_singleton {l : List Nat} (hl : l ≠ []) (a : Nat) :
    pmin (l ++ [a]) = Nat.min (pmin l) a := by
  match l with
  | [] => exact absurd rfl hl
  | x :: xs =>
    show pmin (x :: (xs ++ [a])) = Nat.min (pmin (x :: xs)) a
    simp only [pmin]
    rw [List.foldl_append]
    rfl

theorem pmax_append_singleton {l : List Nat} (hl : l ≠ []) (a : Nat) :
    pmax (l ++ [a]) = Nat.max (pmax l) a := by
  match l with
  | [] => exact absurd rfl hl
  | x :: xs =>
    show pmax (x :: (xs ++ [a])) = Nat.max (pmax (x :: xs)) a
    simp only [pmax]
    rw [List.foldl_append]
    rfl

/-- running value of the min over the window of length `L` ending at `t` -/
def wmin (p : List Nat) (L t : Nat) : Nat := pmin ((p.take (t + 1)).drop (t + 1 - L))

/-- running value of the max over the window of length `L` ending at `t` -/
def wmax (p : List Nat) (L t : Nat) : Nat := pmax ((p.take (t + 1)).drop (t + 1 - L))

theorem window_succ {p : List Nat} (L j : Nat) (hj : j + 1 < p.length) :
    (p.take (j + 2)).drop (j + 2 - (L + 1))
      = (p.take (j + 1)).drop (j + 1 - L) ++ [p.getD (j + 1) 0] := by
  have h1 : p.take (j + 2) = p.take (j + 1) ++ [p.getD (j + 1) 0] := by
    rw [List.take_succ]
    congr 1
    rw [List.getElem?_eq_getElem hj, getD_eq_getElem _ _ hj]
    rfl
  rw [h1, List.drop_append_eq_append_drop]
  have h2 : j + 2 - (L + 1) = j + 1 - L := by omega
  have h3 : (p.take (j + 1)).length = j + 1 := by
    rw [List.length_take]
    omega
  rw [h2, h3]
  have h4 : j + 1 - L - (j + 1) = 0 := by omega
  rw [h4]
  rfl

theorem window_ne_nil {p : List Nat} {L t : Nat} (hL : 1 ≤ L) (ht : t < p.length) :
    (p.take (t + 1)).drop (t + 1 - L) ≠ [] := by
  apply List.ne_nil_of_length_pos
  rw [List.length_drop, List.length_take]
  omega

theorem wmin_succ {p : List Nat} {L j : Nat} (hL : 1 ≤ L) (hj : j + 1 < p.length) :
    Nat.min (wmin p L j) (p.getD (j + 1) 0) = wmin p (L + 1) (j + 1) := by
  unfold wmin
  rw [show j + 1 + 1 = j + 2 by rfl, window_succ L j hj,
    pmin_append_singleton (window_ne_nil hL (by omega)) _]

theorem wmax_succ {p : List Nat} {L j : Nat} (hL : 1 ≤ L) (hj : j + 1 < p.length) :
    Nat.max (wmax p L j) (p.getD (j + 1) 0) = wmax p (L + 1) (j + 1) := by
  unfold wmax
  rw [show j + 1 + 1 = j + 2 by rfl, window_succ L j hj,
    pmax_append_singleton (window_ne_nil hL (by omega)) _]

theorem wmin_one {p : List Nat} {t : Nat} (ht : t < p.length) :
    wmin p 1 t = p.getD t 0 := by
  unfold wmin
  have h1 : (p.take (t + 1)).drop (t + 1 - 1) = [p.getD t 0] := by
    rw [List.take_succ, List.drop_append_eq_append_drop]
    have h3 : (p.take t).length = t := by
      rw [List.length_take]
      omega
    rw [show t + 1 - 1 = t by rfl, List.drop_of_length_le (le_of_eq h3), h3]
    rw [List.getElem?_eq_getElem ht, getD_eq_getElem _ _ ht]
    simp
  rw [h1]
  rfl

/-- characterization of one inner pass of `simple_location`: it reports a
window exactly when a window of length `i+1` ending at some processed
position spans exactly `i`, and otherwise leaves the min/max arrays holding
the length-`(i+1)` window values -/
theorem slInner_char (p : List Nat) (i : Nat) (hi : 1 ≤ i) :
    ∀ (j : Nat), j < p.length →
    ∀ (mins maxs : List Nat),
      mins.length = p.length → maxs.length = p.length →
      (∀ t, i - 1 ≤ t → t ≤ j → t < p.length → mins.getD t 0 = wmin p i t) →
      (∀ t, i - 1 ≤ t → t ≤ j → t < p.length → maxs.getD t 0 = wmax p i t) →
      (∀ t, j < t → t < p.length → mins.getD t 0 = wmin p (i + 1) t) →
      (∀ t, j < t → t < p.length → maxs.getD t 0 = wmax p (i + 1) t) →
      ((slInner p i j mins maxs).1 = none ↔
        ∀ t, i ≤ t → t ≤ j → wmax p (i + 1) t - wmin p (i + 1) t ≠ i)
      ∧ ((slInner p i j mins maxs).1 = none →
          (slInner p i j mins maxs).2.1.length = p.length
          ∧ (slInner p i j mins maxs).2.2.length = p.length
          ∧ (∀ t, i ≤ t → t < p.length →
              (slInner p i j mins maxs).2.1.getD t 0 = wmin p (i + 1) t)
          ∧ (∀ t, i ≤ t → t < p.length →
              (slInner p i j mins maxs).2.2.getD t 0 = wmax p (i + 1) t)) := by
  intro j
  induction j with
  | zero =>
    intro hj mins maxs hlen1 hlen2 H1 H2 H3 H4
    have hlt : 0 < i := hi
    have hret : slInner p i 0 mins maxs = (none, mins, maxs) := by
      rw [slInner, if_pos hlt]
    rw [hret]
    refine ⟨⟨fun _ t hti ht0 => by omega, fun _ => rfl⟩, ?_⟩
    intro _
    exact ⟨hlen1, hlen2, fun t hti htn => H3 t (by omega) htn,
      fun t hti htn => H4 t (by omega) htn⟩
  | succ j ih =>
    intro hj mins maxs hlen1 hlen2 H1 H2 H3 H4
    by_cases hlt : j + 1 < i
    · have hret : slInner p i (j + 1) mins maxs = (none, mins, maxs) := by
        rw [slInner, if_pos hlt]
      rw [hret]
      refine ⟨⟨fun _ t hti htj => by omega, fun _ => rfl⟩, ?_⟩
      intro _
      exact ⟨hlen1, hlen2, fun t hti htn => H3 t (by omega) htn,
        fun t hti htn => H4 t (by omega) htn⟩
    · push_neg at hlt
      have hij : i ≤ j + 1 := hlt
      have hjn : j + 1 < p.length := hj
      have hmval : Nat.min (mins.getD (j + 1 - 1) 0) (p.getD (j + 1) 0)
          = wmin p (i + 1) (j + 1) := by
        rw [show j + 1 - 1 = j from rfl]
        rw [H1 j (by omega) (by omega) (by omega)]
        exact wmin_succ hi hjn
      have hMval : Nat.max (maxs.getD (j + 1 - 1) 0) (p.getD (j + 1) 0)
          = wmax p (i + 1) (j + 1) := by
        rw [show j + 1 - 1 = j from rfl]
        rw [H2 j (by omega) (by omega) (by omega)]
        exact wmax_succ hi hjn
      by_cases hhit : Nat.max (maxs.getD (j + 1 - 1) 0) (p.getD (j + 1) 0)
          - Nat.min (mins.getD (j + 1 - 1) 0) (p.getD (j + 1) 0) = i
      · have hret : (slInner p i (j + 1) mins maxs).1 = some (i, j + 1) := by
          rw [slInner, if_neg (by omega), if_pos hhit]
        constructor
        · rw [hret]
          constructor
          · intro h
            cases h
          · intro hno
            exfalso
            apply hno (j + 1) hij (le_refl _)
            rw [← hmval, ← hMval]
            exact hhit
        · intro h
          rw [hret] at h
          cases h
      · have hstep : slInner p i (j + 1) mins maxs
            = slInner p i j
                (mins.set (j + 1) (Nat.min (mins.getD (j + 1 - 1) 0) (p.getD (j + 1) 0)))
                (maxs.set (j + 1) (Nat.max (maxs.getD (j + 1 - 1) 0) (p.getD (j + 1) 0))) := by
          rw [slInner, if_neg (by omega), if_neg hhit]
        set m := Nat.min (mins.getD (j + 1 - 1) 0) (p.getD (j + 1) 0) with hm
        set M := Nat.max (maxs.getD (j + 1 - 1) 0) (p.getD (j + 1) 0) with hM
        have hres := ih (by omega) (mins.set (j + 1) m) (maxs.set (j + 1) M)
          (by rw [List.length_set]; exact hlen1)
          (by rw [List.length_set]; exact hlen2)
          (fun t ht1 ht2 ht3 => by
            rw [getD_set_ne (by omega)]
            exact H1 t ht1 (by omega) ht3)
          (fun t ht1 ht2 ht3 => by
            rw [getD_set_ne (by omega)]
            exact H2 t ht1 (by omega) ht3)
          (fun t ht1 ht2 => by
            rcases Nat.eq_or_lt_of_le (by omega : j + 1 ≤ t) with rfl | htgt
            · rw [getD_set_self (by rw [hlen1]; exact ht2)]
              exact hmval
            · rw [getD_set_ne (by omega)]
              exact H3 t htgt ht2)
          (fun t ht1 ht2 => by
            rcases Nat.eq_or_lt_of_le (by omega : j + 1 ≤ t) with rfl | htgt
            · rw [getD_set_self (by rw [hlen2]; exact ht2)]
              exact hMval
            · rw [getD_set_ne (by omega)]
              exact H4 t htgt ht2)
        rw [hstep]
        obtain ⟨hiff, harr⟩ := hres
        constructor
        · rw [hiff]
          constructor
          · intro h t ht1 ht2
            rcases Nat.eq_or_lt_of_le ht2 with rfl | ht2p
            · rw [← hmval, ← hMval]
              exact hhit
            · exact h t ht1 (by omega)
          · intro h t ht1 ht2
            exact h t ht1 (by omega)
        · exact harr

/-- a hit reported by `slInner` carries the current window span `i` -/
theorem slInner_some_fst (p : List Nat) (i : Nat) :
    ∀ j mins maxs x, (slInner p i j mins maxs).1 = some x → x.1 = i := by
  intro j
  induction j with
  | zero =>
    intro mins maxs x h
    rw [slInner] at h
    split at h
    · exact Option.noConfusion h
    · split at h
      · obtain rfl : (i, 0) = x := Option.some.inj h
        rfl
      · exact Option.noConfusion h
  | succ j ih =>
    intro mins maxs x h
    rw [slInner] at h
    split at h
    · exact Option.noConfusion h
    · split at h
      · obtain rfl : (i, j + 1) = x := Option.some.inj h
        rfl
      · exact ih _ _ _ h

/-- characterization of the outer loop of `simple_location` -/
theorem slOuter_char (p : List Nat) :
    ∀ (fuel i : Nat), 1 ≤ i → i + fuel = p.length - 1 → 2 ≤ p.length →
    ∀ (mins maxs : List Nat),
      mins.length = p.length → maxs.length = p.length →
      (∀ t, i - 1 ≤ t → t < p.length → mins.getD t 0 = wmin p i t) →
      (∀ t, i - 1 ≤ t → t < p.length → maxs.getD t 0 = wmax p i t) →
      ((slOuter p fuel i mins maxs = none ↔
        ∀ L t, i ≤ L → L < i + fuel → L ≤ t → t < p.length →
          wmax p (L + 1) t - wmin p (L + 1) t ≠ L)
      ∧ (∀ x, slOuter p fuel i mins maxs = some x → 1 ≤ x.1)) := by
  intro fuel
  induction fuel with
  | zero =>
    intro i hi hsum hn mins maxs hlen1 hlen2 H1 H2
    constructor
    · simp only [slOuter]
      constructor
      · intro _ L t h1 h2
        omega
      · intro _
        trivial
    · intro x hx
      simp only [slOuter] at hx
      cases hx
  | succ fuel ih =>
    intro i hi hsum hn mins maxs hlen1 hlen2 H1 H2
    have hjn : p.length - 1 < p.length := by omega
    have hinner := slInner_char p i hi (p.length - 1) hjn mins maxs hlen1 hlen2
      (fun t h1 h2 h3 => H1 t h1 h3)
      (fun t h1 h2 h3 => H2 t h1 h3)
      (fun t h1 h2 => by omega)
      (fun t h1 h2 => by omega)
    have hfst := slInner_some_fst p i (p.length - 1) mins maxs
    obtain ⟨hiff, harr⟩ := hinner
    rcases hres : (slInner p i (p.length - 1) mins maxs) with ⟨ores, mins2, maxs2⟩
    rw [hres] at hiff harr
    rcases ores with _ | x
    · have hunf : slOuter p (fuel + 1) i mins maxs = slOuter p fuel (i + 1) mins2 maxs2 := by
        rw [slOuter, hres]
      obtain ⟨hl1, hl2, hw1, hw2⟩ := harr rfl
      have hrec := ih (i + 1) (by omega) (by omega) hn mins2 maxs2 hl1 hl2
        (fun t h1 h2 => hw1 t (by omega) h2)
        (fun t h1 h2 => hw2 t (by omega) h2)
      rw [hunf]
      obtain ⟨hiff2, hpos2⟩ := hrec
      constructor
      · rw [hiff2]
        constructor
        · intro h L t h1 h2 h3 h4
          rcases Nat.eq_or_lt_of_le h1 with rfl | h1p
          · exact (hiff.mp rfl) t h3 (by omega)
          · exact h L t h1p (by omega) h3 h4
        · intro h L t h1 h2 h3 h4
          exact h L t (by omega) (by omega) h3 h4
      · exact hpos2
    · have hunf : slOuter p (fuel + 1) i mins maxs = some x := by
        rw [slOuter, hres]
      rw [hunf]
      constructor
      · constructor
        · intro h
          cases h
        · intro h
          exfalso
          exact Option.noConfusion
            (hiff.mpr (fun t ht1 ht2 => h i t (le_refl i) (by omega) ht1 (by omega)))
      · intro y hy
        obtain rfl : x = y := Option.some.inj hy
        have hx1 : x.1 = i := by
          apply hfst
          rw [hres]
        omega

/-- windows-ending-at-`t` form and windows-starting-at-`j` form of the
interval test coincide -/
theorem hit_iff_icond (p : List Nat) (L t : Nat) (hL : 1 ≤ L) (ht : L ≤ t)
    (htn : t < p.length) :
    (wmax p (L + 1) t - wmin p (L + 1) t = L) ↔ icond p (L + 1) (t - L) = true := by
  unfold icond wmin wmax
  have heq : (p.drop (t - L)).take (L + 1) = (p.take (t + 1)).drop (t + 1 - (L + 1)) := by
    rw [List.take_drop]
    have h1 : t - L + (L + 1) = t + 1 := by omega
    have h2 : t + 1 - (L + 1) = t - L := by omega
    rw [h1, h2]
  rw [heq]
  have h3 : L + 1 - 1 = L := by omega
  rw [h3]
  simp [beq_iff_eq]

theorem simple_location_zero_iff (p : List Nat) :
    simple_location p = (0, 0) ↔ maximal_interval p = (0, 0) := by
  have hmi := miOuter_eq_zero p (p.length - 1) (by omega)
  by_cases hn : p.length ≤ 2
  · have hsl : simple_location p = (0, 0) := by
      unfold simple_location
      have : p.length - 2 = 0 := by omega
      rw [this]
      rfl
    have hmi0 : maximal_interval p = (0, 0) := by
      rw [show maximal_interval p = miOuter p (p.length - 1) from rfl]
      rw [hmi]
      intro L j h2 hL hjL
      omega
    rw [hsl, hmi0]
  · push_neg at hn
    have h1 : (∀ t, 0 ≤ t → t < p.length → p.getD t 0 = wmin p 1 t) :=
      fun t _ ht => (wmin_one ht).symm
    have h2 : (∀ t, 0 ≤ t → t < p.length → p.getD t 0 = wmax p 1 t) := by
      intro t _ ht
      unfold wmax
      have hw : (p.take (t + 1)).drop (t + 1 - 1) = [p.getD t 0] := by
        rw [List.take_succ, List.drop_append_eq_append_drop]
        have h3 : (p.take t).length = t := by
          rw [List.length_take]
          omega
        rw [show t + 1 - 1 = t from rfl, List.drop_of_length_le (le_of_eq h3), h3]
        rw [List.getElem?_eq_getElem ht, getD_eq_getElem _ _ ht]
        simp
      rw [hw]
      rfl
    obtain ⟨houter, hpos⟩ := slOuter_char p (p.length - 2) 1 (le_refl 1) (by omega)
      (by omega) p p rfl rfl (fun t _ ht => h1 t (by omega) ht)
      (fun t _ ht => h2 t (by omega) ht)
    constructor
    · intro hsl
      rw [show maximal_interval p = miOuter p (p.length - 1) from rfl, hmi]
      intro L j hL2 hLn hjL
      have hnone : slOuter p (p.length - 2) 1 p p = none := by
        rcases hcase : slOuter p (p.length - 2) 1 p p with _ | x
        · rfl
        · exfalso
          have hx1 : 1 ≤ x.1 := hpos x hcase
          have : simple_location p = x := by
            unfold simple_location
            rw [hcase]
            rfl
          rw [hsl] at this
          rw [← this] at hx1
          simp at hx1
      have hall := houter.mp hnone
      have hhit := hall (L - 1) (j + (L - 1)) (by omega) (by omega) (by omega) (by omega)
      have hform := hit_iff_icond p (L - 1) (j + (L - 1)) (by omega) (by omega) (by omega)
      have hnc : ¬ (icond p (L - 1 + 1) (j + (L - 1) - (L - 1)) = true) :=
        fun hc => hhit (hform.mpr hc)
      have hL1 : L - 1 + 1 = L := by omega
      have hj1 : j + (L - 1) - (L - 1) = j := by omega
      rw [hL1, hj1] at hnc
      simpa using hnc
    · intro hmi0
      rw [show maximal_interval p = miOuter p (p.length - 1) from rfl] at hmi0
      have hall := hmi.mp hmi0
      have hnone : slOuter p (p.length - 2) 1 p p = none := by
        rw [houter]
        intro L t hL1 hLf hLt htn hhit
        rw [hit_iff_icond p L t hL1 hLt htn] at hhit
        have := hall (L + 1) (t - L) (by omega) (by omega) (by omega)
        rw [this] at hhit
        cases hhit
      unfold simple_location
      rw [hnone]
      rfl

/-- a `(0, _)` result of the descending scan is exactly the `(0, 0)` sentinel -/
theorem miOuter_fst_zero (p : List Nat) :
    ∀ m, (miOuter p m).1 = 0 → miOuter p m = (0, 0) := by
  intro m
  induction m with
  | zero => intro _; rfl
  | succ k ih =>
    match k with
    | 0 => intro _; rfl
    | Nat.succ kp =>
      intro h
      rw [show kp + 1 + 1 = kp + 2 from rfl] at h ⊢
      unfold miOuter at h ⊢
      rcases hfind : (List.range (p.length - (kp + 2) + 1)).find? (fun j => icond p (kp + 2) j)
        with _ | j
      · rw [hfind] at h
        exact ih h
      · rw [hfind] at h
        simp at h

/-- C10: the two independently implemented interval detectors agree on
simplicity (`simple_location` returns the `(0,0)` sentinel iff
`maximal_interval` does), and whenever `is_simple` is false the interval
found by `maximal_interval` has length at least 2, so the `assert i != 0`
in `decomposition`'s reduction loop cannot fail and each pass strictly
shortens the base. -/
theorem simple_detectors_agree (p : List Nat) (hp : isPerm p) :
    ((simple_location p = (0, 0)) ↔ (maximal_interval p = (0, 0)))
    ∧ (is_simple p = false → 2 ≤ (maximal_interval p).1) := by
  refine ⟨simple_location_zero_iff p, ?_⟩
  intro hfalse
  have h1 : (simple_location p).1 ≠ 0 := by
    unfold is_simple at hfalse
    simpa using hfalse
  have h2 : simple_location p ≠ (0, 0) := fun hc => h1 (by rw [hc])
  have h3 : maximal_interval p ≠ (0, 0) := fun hc =>
    h2 ((simple_location_zero_iff p).mpr hc)
  have h4 : (maximal_interval p).1 ≠ 0 := fun hc => h3 (miOuter_fst_zero p _ hc)
  obtain ⟨h5, _⟩ := miOuter_eq_some p (p.length - 1) (maximal_interval p).1
    (maximal_interval p).2 (by omega) Prod.mk.eta.symm h4
  exact h5

/-- witness for C10 at the non-simple permutation `[1, 0, 2]` -/
theorem simple_detectors_agree_witness :
    isPerm [1, 0, 2] ∧ 2 ≤ (maximal_interval [1, 0, 2]).1 :=
  ⟨by decide, (simple_detectors_agree [1, 0, 2] (by decide)).2 (by decide)⟩

/-! ## Claim C4: ind2perm and perm2ind are inverse bijections -/

theorem getD_map (l : List Nat) (f : Nat → Nat) {t : Nat} (ht : t < l.length) :
    (l.map f).getD t 0 = f (l.getD t 0) := by
  have ht2 : t < (l.map f).length := by rw [List.length_map]; exact ht
  rw [getD_eq_getElem _ _ ht2, getD_eq_getElem _ _ ht, List.getElem_map]

theorem count_set_aux (v x : Nat) :
    ∀ (l : List Nat) (i : Nat), i < l.length →
      (l.set i v).count x + (if l.getD i 0 = x then 1 else 0)
        = l.count x + (if v = x then 1 else 0) := by
  intro l
  induction l with
  | nil =>
    intro i hi
    cases hi
  | cons a l ih =>
    intro i hi
    match i with
    | 0 =>
      show (v :: l).count x + _ = _
      rw [List.count_cons, List.count_cons, List.getD_cons_zero]
      simp only [beq_iff_eq, @eq_comm Nat x]
      omega
    | Nat.succ ip =>
      show (a :: l.set ip v).count x + _ = _
      rw [List.count_cons, List.count_cons, List.getD_cons_succ]
      simp only [beq_iff_eq, @eq_comm Nat x]
      have hih := ih ip (by simpa using hi)
      omega

theorem lswap_length (l : List Nat) (a b : Nat) : (lswap l a b).length = l.length := by
  unfold lswap
  rw [List.length_set, List.length_set]

theorem lswap_perm (l : List Nat) (a b : Nat) (ha : a < l.length) (hb : b < l.length) :
    (lswap l a b).Perm l := by
  rw [List.perm_iff_count]
  intro x
  have h1 := count_set_aux (l.getD b 0) x l a ha
  have h2 := count_set_aux (l.getD a 0) x (l.set a (l.getD b 0)) b
    (by rw [List.length_set]; exact hb)
  have h3 : (l.set a (l.getD b 0)).getD b 0 = l.getD b 0 := by
    by_cases hab : a = b
    · subst hab
      exact getD_set_self ha
    · exact getD_set_ne hab
  rw [h3] at h2
  unfold lswap
  omega

theorem set_getD_self (l : List Nat) (a : Nat) : l.set a (l.getD a 0) = l := by
  apply List.ext_getElem (by rw [List.length_set])
  intro i h1 h2
  rw [List.getElem_set]
  by_cases hai : a = i
  · subst hai
    rw [if_pos rfl, getD_eq_getElem _ _ h2]
  · rw [if_neg hai]

theorem lswap_self (l : List Nat) (a : Nat) : lswap l a a = l := by
  unfold lswap
  rw [List.set_set, set_getD_self]

theorem lswap_getD_fst (l : List Nat) (a b : Nat) (ha : a < l.length)
    (hb : b < l.length) : (lswap l a b).getD a 0 = l.getD b 0 := by
  unfold lswap
  by_cases hab : b = a
  · subst hab
    rw [getD_set_self (by rw [List.length_set]; exact ha)]
  · rw [getD_set_ne hab, getD_set_self ha]

theorem lswap_getD_snd (l : List Nat) (a b : Nat) (hb : b < l.length) :
    (lswap l a b).getD b 0 = l.getD a 0 := by
  unfold lswap
  rw [getD_set_self (by rw [List.length_set]; exact hb)]

theorem lswap_getD_other (l : List Nat) (a b t : Nat) (hta : t ≠ a) (htb : t ≠ b) :
    (lswap l a b).getD t 0 = l.getD t 0 := by
  unfold lswap
  rw [getD_set_ne (fun h => htb h.symm), getD_set_ne (fun h => hta h.symm)]

theorem getD_range (n j : Nat) (hj : j < n) : (List.range n).getD j 0 = j := by
  rw [getD_eq_getElem _ _ (by rw [List.length_range]; exact hj), List.getElem_range]

theorem map_getD_range (l : List Nat) :
    (List.range l.length).map (fun t => l.getD t 0) = l := by
  apply List.ext_getElem (by rw [List.length_map, List.length_range])
  intro i h1 h2
  rw [List.getElem_map, List.getElem_range]
  exact getD_eq_getElem _ _ h2

theorem ind2permLoop_perm : ∀ (m : Nat) (L : List Nat) (k : Nat), m ≤ L.length →
    (ind2permLoop L k m).Perm L := by
  intro m
  induction m with
  | zero =>
    intro L k _
    exact List.Perm.refl _
  | succ m ih =>
    intro L k hm
    show (ind2permLoop (lswap L m (k % (m + 1))) (k / (m + 1)) m).Perm L
    have hj : k % (m + 1) < m + 1 := Nat.mod_lt _ (by omega)
    have h1 := ih (lswap L m (k % (m + 1))) (k / (m + 1)) (by rw [lswap_length]; omega)
    exact h1.trans (lswap_perm L m (k % (m + 1)) (by omega) (by omega))

theorem ind2permLoop_length (m : Nat) (L : List Nat) (k : Nat) (hm : m ≤ L.length) :
    (ind2permLoop L k m).length = L.length :=
  (ind2permLoop_perm m L k hm).length_eq

theorem ind2permLoop_frozen : ∀ (m : Nat) (L : List Nat) (k : Nat) (t : Nat), m ≤ t →
    (ind2permLoop L k m).getD t 0 = L.getD t 0 := by
  intro m
  induction m with
  | zero =>
    intro L k t _
    rfl
  | succ m ih =>
    intro L k t ht
    show (ind2permLoop (lswap L m (k % (m + 1))) (k / (m + 1)) m).getD t 0 = _
    rw [ih _ _ t (by omega)]
    have hj : k % (m + 1) < m + 1 := Nat.mod_lt _ (by omega)
    exact lswap_getD_other L m (k % (m + 1)) t (by omega) (by omega)

theorem ind2permLoop_small (c : Nat) : ∀ (r : Nat) (L : List Nat) (k : Nat),
    r ≤ L.length → (∀ t, t < r → L.getD t 0 < c) →
    ∀ t, t < r → (ind2permLoop L k r).getD t 0 < c := by
  intro r
  induction r with
  | zero =>
    intro L k _ _ t ht
    omega
  | succ r ih =>
    intro L k hr hbound t ht
    show (ind2permLoop (lswap L r (k % (r + 1))) (k / (r + 1)) r).getD t 0 < c
    have hj : k % (r + 1) < r + 1 := Nat.mod_lt _ (by omega)
    have hinv : ∀ s, s < r + 1 → (lswap L r (k % (r + 1))).getD s 0 < c := by
      intro s hs
      by_cases hsr : s = r
      · subst hsr
        rw [lswap_getD_fst L s _ (by omega) (by omega)]
        exact hbound _ (by omega)
      · by_cases hsj : s = k % (r + 1)
        · subst hsj
          rw [lswap_getD_snd L r (k % (r + 1)) (by omega)]
          exact hbound r (by omega)
        · rw [lswap_getD_other L _ _ s hsr hsj]
          exact hbound s (by omega)
    rcases Nat.lt_or_ge t r with htr | htr
    · exact ih _ _ (by rw [lswap_length]; omega) (fun s hs => hinv s (by omega)) t htr
    · have hteq : t = r := by omega
      subst hteq
      rw [ind2permLoop_frozen t _ _ t (le_refl _)]
      exact hinv t (by omega)

theorem ind2permLoop_comp : ∀ (m : Nat) (L : List Nat) (k : Nat), m ≤ L.length →
    ind2permLoop L k m
      = (ind2permLoop (List.range L.length) k m).map (fun t => L.getD t 0) := by
  intro m
  induction m with
  | zero =>
    intro L k _
    exact (map_getD_range L).symm
  | succ m ih =>
    intro L k hm
    have hj : k % (m + 1) < m + 1 := Nat.mod_lt _ (by omega)
    show ind2permLoop (lswap L m (k % (m + 1))) (k / (m + 1)) m = _
    rw [ih (lswap L m (k % (m + 1))) (k / (m + 1)) (by rw [lswap_length]; omega)]
    have hR : ind2permLoop (List.range L.length) k (m + 1)
        = ind2permLoop (lswap (List.range L.length) m (k % (m + 1))) (k / (m + 1)) m := rfl
    rw [hR, ih (lswap (List.range L.length) m (k % (m + 1))) (k / (m + 1))
      (by rw [lswap_length, List.length_range]; omega)]
    rw [lswap_length L m (k % (m + 1))]
    rw [show (lswap (List.range L.length) m (k % (m + 1))).length = L.length by
      rw [lswap_length, List.length_range]]
    rw [List.map_map]
    apply List.map_congr_left
    intro t htmem
    have htn : t < L.length := by
      have hperm := ind2permLoop_perm m (List.range L.length) (k / (m + 1))
        (by rw [List.length_range]; omega)
      exact List.mem_range.mp (hperm.mem_iff.mp htmem)
    show (lswap L m (k % (m + 1))).getD t 0
      = L.getD ((lswap (List.range L.length) m (k % (m + 1))).getD t 0) 0
    by_cases htm : t = m
    · subst htm
      rw [lswap_getD_fst L t _ (by omega) (by omega),
        lswap_getD_fst (List.range L.length) t _
          (by rw [List.length_range]; omega) (by rw [List.length_range]; omega)]
      rw [getD_range _ _ (by omega)]
    · by_cases htj : t = k % (m + 1)
      · subst htj
        rw [lswap_getD_snd L m (k % (m + 1)) (by omega),
          lswap_getD_snd (List.range L.length) m (k % (m + 1))
            (by rw [List.length_range]; omega)]
        rw [getD_range _ m (by omega)]
      · rw [lswap_getD_other L m _ t htm htj,
          lswap_getD_other (List.range L.length) m _ t htm htj,
          getD_range _ t htn]

theorem mem_of_getD {l : List Nat} {t : Nat} (ht : t < l.length) : l.getD t 0 ∈ l := by
  rw [getD_eq_getElem _ _ ht]
  exact l.getElem_mem ht

theorem nodup_getD_inj {l : List Nat} (h : l.Nodup) {t1 t2 : Nat}
    (h1 : t1 < l.length) (h2 : t2 < l.length)
    (he : l.getD t1 0 = l.getD t2 0) : t1 = t2 := by
  rw [getD_eq_getElem _ _ h1, getD_eq_getElem _ _ h2] at he
  by_contra hne
  exact absurd he (h.getElem_inj_iff.not.mpr hne)

theorem indexOf_unique {q : List Nat} {v t0 : Nat} (ht0 : t0 < q.length)
    (hval : q.getD t0 0 = v)
    (huniq : ∀ t, t < q.length → q.getD t 0 = v → t = t0) :
    q.indexOf v = t0 := by
  have hmem : v ∈ q := hval ▸ mem_of_getD ht0
  have hlt : q.indexOf v < q.length := List.indexOf_lt_length.mpr hmem
  apply huniq _ hlt
  rw [getD_eq_getElem _ _ hlt]
  exact List.getElem_indexOf hlt

/-- the digits read back by `perm2ind` from `ind2perm`'s output rebuild the
index: main induction for the first C4 round trip -/
theorem perm2indLoop_ind2permLoop (n : Nat) :
    ∀ (m : Nat), m ≤ n → ∀ (k : Nat), k < Nat.factorial m → ∀ (acc mult : Nat),
      perm2indLoop (ind2permLoop (List.range n) k m) acc mult (m - 1)
        = acc + k * mult := by
  intro m
  induction m with
  | zero =>
    intro _ k hk acc mult
    obtain rfl : k = 0 := by
      simp [Nat.factorial] at hk
      omega
    show acc = acc + 0 * mult
    omega
  | succ m ih =>
    intro hm k hk acc mult
    rcases Nat.eq_zero_or_pos m with rfl | hpos
    · obtain rfl : k = 0 := by
        simp [Nat.factorial] at hk
        omega
      show acc = acc + 0 * mult
      omega
    · obtain ⟨mm, rfl⟩ : ∃ mm, m = mm + 1 := ⟨m - 1, by omega⟩
      have hj : k % (mm + 2) < mm + 2 := Nat.mod_lt _ (by omega)
      have hk2 : k / (mm + 2) < Nat.factorial (mm + 1) := by
        rw [Nat.div_lt_iff_lt_mul (by omega : 0 < mm + 2), Nat.mul_comm]
        rw [← Nat.factorial_succ (mm + 1)]
        exact hk
      have hrlen : (List.range n).length = n := List.length_range n
      have hσperm : (ind2permLoop (List.range n) (k / (mm + 2)) (mm + 1)).Perm
          (List.range n) :=
        ind2permLoop_perm (mm + 1) _ _ (by omega)
      have hσlen : (ind2permLoop (List.range n) (k / (mm + 2)) (mm + 1)).length = n := by
        rw [ind2permLoop_length _ _ _ (by omega), hrlen]
      set σ := ind2permLoop (List.range n) (k / (mm + 2)) (mm + 1) with hσ
      have hσnd : σ.Nodup := hσperm.nodup_iff.mpr (List.nodup_range n)
      have hσlt : ∀ t, t < n → σ.getD t 0 < n := by
        intro t ht
        have htl : t < σ.length := by omega
        exact List.mem_range.mp (hσperm.mem_iff.mp (mem_of_getD htl))
      have hfroz : ∀ t, mm + 1 ≤ t → t < n → σ.getD t 0 = t := by
        intro t h1 h2
        rw [hσ, ind2permLoop_frozen _ _ _ t h1, getD_range _ _ h2]
      have hsmall : ∀ t, t < mm + 1 → σ.getD t 0 < mm + 1 := by
        intro t ht
        rw [hσ]
        exact ind2permLoop_small (mm + 1) (mm + 1) (List.range n) (k / (mm + 2))
          (by omega) (fun s hs => by rw [getD_range _ _ (by omega)]; omega) t ht
      set lswapR := lswap (List.range n) (mm + 1) (k % (mm + 2)) with hlswapR
      have hlswapRlen : lswapR.length = n := by
        rw [hlswapR, lswap_length, hrlen]
      have hcomp : ind2permLoop (List.range n) k (mm + 2)
          = σ.map (fun t => lswapR.getD t 0) := by
        show ind2permLoop lswapR (k / (mm + 2)) (mm + 1) = _
        rw [ind2permLoop_comp (mm + 1) lswapR (k / (mm + 2)) (by omega), hlswapRlen]
      set q := ind2permLoop (List.range n) k (mm + 2) with hq
      have hqlen : q.length = n := by
        rw [hcomp, List.length_map, hσlen]
      have hdig : q.getD (mm + 1) 0 = k % (mm + 2) := by
        rw [hcomp, getD_map _ _ (by omega), hfroz (mm + 1) (le_refl _) (by omega),
          hlswapR, lswap_getD_fst _ _ _ (by omega) (by rw [hrlen]; omega),
          getD_range _ _ (by omega)]
      have hlswapR_at : ∀ x, x < n → x ≠ mm + 1 → x ≠ k % (mm + 2) →
          lswapR.getD x 0 = x := by
        intro x hx h1 h2
        rw [hlswapR, lswap_getD_other _ _ _ x h1 h2, getD_range _ _ hx]
      have hq_iff : ∀ t, t < n → (q.getD t 0 = mm + 1 ↔ σ.getD t 0 = k % (mm + 2)) := by
        intro t ht
        rw [hcomp, getD_map _ _ (by omega)]
        constructor
        · intro hx
          by_cases hxa : σ.getD t 0 = mm + 1
          · rw [hxa, hlswapR, lswap_getD_fst _ _ _ (by omega) (by rw [hrlen]; omega),
              getD_range _ _ (by omega)] at hx
            omega
          · by_cases hxb : σ.getD t 0 = k % (mm + 2)
            · exact hxb
            · rw [hlswapR_at _ (hσlt t ht) hxa hxb] at hx
              exact absurd hx hxa
        · intro hx
          rw [hx, hlswapR, lswap_getD_snd _ _ _ (by rw [hrlen]; omega),
            getD_range _ _ (by omega)]
      obtain ⟨s0, hs0n, hs0⟩ : ∃ s0, s0 < n ∧ σ.getD s0 0 = k % (mm + 2) := by
        have hmem : k % (mm + 2) ∈ σ := hσperm.mem_iff.mpr (List.mem_range.mpr (by omega))
        have hlt : σ.indexOf (k % (mm + 2)) < σ.length := List.indexOf_lt_length.mpr hmem
        refine ⟨σ.indexOf (k % (mm + 2)), by omega, ?_⟩
        rw [getD_eq_getElem _ _ hlt]
        exact List.getElem_indexOf hlt
      have hindexOf : q.indexOf (mm + 1) = s0 := by
        apply @indexOf_unique q (mm + 1) s0 (by omega)
        · rw [(hq_iff s0 hs0n)]
          exact hs0
        · intro t ht hval
          rw [hqlen] at ht
          have := (hq_iff t ht).mp hval
          exact nodup_getD_inj hσnd (by omega) (by omega) (this.trans hs0.symm)
      have hswapq : lswap q (mm + 1) s0 = σ := by
        apply List.ext_getElem (by rw [lswap_length, hqlen, hσlen])
        intro x hx1 hx2
        have hxn : x < n := by
          rw [lswap_length, hqlen] at hx1
          exact hx1
        rw [← getD_eq_getElem _ _ hx1, ← getD_eq_getElem _ _ hx2]
        by_cases hxm : x = mm + 1
        · rw [hxm]
          rw [lswap_getD_fst _ _ _ (by rw [hqlen]; omega) (by rw [hqlen]; omega)]
          rw [(hq_iff s0 hs0n).mpr hs0, hfroz (mm + 1) (le_refl _) (by omega)]
        · by_cases hxs : x = s0
          · rw [hxs]
            rw [lswap_getD_snd _ _ _ (by rw [hqlen]; omega), hdig, hs0]
          · rw [lswap_getD_other _ _ _ x hxm hxs]
            rw [hcomp, getD_map _ _ (by rw [hσlen]; exact hxn)]
            have hne1 : σ.getD x 0 ≠ mm + 1 := by
              intro hc
              apply hxm
              apply nodup_getD_inj hσnd (by omega) (by omega)
              rw [hc, hfroz (mm + 1) (le_refl _) (by omega)]
            have hne2 : σ.getD x 0 ≠ k % (mm + 2) := by
              intro hc
              exact hxs (nodup_getD_inj hσnd (by omega) (by omega) (hc.trans hs0.symm))
            exact hlswapR_at _ (hσlt x hxn) hne1 hne2
      show perm2indLoop q acc mult (mm + 1) = acc + k * mult
      have hstep : perm2indLoop q acc mult (mm + 1)
          = perm2indLoop (lswap q (mm + 1) (q.indexOf (mm + 1)))
              (acc + q.getD (mm + 1) 0 * mult) (mult * (mm + 2)) mm := rfl
      rw [hstep, hindexOf, hswapq, hdig]
      have hrec := ih (by omega) (k / (mm + 2)) hk2 (acc + k % (mm + 2) * mult)
        (mult * (mm + 2))
      rw [show (mm + 1) - 1 = mm from rfl] at hrec
      rw [← hσ] at hrec
      rw [hrec]
      have hksplit : k % (mm + 2) + (mm + 2) * (k / (mm + 2)) = k :=
        Nat.mod_add_div k (mm + 2)
      have hfin : k * mult = k % (mm + 2) * mult + k / (mm + 2) * (mult * (mm + 2)) := by
        conv_lhs => rw [← hksplit]
        ring
      omega

/-- first half of C4: `perm2ind` recovers the index from `ind2perm` -/
theorem perm2ind_ind2perm (n k : Nat) (hk : k < Nat.factorial n) :
    (ind2perm k n).map perm2ind = some k := by
  have hrlen : (List.range n).length = n := List.length_range n
  have hperm : (ind2permLoop (List.range n) k n).Perm (List.range n) :=
    ind2permLoop_perm n _ k (by rw [hrlen])
  have hlen : (ind2permLoop (List.range n) k n).length = n := by
    rw [ind2permLoop_length _ _ _ (by rw [hrlen]), hrlen]
  have hisperm : isPerm (ind2permLoop (List.range n) k n) := by
    unfold isPerm
    rw [hlen]
    exact hperm
  unfold ind2perm
  rw [standardize_eq_stdSpec _ hisperm.nodup, stdSpec_of_isPerm hisperm]
  show some (perm2ind (ind2permLoop (List.range n) k n)) = some k
  congr 1
  unfold perm2ind
  rw [hlen]
  have := perm2indLoop_ind2permLoop n n (le_refl n) k hk 0 1
  rw [this]
  ring

theorem perm2indLoop_linear : ∀ (i : Nat) (q : List Nat) (acc mult : Nat),
    perm2indLoop q acc mult i = acc + mult * perm2indLoop q 0 1 i := by
  intro i
  induction i with
  | zero =>
    intro q acc mult
    show acc = acc + mult * 0
    omega
  | succ i ih =>
    intro q acc mult
    show perm2indLoop (lswap q (i + 1) (q.indexOf (i + 1)))
      (acc + q.getD (i + 1) 0 * mult) (mult * (i + 2)) i = _
    rw [ih]
    have hR : perm2indLoop q 0 1 (i + 1)
        = perm2indLoop (lswap q (i + 1) (q.indexOf (i + 1)))
            (0 + q.getD (i + 1) 0 * 1) (1 * (i + 2)) i := rfl
    rw [hR, ih (lswap q (i + 1) (q.indexOf (i + 1))) (0 + q.getD (i + 1) 0 * 1) (1 * (i + 2))]
    ring

/-- in a permutation whose tail from position `m+1` is the identity, the
entries at positions up to `m` are at most `m` -/
theorem perm_tail_small {q : List Nat} {n m : Nat} (hq : q.Perm (List.range n))
    (hid : ∀ t, m + 1 ≤ t → t < n → q.getD t 0 = t) :
    ∀ t, t ≤ m → t < n → q.getD t 0 ≤ m := by
  have hlen : q.length = n := by rw [hq.length_eq, List.length_range]
  have hnd : q.Nodup := hq.nodup_iff.mpr (List.nodup_range n)
  intro t ht htn
  by_contra hgt
  push_neg at hgt
  have hvn : q.getD t 0 < n :=
    List.mem_range.mp (hq.mem_iff.mp (mem_of_getD (by omega)))
  have hv : q.getD (q.getD t 0) 0 = q.getD t 0 := hid _ (by omega) hvn
  have heq : q.getD t 0 = t := nodup_getD_inj hnd (by omega) (by omega) hv
  omega

/-- `ind2perm` rebuilds the permutation from `perm2ind`'s digits: main
induction for the second C4 round trip -/
theorem ind2permLoop_perm2indLoop (n : Nat) :
    ∀ (m : Nat), m ≤ n → ∀ (q : List Nat), q.Perm (List.range n) →
      (∀ t, m ≤ t → t < n → q.getD t 0 = t) →
      perm2indLoop q 0 1 (m - 1) < Nat.factorial m
      ∧ ind2permLoop (List.range n) (perm2indLoop q 0 1 (m - 1)) m = q := by
  intro m
  induction m with
  | zero =>
    intro _ q hq hid
    constructor
    · show (0 : Nat) < Nat.factorial 0
      decide
    · show List.range n = q
      symm
      apply List.ext_getElem (by rw [hq.length_eq, List.length_range])
      intro i h1 h2
      have hin : i < n := by rw [hq.length_eq, List.length_range] at h1; exact h1
      rw [← getD_eq_getElem _ _ h1, ← getD_eq_getElem _ _ h2,
        hid i (by omega) hin, getD_range _ _ hin]
  | succ m ih =>
    intro hm q hq hid
    have hlen : q.length = n := by rw [hq.length_eq, List.length_range]
    have hnd : q.Nodup := hq.nodup_iff.mpr (List.nodup_range n)
    rcases Nat.eq_zero_or_pos m with rfl | hpos
    · constructor
      · show (0 : Nat) < Nat.factorial 1
        decide
      · show ind2permLoop (lswap (List.range n) 0 (0 % 1)) (0 / 1) 0 = q
        show lswap (List.range n) 0 (0 % 1) = q
        rw [show (0 % 1 : Nat) = 0 from rfl, lswap_self]
        symm
        apply List.ext_getElem (by rw [hq.length_eq, List.length_range])
        intro i h1 h2
        have hin : i < n := by rw [hlen] at h1; exact h1
        rw [← getD_eq_getElem q 0 h1, ← getD_eq_getElem (List.range n) 0 h2,
          getD_range _ _ hin]
        rcases Nat.eq_zero_or_pos i with rfl | hip
        · have hsm := perm_tail_small hq (fun t ha hb => hid t ha hb) 0 (le_refl 0) hin
          omega
        · exact hid i (by omega) hin
    · obtain ⟨mm, rfl⟩ : ∃ mm, m = mm + 1 := ⟨m - 1, by omega⟩
      have hsmallq : ∀ t, t ≤ mm + 1 → t < n → q.getD t 0 ≤ mm + 1 :=
        perm_tail_small hq (fun t ha hb => hid t ha hb)
      set t1 := q.indexOf (mm + 1) with ht1def
      have hmem : mm + 1 ∈ q := hq.mem_iff.mpr (List.mem_range.mpr (by omega))
      have ht1lt : t1 < q.length := List.indexOf_lt_length.mpr hmem
      have ht1n : t1 < n := by omega
      have ht1val : q.getD t1 0 = mm + 1 := by
        rw [getD_eq_getElem _ _ ht1lt]
        exact List.getElem_indexOf ht1lt
      have ht1le : t1 ≤ mm + 1 := by
        by_contra hgt
        push_neg at hgt
        have := hid t1 (by omega) (by omega)
        omega
      set d := q.getD (mm + 1) 0 with hd
      have hdle : d ≤ mm + 1 := hsmallq (mm + 1) (le_refl _) (by omega)
      set q2 := lswap q (mm + 1) t1 with hq2
      have hq2perm : q2.Perm (List.range n) :=
        (lswap_perm q (mm + 1) t1 (by omega) (by omega)).trans hq
      have hq2len : q2.length = n := by rw [hq2, lswap_length, hlen]
      have hq2nd : q2.Nodup := hq2perm.nodup_iff.mpr (List.nodup_range n)
      have hq2id : ∀ t, mm + 1 ≤ t → t < n → q2.getD t 0 = t := by
        intro t h1 h2
        by_cases htm : t = mm + 1
        · rw [htm, hq2, lswap_getD_fst _ _ _ (by omega) (by omega)]
          rw [htm] at h2
          exact ht1val
        · by_cases htt1 : t = t1
          · omega
          · rw [hq2, lswap_getD_other _ _ _ t htm htt1]
            exact hid t (by omega) h2
      obtain ⟨hKlt, hKrec⟩ := ih (by omega) q2 hq2perm (fun t ha hb => hq2id t ha hb)
      rw [show mm + 1 - 1 = mm from rfl] at hKlt hKrec
      have hstep : perm2indLoop q 0 1 (mm + 1)
          = perm2indLoop q2 (0 + d * 1) (1 * (mm + 2)) mm := rfl
      have hkval : perm2indLoop q 0 1 (mm + 1)
          = d + (mm + 2) * perm2indLoop q2 0 1 mm := by
        rw [hstep, perm2indLoop_linear mm q2 (0 + d * 1) (1 * (mm + 2))]
        ring
      have hfs : Nat.factorial (mm + 2) = (mm + 2) * Nat.factorial (mm + 1) :=
        Nat.factorial_succ (mm + 1)
      constructor
      · rw [show mm + 1 + 1 - 1 = mm + 1 from rfl, hkval]
        calc d + (mm + 2) * perm2indLoop q2 0 1 mm
            < (mm + 2) + (mm + 2) * perm2indLoop q2 0 1 mm := by omega
          _ = (mm + 2) * (perm2indLoop q2 0 1 mm + 1) := by ring
          _ ≤ (mm + 2) * Nat.factorial (mm + 1) := Nat.mul_le_mul_left _ (by omega)
          _ = Nat.factorial (mm + 2) := hfs.symm
      · rw [show mm + 1 + 1 - 1 = mm + 1 from rfl, hkval]
        show ind2permLoop
          (lswap (List.range n) (mm + 1)
            ((d + (mm + 2) * perm2indLoop q2 0 1 mm) % (mm + 2)))
          ((d + (mm + 2) * perm2indLoop q2 0 1 mm) / (mm + 2)) (mm + 1) = q
        have hmod : (d + (mm + 2) * perm2indLoop q2 0 1 mm) % (mm + 2) = d := by
          rw [Nat.add_mul_mod_self_left]
          exact Nat.mod_eq_of_lt (by omega)
        have hdiv : (d + (mm + 2) * perm2indLoop q2 0 1 mm) / (mm + 2)
            = perm2indLoop q2 0 1 mm := by
          rw [Nat.add_mul_div_left _ _ (by omega : 0 < mm + 2)]
          rw [Nat.div_eq_of_lt (by omega)]
          omega
        rw [hmod, hdiv]
        rw [ind2permLoop_comp (mm + 1) _ _ (by rw [lswap_length, List.length_range]; omega)]
        rw [show (lswap (List.range n) (mm + 1) d).length = n by
          rw [lswap_length, List.length_range]]
        rw [hKrec]
        apply List.ext_getElem (by rw [List.length_map, hq2len, hlen])
        intro x hx1 hx2
        have hxn : x < n := by rw [List.length_map, hq2len] at hx1; exact hx1
        rw [← getD_eq_getElem _ _ hx1, ← getD_eq_getElem _ _ hx2]
        rw [getD_map _ _ (by rw [hq2len]; exact hxn)]
        by_cases hxm : x = mm + 1
        · rw [hxm]
          rw [hq2id (mm + 1) (le_refl _) (by omega)]
          rw [lswap_getD_fst _ _ _ (by rw [List.length_range]; omega)
            (by rw [List.length_range]; omega)]
          rw [getD_range _ _ (by omega)]
        · by_cases hxt : x = t1
          · rw [hxt]
            rw [hq2, lswap_getD_snd _ _ _ (by omega)]
            rw [← hd]
            rw [lswap_getD_snd _ _ _ (by rw [List.length_range]; omega),
              getD_range _ _ (by omega)]
            exact ht1val.symm
          · rw [hq2, lswap_getD_other _ _ _ x hxm hxt]
            have h1 : q.getD x 0 ≠ mm + 1 := fun hc =>
              hxt (nodup_getD_inj hnd (by omega) (by omega) (hc.trans ht1val.symm))
            have h2 : q.getD x 0 ≠ d := fun hc =>
              hxm (nodup_getD_inj hnd (by omega) (by omega) (hc.trans hd))
            have hqx : q.getD x 0 < n :=
              List.mem_range.mp (hq.mem_iff.mp (mem_of_getD (by omega)))
            rw [lswap_getD_other _ _ _ _ h1 h2, getD_range _ _ hqx]

/-- second half of C4 as a helper: `ind2perm` rebuilds a permutation from its
index -/
theorem ind2perm_perm2ind (p : List Nat) (hp : isPerm p) :
    ind2perm (perm2ind p) p.length = some p ∧ perm2ind p < Nat.factorial p.length := by
  obtain ⟨hlt, hrec⟩ := ind2permLoop_perm2indLoop p.length p.length (le_refl _) p hp
    (fun t h1 h2 => by omega)
  refine ⟨?_, hlt⟩
  unfold ind2perm perm2ind
  rw [hrec]
  rw [standardize_eq_stdSpec _ hp.nodup, stdSpec_of_isPerm hp]

/-- C4: `ind2perm` and `perm2ind` are mutually inverse, giving a bijection
between the indices `0 ≤ k < n!` and the permutations of length `n`: for every
`k < n!`, `perm2ind` of `ind2perm k n` returns `k`, and for every permutation
`p`, `ind2perm (perm2ind p) p.length` returns `p` -/
theorem indexing_bijection (n k : Nat) (hk : k < Nat.factorial n)
    (p : List Nat) (hp : isPerm p) :
    (ind2perm k n).map perm2ind = some k
    ∧ ind2perm (perm2ind p) p.length = some p := by
  refine ⟨perm2ind_ind2perm n k hk, ?_⟩
  exact (ind2perm_perm2ind p hp).1

/-! ## C1: the bound-table search agrees with brute-force occurrence counting -/

theorem drop_getD (l : List Nat) (m k : Nat) :
    (l.drop m).getD k 0 = l.getD (m + k) 0 := by
  rw [List.getD_eq_getElem?_getD, List.getD_eq_getElem?_getD, List.getElem?_drop]

theorem getD_map_range {β : Type} (f : Nat → β) (d : β) {n r : Nat} (hr : r < n) :
    ((List.range n).map f).getD r d = f r := by
  rw [List.getD_eq_getElem?_getD, List.getElem?_map, List.getElem?_range hr]
  rfl

/-- appending one upper bound to a strictly increasing chain -/
theorem chain_snoc_iff (l : List Nat) (b : Nat) :
    List.Chain' (fun x y => x < y) (l ++ [b]) ↔
      List.Chain' (fun x y => x < y) l ∧ ∀ x ∈ l.getLast?, x < b := by
  rw [List.chain'_append]
  constructor
  · rintro ⟨h1, _, h3⟩
    exact ⟨h1, fun x hx => h3 x hx b rfl⟩
  · rintro ⟨h1, h2⟩
    refine ⟨h1, List.chain'_singleton b, fun x hx y hy => ?_⟩
    have hyb : y = b := by
      have := hy
      simp at this
      omega
    rw [hyb]
    exact h2 x hx

theorem chain_lt_getD {idx : List Nat} (h : List.Chain' (fun a b => a < b) idx)
    {a b : Nat} (hab : a < b) (hb : b < idx.length) :
    idx.getD a 0 < idx.getD b 0 := by
  have hp := List.chain'_iff_pairwise.mp h
  rw [List.pairwise_iff_getElem] at hp
  rw [getD_eq_getElem _ _ (show a < idx.length by omega), getD_eq_getElem _ _ hb]
  exact hp a b (by omega) hb hab

/-- elements of a chain bounded above by an appended sentinel -/
theorem chain_mem_lt {idx : List Nat} {C : Nat}
    (h : List.Chain' (fun a b => a < b) (idx ++ [C])) :
    ∀ x ∈ idx, x < C := by
  have hp := List.chain'_iff_pairwise.mp h
  rw [List.pairwise_append] at hp
  intro x hx
  exact hp.2.2 x hx C (by simp)

/-- invariant of the `max_below` half of the `set_up_bounds` inner scan:
after processing the positions in `S`, either no position of `S` holds a value
below `L[i]` and the state is still the `-1` sentinel pair, or the state
records the position `j0 ∈ S` of the largest such value -/
def lbInv (L : List Nat) (i : Nat) (S : List Nat) (mb lbi : Int) : Prop :=
  (mb = -1 ∧ lbi = -1 ∧ ∀ j ∈ S, ¬ (L.getD j 0 < L.getD i 0))
  ∨ (∃ j0, j0 ∈ S ∧ mb = (L.getD j0 0 : Int) ∧ lbi = (j0 : Int)
      ∧ L.getD j0 0 < L.getD i 0
      ∧ ∀ j ∈ S, L.getD j 0 < L.getD i 0 → L.getD j 0 ≤ L.getD j0 0)

/-- invariant of the `min_above` half of the `set_up_bounds` inner scan -/
def ubInv (L : List Nat) (i : Nat) (S : List Nat) (ma ubi : Int) : Prop :=
  (ma = -1 ∧ ubi = -1 ∧ ∀ j ∈ S, L.getD j 0 < L.getD i 0)
  ∨ (∃ j0, j0 ∈ S ∧ ma = (L.getD j0 0 : Int) ∧ ubi = (j0 : Int)
      ∧ ¬ (L.getD j0 0 < L.getD i 0)
      ∧ ∀ j ∈ S, ¬ (L.getD j 0 < L.getD i 0) → L.getD j0 0 ≤ L.getD j 0)

theorem buStep_inv (L : List Nat) (i x : Nat) (S : List Nat)
    (mb lbi ma ubi : Int)
    (hlb : lbInv L i S mb lbi) (hub : ubInv L i S ma ubi) :
    lbInv L i (S ++ [x]) (buStep L (L.getD i 0) (mb, lbi, ma, ubi) x).1
        (buStep L (L.getD i 0) (mb, lbi, ma, ubi) x).2.1
    ∧ ubInv L i (S ++ [x]) (buStep L (L.getD i 0) (mb, lbi, ma, ubi) x).2.2.1
        (buStep L (L.getD i 0) (mb, lbi, ma, ubi) x).2.2.2 := by
  have hmem : ∀ j : Nat, j ∈ S ++ [x] ↔ j ∈ S ∨ j = x := by
    intro j
    rw [List.mem_append, List.mem_singleton]
  by_cases hx : ((L.getD x 0 : Int) < (L.getD i 0 : Int))
  · have hxn : L.getD x 0 < L.getD i 0 := by omega
    by_cases h2 : mb < (L.getD x 0 : Int)
    · have hred : buStep L (L.getD i 0) (mb, lbi, ma, ubi) x
          = ((L.getD x 0 : Int), (x : Int), ma, ubi) := by
        simp only [buStep]
        rw [if_pos hx, if_pos h2]
      rw [hred]
      simp only [lbInv, ubInv]
      constructor
      · right
        refine ⟨x, (hmem x).mpr (Or.inr rfl), rfl, rfl, hxn, ?_⟩
        intro j hj hjb
        rcases (hmem j).mp hj with hj | rfl
        · rcases hlb with ⟨hmb, _, hnone⟩ | ⟨j0, _, hmbv, _, _, hmax⟩
          · exact absurd hjb (hnone j hj)
          · have h1 := hmax j hj hjb
            omega
        · exact le_refl _
      · rcases hub with ⟨hma, hubi, hbelow⟩ | ⟨j0, hj0S, hmav, hubiv, hj0a, hmin⟩
        · left
          refine ⟨hma, hubi, ?_⟩
          intro j hj
          rcases (hmem j).mp hj with hj | rfl
          · exact hbelow j hj
          · exact hxn
        · right
          refine ⟨j0, (hmem j0).mpr (Or.inl hj0S), hmav, hubiv, hj0a, ?_⟩
          intro j hj hja
          rcases (hmem j).mp hj with hj | rfl
          · exact hmin j hj hja
          · exact absurd hxn hja
    · have hred : buStep L (L.getD i 0) (mb, lbi, ma, ubi) x
          = (mb, lbi, ma, ubi) := by
        simp only [buStep]
        rw [if_pos hx, if_neg h2]
      rw [hred]
      simp only [lbInv, ubInv]
      constructor
      · rcases hlb with ⟨hmb, _, _⟩ | ⟨j0, hj0S, hmbv, hlbiv, hj0b, hmax⟩
        · exfalso
          rw [hmb] at h2
          omega
        · right
          refine ⟨j0, (hmem j0).mpr (Or.inl hj0S), hmbv, hlbiv, hj0b, ?_⟩
          intro j hj hjb
          rcases (hmem j).mp hj with hj | rfl
          · exact hmax j hj hjb
          · omega
      · rcases hub with ⟨hma, hubi, hbelow⟩ | ⟨j0, hj0S, hmav, hubiv, hj0a, hmin⟩
        · left
          refine ⟨hma, hubi, ?_⟩
          intro j hj
          rcases (hmem j).mp hj with hj | rfl
          · exact hbelow j hj
          · exact hxn
        · right
          refine ⟨j0, (hmem j0).mpr (Or.inl hj0S), hmav, hubiv, hj0a, ?_⟩
          intro j hj hja
          rcases (hmem j).mp hj with hj | rfl
          · exact hmin j hj hja
          · exact absurd hxn hja
  · have hxn : ¬ (L.getD x 0 < L.getD i 0) := by omega
    by_cases h3 : ((L.getD x 0 : Int) < ma ∨ ma = -1)
    · have hred : buStep L (L.getD i 0) (mb, lbi, ma, ubi) x
          = (mb, lbi, (L.getD x 0 : Int), (x : Int)) := by
        simp only [buStep]
        rw [if_neg hx, if_pos h3]
      rw [hred]
      simp only [lbInv, ubInv]
      constructor
      · rcases hlb with ⟨hmb, hlbi, hnone⟩ | ⟨j0, hj0S, hmbv, hlbiv, hj0b, hmax⟩
        · left
          refine ⟨hmb, hlbi, ?_⟩
          intro j hj
          rcases (hmem j).mp hj with hj | rfl
          · exact hnone j hj
          · exact hxn
        · right
          refine ⟨j0, (hmem j0).mpr (Or.inl hj0S), hmbv, hlbiv, hj0b, ?_⟩
          intro j hj hjb
          rcases (hmem j).mp hj with hj | rfl
          · exact hmax j hj hjb
          · exact absurd hjb hxn
      · right
        refine ⟨x, (hmem x).mpr (Or.inr rfl), rfl, rfl, hxn, ?_⟩
        intro j hj hja
        rcases (hmem j).mp hj with hj | rfl
        · rcases hub with ⟨hma, _, hbelow⟩ | ⟨j0, _, hmav, _, hj0a, hmin⟩
          · exact absurd (hbelow j hj) hja
          · have hj0le := hmin j hj hja
            rcases h3 with h3 | h3 <;> omega
        · exact le_refl _
    · have hred : buStep L (L.getD i 0) (mb, lbi, ma, ubi) x
          = (mb, lbi, ma, ubi) := by
        simp only [buStep]
        rw [if_neg hx, if_neg h3]
      rw [hred]
      push_neg at h3
      simp only [lbInv, ubInv]
      constructor
      · rcases hlb with ⟨hmb, hlbi, hnone⟩ | ⟨j0, hj0S, hmbv, hlbiv, hj0b, hmax⟩
        · left
          refine ⟨hmb, hlbi, ?_⟩
          intro j hj
          rcases (hmem j).mp hj with hj | rfl
          · exact hnone j hj
          · exact hxn
        · right
          refine ⟨j0, (hmem j0).mpr (Or.inl hj0S), hmbv, hlbiv, hj0b, ?_⟩
          intro j hj hjb
          rcases (hmem j).mp hj with hj | rfl
          · exact hmax j hj hjb
          · exact absurd hjb hxn
      · rcases hub with ⟨hma, _, _⟩ | ⟨j0, hj0S, hmav, hubiv, hj0a, hmin⟩
        · exact absurd hma h3.2
        · right
          refine ⟨j0, (hmem j0).mpr (Or.inl hj0S), hmav, hubiv, hj0a, ?_⟩
          intro j hj hja
          rcases (hmem j).mp hj with hj | rfl
          · exact hmin j hj hja
          · omega

theorem foldl_buStep_inv (L : List Nat) (i : Nat) :
    ∀ (js S : List Nat) (st : Int × Int × Int × Int),
      lbInv L i S st.1 st.2.1 → ubInv L i S st.2.2.1 st.2.2.2 →
      lbInv L i (S ++ js) (js.foldl (buStep L (L.getD i 0)) st).1
          (js.foldl (buStep L (L.getD i 0)) st).2.1
      ∧ ubInv L i (S ++ js) (js.foldl (buStep L (L.getD i 0)) st).2.2.1
          (js.foldl (buStep L (L.getD i 0)) st).2.2.2 := by
  intro js
  induction js with
  | nil =>
    intro S st h1 h2
    rw [List.append_nil]
    exact ⟨h1, h2⟩
  | cons x js ih =>
    intro S st h1 h2
    obtain ⟨mb, lbi, ma, ubi⟩ := st
    obtain ⟨h1', h2'⟩ := buStep_inv L i x S mb lbi ma ubi h1 h2
    have h := ih (S ++ [x]) (buStep L (L.getD i 0) (mb, lbi, ma, ubi) x) h1' h2'
    rw [List.append_assoc, List.singleton_append] at h
    exact h

theorem boundsFor_spec (L : List Nat) (i : Nat) :
    ∃ mb ma, lbInv L i (List.range' (i + 1) (L.length - (i + 1))) mb (boundsFor L i).1
      ∧ ubInv L i (List.range' (i + 1) (L.length - (i + 1))) ma (boundsFor L i).2 := by
  have h := foldl_buStep_inv L i (List.range' (i + 1) (L.length - (i + 1))) []
    (-1, -1, -1, -1) (Or.inl ⟨rfl, rfl, by simp⟩) (Or.inl ⟨rfl, rfl, by simp⟩)
  rw [List.nil_append] at h
  exact ⟨_, _, h.1, h.2⟩

/-- clean reading of `lower_bound[i]`: either the `-1` sentinel with no smaller
value to the right, or the position of the largest smaller value to the right -/
theorem lb_spec (L : List Nat) (i : Nat) (hi : i < L.length) :
    ((boundsFor L i).1 = -1 ∧ ∀ j, i < j → j < L.length → ¬ (L.getD j 0 < L.getD i 0))
    ∨ (∃ j0, i < j0 ∧ j0 < L.length ∧ (boundsFor L i).1 = (j0 : Int)
        ∧ L.getD j0 0 < L.getD i 0
        ∧ ∀ j, i < j → j < L.length → L.getD j 0 < L.getD i 0
            → L.getD j 0 ≤ L.getD j0 0) := by
  obtain ⟨mb, ma, hlb, hub⟩ := boundsFor_spec L i
  have hmem : ∀ j : Nat, j ∈ List.range' (i + 1) (L.length - (i + 1))
      ↔ i < j ∧ j < L.length := by
    intro j
    rw [List.mem_range'_1]
    omega
  rcases hlb with ⟨_, hlbi, hnone⟩ | ⟨j0, hj0S, _, hlbiv, hj0b, hmax⟩
  · left
    exact ⟨hlbi, fun j h1 h2 => hnone j ((hmem j).mpr ⟨h1, h2⟩)⟩
  · right
    obtain ⟨hj0a, hj0b'⟩ := (hmem j0).mp hj0S
    exact ⟨j0, hj0a, hj0b', hlbiv, hj0b,
      fun j h1 h2 h3 => hmax j ((hmem j).mpr ⟨h1, h2⟩) h3⟩

/-- clean reading of `upper_bound[i]`: either the `-1` sentinel with no larger
value to the right, or the position of the smallest larger value to the right -/
theorem ub_spec (L : List Nat) (i : Nat) (hi : i < L.length) :
    ((boundsFor L i).2 = -1 ∧ ∀ j, i < j → j < L.length → L.getD j 0 < L.getD i 0)
    ∨ (∃ j0, i < j0 ∧ j0 < L.length ∧ (boundsFor L i).2 = (j0 : Int)
        ∧ ¬ (L.getD j0 0 < L.getD i 0)
        ∧ ∀ j, i < j → j < L.length → ¬ (L.getD j 0 < L.getD i 0)
            → L.getD j0 0 ≤ L.getD j 0) := by
  obtain ⟨mb, ma, hlb, hub⟩ := boundsFor_spec L i
  have hmem : ∀ j : Nat, j ∈ List.range' (i + 1) (L.length - (i + 1))
      ↔ i < j ∧ j < L.length := by
    intro j
    rw [List.mem_range'_1]
    omega
  rcases hub with ⟨_, hubi, hall⟩ | ⟨j0, hj0S, _, hubiv, hj0a, hmin⟩
  · left
    exact ⟨hubi, fun j h1 h2 => hall j ((hmem j).mpr ⟨h1, h2⟩)⟩
  · right
    obtain ⟨hj0a', hj0b'⟩ := (hmem j0).mp hj0S
    exact ⟨j0, hj0a', hj0b', hubiv, hj0a,
      fun j h1 h2 h3 => hmin j ((hmem j).mpr ⟨h1, h2⟩) h3⟩

theorem mem_getLast?_concat (l : List Nat) (a : Nat) : a ∈ (l ++ [a]).getLast? := by
  rw [List.getLast?_concat]
  exact Option.mem_def.mpr rfl

theorem eq_of_mem_getLast?_concat {l : List Nat} {a x : Nat}
    (hx : x ∈ (l ++ [a]).getLast?) : x = a := by
  rw [List.getLast?_concat, Option.mem_def] at hx
  injection hx with h
  exact h.symm

theorem chain_snoc_split {l : List Nat} {a b : Nat}
    (h : List.Chain' (fun x y => x < y) ((l ++ [a]) ++ [b])) :
    List.Chain' (fun x y => x < y) (l ++ [a]) ∧ a < b := by
  obtain ⟨h1, h2⟩ := (chain_snoc_iff (l ++ [a]) b).mp h
  exact ⟨h1, h2 a (mem_getLast?_concat l a)⟩

theorem chain_snoc_build {l : List Nat} {a b : Nat}
    (h1 : List.Chain' (fun x y => x < y) (l ++ [a])) (hab : a < b) :
    List.Chain' (fun x y => x < y) ((l ++ [a]) ++ [b]) :=
  (chain_snoc_iff (l ++ [a]) b).mpr
    ⟨h1, fun x hx => by rw [eq_of_mem_getLast?_concat hx]; exact hab⟩

theorem drop_concat_of_le {l : List Nat} {a : Nat} {t : Nat} (ht : t ≤ l.length) :
    (l ++ [a]).drop t = l.drop t ++ [a] := by
  rw [List.drop_append_eq_append_drop, show t - l.length = 0 by omega]
  rfl

/-- characterization of the `involvement_check` backtracking loop: it succeeds
iff the remaining pattern positions `0..r` can be assigned strictly increasing
host indices, the last below `c`, all passing the feasibility test -/
theorem searchLoop_iff (P : List Nat) (lb ub : List Int) :
    ∀ (r : Nat) (suf : List Nat) (c : Nat),
      searchLoop P lb ub r suf c = true ↔
        ∃ ext : List Nat, ext.length = r + 1
          ∧ List.Chain' (fun a b => a < b) (ext ++ [c])
          ∧ ∀ t, t ≤ r → involvement_fits P lb ub (ext.drop t ++ suf) t = true := by
  intro r
  induction r with
  | zero =>
    intro suf c
    induction c with
    | zero =>
      apply iff_of_false
      · simp [searchLoop]
      · rintro ⟨ext, hlen, hch, _⟩
        rcases List.eq_nil_or_concat ext with rfl | ⟨ext', a, rfl⟩
        · simp at hlen
        · rw [List.concat_eq_append] at hch
          obtain ⟨_, ha0⟩ := chain_snoc_split hch
          omega
    | succ c ihc =>
      have hunf : searchLoop P lb ub 0 suf (c + 1) = true
          ↔ (involvement_fits P lb ub (c :: suf) 0 = true
             ∨ searchLoop P lb ub 0 suf c = true) := by
        simp only [searchLoop]
        simp [Bool.or_eq_true, Bool.and_true]
      rw [hunf, ihc]
      constructor
      · rintro (hfits | ⟨ext, hlen, hch, hf⟩)
        · refine ⟨[c], rfl, List.chain'_pair.mpr (by omega), ?_⟩
          intro t ht
          have ht0 : t = 0 := by omega
          rw [ht0]
          exact hfits
        · obtain ⟨h1, h2⟩ := (chain_snoc_iff ext c).mp hch
          exact ⟨ext, hlen,
            (chain_snoc_iff ext (c + 1)).mpr
              ⟨h1, fun x hx => by have := h2 x hx; omega⟩, hf⟩
      · rintro ⟨ext, hlen, hch, hf⟩
        rcases List.eq_nil_or_concat ext with rfl | ⟨ext', a, rfl⟩
        · simp at hlen
        rw [List.concat_eq_append] at hlen hch hf
        have hlen' : ext' = [] := by
          rw [List.length_append, List.length_singleton] at hlen
          exact List.length_eq_zero.mp (by omega)
        subst hlen'
        obtain ⟨hch1, hac⟩ := chain_snoc_split hch
        by_cases hieq : a = c
        · left
          have hfl := hf 0 (le_refl 0)
          rw [List.nil_append, hieq] at hfl
          exact hfl
        · right
          refine ⟨[] ++ [a], hlen, chain_snoc_build hch1 (by omega), hf⟩
  | succ rp ihr =>
    intro suf c
    induction c with
    | zero =>
      apply iff_of_false
      · simp [searchLoop]
      · rintro ⟨ext, hlen, hch, _⟩
        rcases List.eq_nil_or_concat ext with rfl | ⟨ext', a, rfl⟩
        · simp at hlen
        · rw [List.concat_eq_append] at hch
          obtain ⟨_, ha0⟩ := chain_snoc_split hch
          omega
    | succ c ihc =>
      have hunf : searchLoop P lb ub (rp + 1) suf (c + 1) = true
          ↔ ((involvement_fits P lb ub (c :: suf) (rp + 1) = true
              ∧ searchLoop P lb ub rp (c :: suf) c = true)
             ∨ searchLoop P lb ub (rp + 1) suf c = true) := by
        simp only [searchLoop]
        simp [Bool.or_eq_true, Bool.and_eq_true]
      rw [hunf, ihr (c :: suf) c, ihc]
      constructor
      · rintro (⟨hfits, ⟨ext', hlen', hch', hf'⟩⟩ | ⟨ext, hlen, hch, hf⟩)
        · refine ⟨ext' ++ [c], by rw [List.length_append, List.length_singleton]; omega,
            chain_snoc_build hch' (by omega), ?_⟩
          intro t ht
          by_cases htr : t ≤ rp
          · rw [drop_concat_of_le (by omega), List.append_assoc, List.singleton_append]
            exact hf' t htr
          · have ht1 : t = rp + 1 := by omega
            have hd : (ext' ++ [c]).drop (rp + 1) = [c] := by
              rw [drop_concat_of_le (by omega), ← hlen', List.drop_length, List.nil_append]
            rw [ht1, hd, List.singleton_append]
            exact hfits
        · obtain ⟨h1, h2⟩ := (chain_snoc_iff ext c).mp hch
          exact ⟨ext, hlen,
            (chain_snoc_iff ext (c + 1)).mpr
              ⟨h1, fun x hx => by have := h2 x hx; omega⟩, hf⟩
      · rintro ⟨ext, hlen, hch, hf⟩
        rcases List.eq_nil_or_concat ext with rfl | ⟨ext', a, rfl⟩
        · simp at hlen
        rw [List.concat_eq_append] at hlen hch hf
        have hlen' : ext'.length = rp + 1 := by
          rw [List.length_append, List.length_singleton] at hlen
          omega
        obtain ⟨hch1, hac⟩ := chain_snoc_split hch
        by_cases hieq : a = c
        · left
          refine ⟨?_, ext', hlen', ?_, ?_⟩
          · have hfl := hf (rp + 1) (by omega)
            have hd : (ext' ++ [a]).drop (rp + 1) = [a] := by
              rw [drop_concat_of_le (by omega), ← hlen', List.drop_length, List.nil_append]
            rw [hd, List.singleton_append, hieq] at hfl
            exact hfl
          · rw [← hieq]
            exact hch1
          · intro t ht
            have hfl := hf t (by omega)
            rw [drop_concat_of_le (by omega), List.append_assoc,
              List.singleton_append, hieq] at hfl
            exact hfl
        · right
          exact ⟨ext' ++ [a], hlen, chain_snoc_build hch1 (by omega), hf⟩

/-- characterization of the outer `while indices[n-1] >= 0` loop of
`involved_in` -/
theorem involveTop_iff (P : List Nat) (lb ub : List Int) (m : Nat) :
    ∀ C, involveTop P lb ub (m + 2) C = true ↔
      ∃ idx : List Nat, idx.length = m + 2
        ∧ List.Chain' (fun a b => a < b) (idx ++ [C])
        ∧ ∀ t, t ≤ m → involvement_fits P lb ub (idx.drop t) t = true := by
  intro C
  induction C with
  | zero =>
    apply iff_of_false
    · simp [involveTop]
    · rintro ⟨idx, hlen, hch, _⟩
      rcases List.eq_nil_or_concat idx with rfl | ⟨idx', a, rfl⟩
      · simp at hlen
      · rw [List.concat_eq_append] at hch
        obtain ⟨_, ha0⟩ := chain_snoc_split hch
        omega
  | succ C ihc =>
    have hunf : involveTop P lb ub (m + 2) (C + 1) = true
        ↔ (srch P lb ub (m + 2 - 1) [C] = true
           ∨ involveTop P lb ub (m + 2) C = true) := by
      simp only [involveTop]
      simp [Bool.or_eq_true]
    have hsr : srch P lb ub (m + 2 - 1) [C] = searchLoop P lb ub m [C] C := rfl
    rw [hunf, hsr, searchLoop_iff P lb ub m [C] C, ihc]
    constructor
    · rintro (⟨ext, hlen, hch, hf⟩ | ⟨idx, hlen, hch, hf⟩)
      · refine ⟨ext ++ [C], by rw [List.length_append, List.length_singleton]; omega,
          chain_snoc_build hch (by omega), ?_⟩
        intro t ht
        rw [drop_concat_of_le (by omega)]
        exact hf t ht
      · obtain ⟨h1, h2⟩ := (chain_snoc_iff idx C).mp hch
        exact ⟨idx, hlen,
          (chain_snoc_iff idx (C + 1)).mpr
            ⟨h1, fun x hx => by have := h2 x hx; omega⟩, hf⟩
    · rintro ⟨idx, hlen, hch, hf⟩
      rcases List.eq_nil_or_concat idx with rfl | ⟨ext, a, rfl⟩
      · simp at hlen
      rw [List.concat_eq_append] at hlen hch hf
      have hlen' : ext.length = m + 1 := by
        rw [List.length_append, List.length_singleton] at hlen
        omega
      obtain ⟨hch1, hac⟩ := chain_snoc_split hch
      by_cases hieq : a = C
      · left
        refine ⟨ext, hlen', by rw [← hieq]; exact hch1, ?_⟩
        intro t ht
        have hfl := hf t ht
        rw [drop_concat_of_le (by omega), hieq] at hfl
        exact hfl
      · right
        exact ⟨ext ++ [a], hlen, chain_snoc_build hch1 (by omega), hf⟩

theorem boundsFor_of_le (L : List Nat) (i : Nat) (h : L.length ≤ i + 1) :
    boundsFor L i = (-1, -1) := by
  unfold boundsFor
  rw [show L.length - (i + 1) = 0 by omega]
  rfl

/-- the feasibility test is vacuous at the last pattern position, whose bound
entries are still the `-1` sentinels -/
theorem fits_last (q P l : List Nat) (hq : 1 ≤ q.length) :
    involvement_fits P (set_up_bounds q).1 (set_up_bounds q).2 l (q.length - 1)
      = true := by
  have h1 : ((set_up_bounds q).1).getD (q.length - 1) (-1) = -1 := by
    show (((List.range q.length).map fun i => (boundsFor q i).1)).getD
      (q.length - 1) (-1) = -1
    rw [getD_map_range _ _ (show q.length - 1 < q.length by omega)]
    rw [boundsFor_of_le q _ (by omega)]
  have h2 : ((set_up_bounds q).2).getD (q.length - 1) (-1) = -1 := by
    show (((List.range q.length).map fun i => (boundsFor q i).2)).getD
      (q.length - 1) (-1) = -1
    rw [getD_map_range _ _ (show q.length - 1 < q.length by omega)]
    rw [boundsFor_of_le q _ (by omega)]
  unfold involvement_fits
  rw [h1, h2]
  rfl

/-- `involved_in` for a pattern of length at least two: success iff some
strictly increasing assignment of host indices passes every feasibility
test -/
theorem involved_in_iff_exists (q P : List Nat) (m : Nat) (hq : q.length = m + 2) :
    involved_in q P = true ↔
      ∃ idx : List Nat, idx.length = q.length
        ∧ List.Chain' (fun a b => a < b) (idx ++ [P.length])
        ∧ ∀ t, t < q.length →
            involvement_fits P (set_up_bounds q).1 (set_up_bounds q).2
              (idx.drop t) t = true := by
  unfold involved_in
  have hcond : (decide (q.length ≤ 1) && decide (q.length ≤ P.length)) = false := by
    rw [hq]
    simp
  rw [if_neg (by rw [hcond]; exact Bool.false_ne_true)]
  rw [show q.length = m + 2 from hq, involveTop_iff]
  constructor
  · rintro ⟨idx, hlen, hch, hf⟩
    refine ⟨idx, by omega, hch, ?_⟩
    intro t ht
    by_cases htm : t ≤ m
    · exact hf t htm
    · have ht1 : t = m + 1 := by omega
      have h := fits_last q P (idx.drop t) (by omega)
      rw [hq, show m + 2 - 1 = m + 1 from rfl] at h
      rw [ht1]
      rw [ht1] at h
      exact h
  · rintro ⟨idx, hlen, hch, hf⟩
    exact ⟨idx, by omega, hch, fun t ht => hf t (by omega)⟩

theorem fits_split {P : List Nat} {lb ub : List Int} {l : List Nat} {r : Nat} :
    involvement_fits P lb ub l r = true ↔
      (lb.getD r (-1) = -1
        ∨ P.getD (l.getD ((lb.getD r (-1)).toNat - r) 0) 0 < P.getD (l.getD 0 0) 0)
      ∧ (ub.getD r (-1) = -1
        ∨ P.getD (l.getD 0 0) 0 < P.getD (l.getD ((ub.getD r (-1)).toNat - r) 0) 0) := by
  unfold involvement_fits
  rw [Bool.and_eq_true, Bool.or_eq_true, Bool.or_eq_true]
  rw [beq_iff_eq, beq_iff_eq, decide_eq_true_eq, decide_eq_true_eq]

/-- the bound-table feasibility tests hold at every pattern position iff the
chosen host subsequence is order-isomorphic to the pattern -/
theorem fits_iff_iso (q P idx : List Nat) (hq : isPerm q) (hP : isPerm P)
    (hlen : idx.length = q.length)
    (hch : List.Chain' (fun a b => a < b) idx)
    (hbnd : ∀ x ∈ idx, x < P.length) :
    (∀ t, t < q.length →
        involvement_fits P (set_up_bounds q).1 (set_up_bounds q).2
          (idx.drop t) t = true)
    ↔ (∀ a b, a < b → b < q.length →
        (q.getD a 0 < q.getD b 0
          ↔ P.getD (idx.getD a 0) 0 < P.getD (idx.getD b 0) 0)) := by
  have hqnd : q.Nodup := hq.nodup
  have hPnd : P.Nodup := hP.nodup
  have hidxlt : ∀ t, t < q.length → idx.getD t 0 < P.length := by
    intro t ht
    exact hbnd _ (mem_of_getD (by omega))
  have hidxne : ∀ a b, a < b → b < q.length → idx.getD a 0 < idx.getD b 0 := by
    intro a b hab hb
    exact chain_lt_getD hch hab (by omega)
  have hvne : ∀ a b, a < b → b < q.length →
      P.getD (idx.getD a 0) 0 ≠ P.getD (idx.getD b 0) 0 := by
    intro a b hab hb he
    have h1 := hidxne a b hab hb
    have := nodup_getD_inj hPnd (hidxlt a (by omega)) (hidxlt b hb) he
    omega
  have hqne : ∀ a b, a < b → b < q.length → q.getD a 0 ≠ q.getD b 0 := by
    intro a b hab hb he
    have := nodup_getD_inj hqnd (by omega) (by omega) he
    omega
  have hlbD : ∀ t, t < q.length →
      ((set_up_bounds q).1).getD t (-1) = (boundsFor q t).1 := by
    intro t ht
    show ((List.range q.length).map fun i => (boundsFor q i).1).getD t (-1) = _
    rw [getD_map_range _ _ ht]
  have hubD : ∀ t, t < q.length →
      ((set_up_bounds q).2).getD t (-1) = (boundsFor q t).2 := by
    intro t ht
    show ((List.range q.length).map fun i => (boundsFor q i).2).getD t (-1) = _
    rw [getD_map_range _ _ ht]
  constructor
  · intro hfits
    have main : ∀ M, ∀ a b, a < b → b < q.length → q.length - M ≤ a →
        (q.getD a 0 < q.getD b 0
          ↔ P.getD (idx.getD a 0) 0 < P.getD (idx.getD b 0) 0) := by
      intro M
      induction M with
      | zero =>
        intro a b hab hb ha
        omega
      | succ M ihM =>
        intro a b hab hb ha
        by_cases haz : q.length - M ≤ a
        · exact ihM a b hab hb haz
        · have hIH : ∀ a2 b2, a2 < b2 → b2 < q.length → a < a2 →
              (q.getD a2 0 < q.getD b2 0
                ↔ P.getD (idx.getD a2 0) 0 < P.getD (idx.getD b2 0) 0) := by
            intro a2 b2 h1 h2 h3
            exact ihM a2 b2 h1 h2 (by omega)
          have hstep_below : ∀ b2, a < b2 → b2 < q.length →
              q.getD b2 0 < q.getD a 0 →
              P.getD (idx.getD b2 0) 0 < P.getD (idx.getD a 0) 0 := by
            intro b2 hb1 hb2 hqb
            rcases lb_spec q a (by omega) with ⟨h1, hnone⟩ |
              ⟨j0, hj0t, hj0n, hval, hj0b, hmax⟩
            · exact absurd hqb (hnone b2 hb1 hb2)
            · have hf := (fits_split.mp (hfits a (by omega))).1
              rw [hlbD a (by omega), hval] at hf
              rcases hf with hf | hf
              · exfalso
                omega
              · rw [Int.toNat_ofNat, drop_getD, drop_getD, Nat.add_zero,
                  show a + (j0 - a) = j0 by omega] at hf
                by_cases hbj : b2 = j0
                · rw [hbj]
                  exact hf
                · have hqble : q.getD b2 0 ≤ q.getD j0 0 := hmax b2 hb1 hb2 hqb
                  rcases Nat.lt_or_ge b2 j0 with hlt | hge
                  · have hqblt : q.getD b2 0 < q.getD j0 0 := by
                      have := hqne b2 j0 hlt hj0n
                      omega
                    have hiso2 := hIH b2 j0 hlt hj0n hb1
                    have := hiso2.mp hqblt
                    omega
                  · have hgt : j0 < b2 := by omega
                    have hiso2 := hIH j0 b2 hgt hb2 hj0t
                    have hnlt : ¬ (q.getD j0 0 < q.getD b2 0) := by omega
                    have hnv : ¬ (P.getD (idx.getD j0 0) 0
                        < P.getD (idx.getD b2 0) 0) :=
                      fun hc => hnlt (hiso2.mpr hc)
                    have hne := hvne j0 b2 hgt hb2
                    omega
          have hstep_above : ∀ b2, a < b2 → b2 < q.length →
              q.getD a 0 < q.getD b2 0 →
              P.getD (idx.getD a 0) 0 < P.getD (idx.getD b2 0) 0 := by
            intro b2 hb1 hb2 hqb
            rcases ub_spec q a (by omega) with ⟨h1, hall⟩ |
              ⟨j0, hj0t, hj0n, hval, hj0a, hmin⟩
            · have := hall b2 hb1 hb2
              omega
            · have hf := (fits_split.mp (hfits a (by omega))).2
              rw [hubD a (by omega), hval] at hf
              rcases hf with hf | hf
              · exfalso
                omega
              · rw [Int.toNat_ofNat, drop_getD, drop_getD, Nat.add_zero,
                  show a + (j0 - a) = j0 by omega] at hf
                by_cases hbj : b2 = j0
                · rw [hbj]
                  exact hf
                · have hqble : q.getD j0 0 ≤ q.getD b2 0 := hmin b2 hb1 hb2 (by omega)
                  rcases Nat.lt_or_ge j0 b2 with hlt | hge
                  · have hqblt : q.getD j0 0 < q.getD b2 0 := by
                      have := hqne j0 b2 hlt hb2
                      omega
                    have hiso2 := hIH j0 b2 hlt hb2 hj0t
                    have := hiso2.mp hqblt
                    omega
                  · have hgt : b2 < j0 := by omega
                    have hiso2 := hIH b2 j0 hgt hj0n hb1
                    have hnlt : ¬ (q.getD b2 0 < q.getD j0 0) := by omega
                    have hnv : ¬ (P.getD (idx.getD b2 0) 0
                        < P.getD (idx.getD j0 0) 0) :=
                      fun hc => hnlt (hiso2.mpr hc)
                    have hne := hvne b2 j0 hgt hj0n
                    omega
          constructor
          · intro hqab
            exact hstep_above b hab hb hqab
          · intro hvab
            by_contra hqn
            have hne := hqne a b hab hb
            have hqba : q.getD b 0 < q.getD a 0 := by omega
            have := hstep_below b hab hb hqba
            omega
    intro a b hab hb
    exact main q.length a b hab hb (by omega)
  · intro hiso t ht
    rw [fits_split, hlbD t ht, hubD t ht]
    constructor
    · rcases lb_spec q t ht with ⟨h1, _⟩ | ⟨j0, hj0t, hj0n, hval, hj0b, _⟩
      · left
        exact h1
      · right
        rw [hval, Int.toNat_ofNat, drop_getD, drop_getD, Nat.add_zero,
          show t + (j0 - t) = j0 by omega]
        have hiso2 := hiso t j0 hj0t hj0n
        have hne := hvne t j0 hj0t hj0n
        have hnq : ¬ (q.getD t 0 < q.getD j0 0) := by omega
        have hnv : ¬ (P.getD (idx.getD t 0) 0 < P.getD (idx.getD j0 0) 0) :=
          fun hc => hnq (hiso2.mpr hc)
        omega
    · rcases ub_spec q t ht with ⟨h1, _⟩ | ⟨j0, hj0t, hj0n, hval, hj0a, _⟩
      · left
        exact h1
      · right
        rw [hval, Int.toNat_ofNat, drop_getD, drop_getD, Nat.add_zero,
          show t + (j0 - t) = j0 by omega]
        have hiso2 := hiso t j0 hj0t hj0n
        have hne := hqne t j0 hj0t hj0n
        exact hiso2.mp (by omega)

theorem occurrences_ne_zero_iff (P q : List Nat) :
    occurrences P q ≠ 0
      ↔ ∃ s, List.Sublist s P ∧ s.length = q.length ∧ standardize s = some q := by
  unfold occurrences
  rw [Ne, List.length_eq_zero, List.filter_eq_nil_iff]
  push_neg
  constructor
  · rintro ⟨s, hmem, hf⟩
    rw [List.mem_sublists] at hmem
    rw [Bool.and_eq_true, beq_iff_eq, beq_iff_eq] at hf
    exact ⟨s, hmem, hf.1, hf.2⟩
  · rintro ⟨s, hsub, hlen2, hstd⟩
    refine ⟨s, List.mem_sublists.mpr hsub, ?_⟩
    rw [Bool.and_eq_true, beq_iff_eq, beq_iff_eq]
    exact ⟨hlen2, hstd⟩

/-- a standardizing occurrence as a subsequence is the same thing as a strictly
increasing index assignment whose host values are order-isomorphic to the
pattern -/
theorem sublist_iff_idx (P q : List Nat) (hP : isPerm P) (hq : isPerm q) :
    (∃ s, List.Sublist s P ∧ s.length = q.length ∧ standardize s = some q)
    ↔ (∃ idx : List Nat, idx.length = q.length
        ∧ List.Chain' (fun a b => a < b) (idx ++ [P.length])
        ∧ ∀ a b, a < b → b < q.length →
            (q.getD a 0 < q.getD b 0
              ↔ P.getD (idx.getD a 0) 0 < P.getD (idx.getD b 0) 0)) := by
  constructor
  · rintro ⟨s, hsub, hlen, hstd⟩
    obtain ⟨iv, hseq, hpw⟩ := List.sublist_eq_map_getElem hsub
    have hlen2 : s.length = iv.length := by
      rw [hseq, List.length_map]
    have hpw2 : List.Pairwise (fun a b : Nat => a < b) (iv.map Fin.val) := by
      rw [List.pairwise_map]
      exact hpw
    refine ⟨iv.map Fin.val, by rw [List.length_map]; omega, ?_, ?_⟩
    · refine (chain_snoc_iff _ _).mpr ⟨List.chain'_iff_pairwise.mpr hpw2, ?_⟩
      intro x hx
      have hxmem : x ∈ iv.map Fin.val :=
        List.mem_of_getLast?_eq_some (Option.mem_def.mp hx)
      rcases List.mem_map.mp hxmem with ⟨f, _, rfl⟩
      exact f.isLt
    · have hnd : s.Nodup := hsub.nodup hP.nodup
      obtain ⟨_, hiso⟩ := standardize_iso hnd hq hstd
      have hval : ∀ t, t < q.length →
          s.getD t 0 = P.getD ((iv.map Fin.val).getD t 0) 0 := by
        intro t ht
        have ht1 : t < s.length := by omega
        have ht2 : t < iv.length := by omega
        have ht3 : t < (iv.map Fin.val).length := by
          rw [List.length_map]
          exact ht2
        rw [getD_eq_getElem _ _ ht1, getD_eq_getElem _ _ ht3,
          List.getElem_of_eq hseq ht1, List.getElem_map, List.getElem_map]
        rw [getD_eq_getElem _ _ (iv[t]).isLt, Fin.getElem_fin]
      intro a b hab hb
      rw [← hval a (by omega), ← hval b hb]
      exact (hiso a b (by omega) (by omega)).symm
  · rintro ⟨idx, hlen, hch, hiso⟩
    have hbnd : ∀ x ∈ idx, x < P.length := chain_mem_lt hch
    have hch2 : List.Chain' (fun a b => a < b) idx :=
      ((chain_snoc_iff idx P.length).mp hch).1
    have hpw : List.Pairwise (fun a b : Nat => a < b) idx :=
      List.chain'_iff_pairwise.mp hch2
    have hidxlt : ∀ t, t < q.length → idx.getD t 0 < P.length := by
      intro t ht
      exact hbnd _ (mem_of_getD (by omega))
    have hidxne : ∀ a b, a < b → b < q.length → idx.getD a 0 < idx.getD b 0 := by
      intro a b hab hb
      exact chain_lt_getD hch2 hab (by omega)
    have hvne : ∀ a b, a < b → b < q.length →
        P.getD (idx.getD a 0) 0 ≠ P.getD (idx.getD b 0) 0 := by
      intro a b hab hb he
      have h1 := hidxne a b hab hb
      have := nodup_getD_inj hP.nodup (hidxlt a (by omega)) (hidxlt b hb) he
      omega
    have hqne : ∀ a b, a < b → b < q.length → q.getD a 0 ≠ q.getD b 0 := by
      intro a b hab hb he
      have := nodup_getD_inj hq.nodup (by omega) (by omega) he
      omega
    have hmap : (idx.pmap (fun x hx => (⟨x, hx⟩ : Fin P.length)) hbnd).map
        (fun i => P[i]) = idx.map (fun t => P.getD t 0) := by
      apply List.ext_getElem
        (by rw [List.length_map, List.length_pmap, List.length_map])
      intro t h1 h2
      have ht : t < idx.length := by
        rw [List.length_map, List.length_pmap] at h1
        exact h1
      rw [List.getElem_map, List.getElem_pmap, List.getElem_map,
        Fin.getElem_fin]
      have hmem : idx[t] ∈ idx := idx.getElem_mem _
      rw [getD_eq_getElem _ _ (hbnd _ hmem)]
    have hpw2 : List.Pairwise (fun a b : Fin P.length => a < b)
        (idx.pmap (fun x hx => (⟨x, hx⟩ : Fin P.length)) hbnd) := by
      rw [List.pairwise_pmap hbnd]
      exact hpw.imp (fun hab h1 h2 => hab)
    have hsub : List.Sublist (idx.map (fun t => P.getD t 0)) P := by
      have hs := List.map_getElem_sublist hpw2
      rw [hmap] at hs
      exact hs
    have hsnd : (idx.map fun t => P.getD t 0).Nodup := hsub.nodup hP.nodup
    refine ⟨idx.map (fun t => P.getD t 0), hsub,
      by rw [List.length_map, hlen], ?_⟩
    apply iso_standardize hsnd hq
    refine ⟨by rw [List.length_map, hlen], ?_⟩
    intro i j hi hj
    rw [List.length_map] at hi hj
    rw [getD_map idx _ hi, getD_map idx _ hj]
    rcases Nat.lt_trichotomy i j with h | h | h
    · exact (hiso i j h (by omega)).symm
    · rw [h]
      constructor
      · intro hc
        omega
      · intro hc
        omega
    · constructor
      · intro hvij
        by_contra hq2
        have hqji : q.getD j 0 < q.getD i 0 := by
          have := hqne j i h (by omega)
          omega
        have := (hiso j i h (by omega)).mp hqji
        omega
      · intro hq2
        have hnv : ¬ (P.getD (idx.getD j 0) 0 < P.getD (idx.getD i 0) 0) := by
          intro hc
          have := (hiso j i h (by omega)).mpr hc
          omega
        have hne := hvne j i h (by omega)
        omega

theorem stdSpec_singleton (v : Nat) : stdSpec [v] = [0] := by
  simp [stdSpec, List.countP_cons]

/-- the pruned backtracking search succeeds exactly when the brute-force
occurrence count is nonzero -/
theorem involved_in_iff_occurrences (P q : List Nat) (hP : isPerm P)
    (hq : isPerm q) : involved_in q P = true ↔ occurrences P q ≠ 0 := by
  rcases q with _ | ⟨q0, q1⟩
  · have h1 : involved_in [] P = true := by
      unfold involved_in
      rw [if_pos (by simp)]
    have h2 : occurrences P [] ≠ 0 := by
      rw [occurrences_ne_zero_iff]
      exact ⟨[], List.nil_sublist P, rfl, by decide⟩
    exact iff_of_true h1 h2
  · rcases q1 with _ | ⟨q1, q2⟩
    · have hq0 : q0 = 0 := by
        have hperm := hq
        unfold isPerm at hperm
        rw [show List.range (List.length [q0]) = [0] from rfl] at hperm
        have heq := List.perm_singleton.mp hperm
        rw [List.cons.injEq] at heq
        exact heq.1
      subst hq0
      by_cases hp : 1 ≤ P.length
      · have h1 : involved_in [0] P = true := by
          unfold involved_in
          rw [if_pos (by simp [hp])]
        have h2 : occurrences P [0] ≠ 0 := by
          rw [occurrences_ne_zero_iff]
          refine ⟨[P.getD 0 0], ?_, rfl, ?_⟩
          · rw [List.singleton_sublist]
            exact mem_of_getD (by omega)
          · rw [standardize_eq_stdSpec _ (List.nodup_singleton _)]
            rw [stdSpec_singleton]
        exact iff_of_true h1 h2
      · have hP0 : P = [] := List.length_eq_zero.mp (by omega)
        subst hP0
        apply iff_of_false
        · rw [show involved_in [0] [] = false from rfl]
          exact Bool.false_ne_true
        · intro hc
          exact hc (by decide)
    · have hqlen : (q0 :: q1 :: q2).length = q2.length + 2 := rfl
      rw [involved_in_iff_exists _ P q2.length hqlen]
      rw [occurrences_ne_zero_iff, sublist_iff_idx P _ hP hq]
      constructor
      · rintro ⟨idx, hlen, hch, hf⟩
        refine ⟨idx, hlen, hch, ?_⟩
        rw [← fits_iff_iso _ P idx hq hP hlen
          ((chain_snoc_iff idx P.length).mp hch).1 (chain_mem_lt hch)]
        exact hf
      · rintro ⟨idx, hlen, hch, hiso⟩
        refine ⟨idx, hlen, hch, ?_⟩
        rw [fits_iff_iso _ P idx hq hP hlen
          ((chain_snoc_iff idx P.length).mp hch).1 (chain_mem_lt hch)]
        exact hiso

/-- C1: for every host permutation `P` and pattern permutation `q`,
`P.avoids(q)` returns true if and only if `P.occurrences(q) == 0`: the
bound-table-pruned backtracking containment search of `involved_in` agrees
with brute-force enumeration of all index subsets -/
theorem avoids_iff_no_occurrences (P q : List Nat) (hP : isPerm P)
    (hq : isPerm q) : avoids P q = true ↔ occurrences P q = 0 := by
  have h := involved_in_iff_occurrences P q hP hq
  unfold avoids
  constructor
  · intro ha
    by_contra hocc
    rw [h.mpr hocc] at ha
    simp at ha
  · intro hocc
    have hfalse : involved_in q P = false := by
      cases hb : involved_in q P
      · rfl
      · exact absurd hocc (h.mp hb)
    rw [hfalse]
    rfl

theorem avoids_iff_no_occurrences_witness :
    isPerm [2, 0, 1] ∧ isPerm [0, 1]
    ∧ (avoids [2, 0, 1] [0, 1] = true ↔ occurrences [2, 0, 1] [0, 1] = 0) :=
  ⟨by decide, by decide,
    avoids_iff_no_occurrences [2, 0, 1] [0, 1] (by decide) (by decide)⟩

/-! ## C2: decomposition/inflation round trip -/

theorem foldl_min_spec : ∀ (l : List Nat) (a : Nat),
    (l.foldl Nat.min a = a ∨ l.foldl Nat.min a ∈ l)
    ∧ l.foldl Nat.min a ≤ a ∧ ∀ x ∈ l, l.foldl Nat.min a ≤ x := by
  intro l
  induction l with
  | nil =>
    intro a
    exact ⟨Or.inl rfl, le_refl _, by simp⟩
  | cons b l ih =>
    intro a
    rw [List.foldl_cons]
    obtain ⟨hmem, hle, hall⟩ := ih (Nat.min a b)
    refine ⟨?_, le_trans hle (Nat.min_le_left a b), ?_⟩
    · rcases hmem with h | h
      · rcases Nat.le_total a b with hab | hab
        · left
          rw [h]
          show (if a ≤ b then a else b) = a
          rw [if_pos hab]
        · right
          rw [h, show Nat.min a b = b by
            show (if a ≤ b then a else b) = b
            split <;> omega]
          exact List.mem_cons_self b l
      · right
        exact List.mem_cons_of_mem b h
    · intro x hx
      rcases List.mem_cons.mp hx with rfl | hx
      · exact le_trans hle (Nat.min_le_right a x)
      · exact hall x hx

theorem foldl_max_spec : ∀ (l : List Nat) (a : Nat),
    (l.foldl Nat.max a = a ∨ l.foldl Nat.max a ∈ l)
    ∧ a ≤ l.foldl Nat.max a ∧ ∀ x ∈ l, x ≤ l.foldl Nat.max a := by
  intro l
  induction l with
  | nil =>
    intro a
    exact ⟨Or.inl rfl, le_refl _, by simp⟩
  | cons b l ih =>
    intro a
    rw [List.foldl_cons]
    obtain ⟨hmem, hle, hall⟩ := ih (Nat.max a b)
    refine ⟨?_, le_trans (Nat.le_max_left a b) hle, ?_⟩
    · rcases hmem with h | h
      · rcases Nat.le_total a b with hab | hab
        · right
          rw [h, show Nat.max a b = b by
            show (if a ≤ b then b else a) = b
            split <;> omega]
          exact List.mem_cons_self b l
        · left
          rw [h]
          show (if a ≤ b then b else a) = a
          split <;> omega
      · right
        exact List.mem_cons_of_mem b h
    · intro x hx
      rcases List.mem_cons.mp hx with rfl | hx
      · exact le_trans (Nat.le_max_right a x) hle
      · exact hall x hx

theorem pmin_mem {l : List Nat} (hl : l ≠ []) : pmin l ∈ l := by
  rcases l with _ | ⟨a, l⟩
  · exact absurd rfl hl
  · show l.foldl Nat.min a ∈ a :: l
    rcases (foldl_min_spec l a).1 with h | h
    · rw [h]
      exact List.mem_cons_self a l
    · exact List.mem_cons_of_mem a h

theorem pmin_le {l : List Nat} {x : Nat} (hx : x ∈ l) : pmin l ≤ x := by
  rcases l with _ | ⟨a, l⟩
  · cases hx
  · show l.foldl Nat.min a ≤ x
    obtain ⟨_, hle, hall⟩ := foldl_min_spec l a
    rcases List.mem_cons.mp hx with rfl | hx
    · exact hle
    · exact hall x hx

theorem pmax_mem {l : List Nat} (hl : l ≠ []) : pmax l ∈ l := by
  rcases l with _ | ⟨a, l⟩
  · exact absurd rfl hl
  · show l.foldl Nat.max a ∈ a :: l
    rcases (foldl_max_spec l a).1 with h | h
    · rw [h]
      exact List.mem_cons_self a l
    · exact List.mem_cons_of_mem a h

theorem le_pmax {l : List Nat} {x : Nat} (hx : x ∈ l) : x ≤ pmax l := by
  rcases l with _ | ⟨a, l⟩
  · cases hx
  · show x ≤ l.foldl Nat.max a
    obtain ⟨_, hle, hall⟩ := foldl_max_spec l a
    rcases List.mem_cons.mp hx with rfl | hx
    · exact hle
    · exact hall x hx

/-- the window `p[a : a+w]` as a list -/
def win (p : List Nat) (a w : Nat) : List Nat := (p.drop a).take w

theorem win_length {p : List Nat} {a w : Nat} (h : a + w ≤ p.length) :
    (win p a w).length = w := by
  unfold win
  rw [List.length_take, List.length_drop]
  omega

theorem win_getD {p : List Nat} {a w k : Nat} (hk : k < w) :
    (win p a w).getD k 0 = p.getD (a + k) 0 := by
  unfold win
  rw [List.getD_eq_getElem?_getD, List.getElem?_take_of_lt hk, List.getElem?_drop]
  rw [List.getD_eq_getElem?_getD]

theorem win_sublist (p : List Nat) (a w : Nat) : List.Sublist (win p a w) p :=
  List.Sublist.trans ((p.drop a).take_sublist w) (p.drop_sublist a)

theorem mem_win {p : List Nat} {a w : Nat} (h : a + w ≤ p.length) {x : Nat} :
    x ∈ win p a w ↔ ∃ k, k < w ∧ x = p.getD (a + k) 0 := by
  constructor
  · intro hx
    obtain ⟨k, hk, hval⟩ := List.mem_iff_getElem.mp hx
    rw [win_length h] at hk
    refine ⟨k, hk, ?_⟩
    rw [← win_getD hk, getD_eq_getElem _ _ (by rw [win_length h]; exact hk), hval]
  · rintro ⟨k, hk, rfl⟩
    rw [← win_getD hk]
    exact mem_of_getD (by rw [win_length h]; exact hk)

theorem getD_mem_win {p : List Nat} {a w t : Nat} (h : a + w ≤ p.length)
    (ht1 : a ≤ t) (ht2 : t < a + w) : p.getD t 0 ∈ win p a w := by
  rw [mem_win h]
  exact ⟨t - a, by omega, by rw [show a + (t - a) = t by omega]⟩

theorem win_ne_nil {p : List Nat} {a w : Nat} (hw : 1 ≤ w) (h : a + w ≤ p.length) :
    win p a w ≠ [] := by
  intro hc
  have hlen := win_length (p := p) (a := a) h
  rw [hc] at hlen
  simp at hlen
  omega

theorem win_nodup {p : List Nat} (hnd : p.Nodup) (a w : Nat) :
    (win p a w).Nodup := (win_sublist p a w).nodup hnd

theorem icond_iff (p : List Nat) (w a : Nat) :
    icond p w a = true ↔ pmax (win p a w) - pmin (win p a w) = w - 1 := by
  unfold icond win
  rw [beq_iff_eq]

/-- an interval window attains every value between its min and its max -/
theorem icond_attain {p : List Nat} (hnd : p.Nodup) {w a : Nat} (hw : 1 ≤ w)
    (hwa : a + w ≤ p.length) (hic : icond p w a = true) :
    ∀ v, pmin (win p a w) ≤ v → v ≤ pmax (win p a w) →
      ∃ t, a ≤ t ∧ t < a + w ∧ p.getD t 0 = v := by
  intro v h1 h2
  have hWnd : (win p a w).Nodup := win_nodup hnd a w
  have hlen : (win p a w).length = w := win_length hwa
  have hne : win p a w ≠ [] := win_ne_nil hw hwa
  have hmm : pmin (win p a w) ≤ pmax (win p a w) := pmin_le (pmax_mem hne)
  have hsub : (win p a w).toFinset
      ⊆ Finset.Icc (pmin (win p a w)) (pmax (win p a w)) := by
    intro x hx
    rw [List.mem_toFinset] at hx
    rw [Finset.mem_Icc]
    exact ⟨pmin_le hx, le_pmax hx⟩
  have hcard : (win p a w).toFinset.card = w := by
    rw [List.toFinset_card_of_nodup hWnd, hlen]
  have hicc : (Finset.Icc (pmin (win p a w)) (pmax (win p a w))).card = w := by
    rw [Nat.card_Icc]
    rw [icond_iff] at hic
    omega
  have heq : (win p a w).toFinset
      = Finset.Icc (pmin (win p a w)) (pmax (win p a w)) :=
    Finset.eq_of_subset_of_card_le hsub (by rw [hcard, hicc])
  have hv : v ∈ (win p a w).toFinset := by
    rw [heq, Finset.mem_Icc]
    exact ⟨h1, h2⟩
  rw [List.mem_toFinset, mem_win hwa] at hv
  obtain ⟨k, hk, hval⟩ := hv
  exact ⟨a + k, by omega, by omega, hval.symm⟩

/-- values outside an interval window lie outside its value range -/
theorem icond_outside {p : List Nat} (hnd : p.Nodup) {w a : Nat} (hw : 1 ≤ w)
    (hwa : a + w ≤ p.length) (hic : icond p w a = true) :
    ∀ u, u < p.length → (u < a ∨ a + w ≤ u) →
      p.getD u 0 < pmin (win p a w) ∨ pmax (win p a w) < p.getD u 0 := by
  intro u hu hout
  by_contra hc
  push_neg at hc
  obtain ⟨t, ht1, ht2, htv⟩ := icond_attain hnd hw hwa hic (p.getD u 0) hc.1 hc.2
  have := nodup_getD_inj hnd (by omega) hu htv
  omega

/-- a window of a permutation with no outside value strictly inside its value
range is an interval window -/
theorem icond_of_nogap {p : List Nat} (hp : isPerm p) {w a : Nat} (hw : 1 ≤ w)
    (hwa : a + w ≤ p.length)
    (hng : ∀ u, u < p.length → (u < a ∨ a + w ≤ u) →
      ¬ (pmin (win p a w) < p.getD u 0 ∧ p.getD u 0 < pmax (win p a w))) :
    icond p w a = true := by
  rw [icond_iff]
  have hnd := hp.nodup
  have hWnd : (win p a w).Nodup := win_nodup hnd a w
  have hlen : (win p a w).length = w := win_length hwa
  have hne : win p a w ≠ [] := win_ne_nil hw hwa
  have hmm : pmin (win p a w) ≤ pmax (win p a w) := pmin_le (pmax_mem hne)
  have hsub1 : (win p a w).toFinset
      ⊆ Finset.Icc (pmin (win p a w)) (pmax (win p a w)) := by
    intro x hx
    rw [List.mem_toFinset] at hx
    rw [Finset.mem_Icc]
    exact ⟨pmin_le hx, le_pmax hx⟩
  have hsub2 : Finset.Icc (pmin (win p a w)) (pmax (win p a w))
      ⊆ (win p a w).toFinset := by
    intro v hv
    rw [Finset.mem_Icc] at hv
    rw [List.mem_toFinset]
    have hpmax_mem : pmax (win p a w) ∈ p :=
      (win_sublist p a w).subset (pmax_mem hne)
    have hvlt : v < p.length := by
      have := hp.lt_length hpmax_mem
      omega
    obtain ⟨u, hu, huv⟩ := List.mem_iff_getElem.mp (hp.mem_of_lt hvlt)
    have huv' : p.getD u 0 = v := by
      rw [getD_eq_getElem _ _ hu]
      exact huv
    by_cases hout : u < a ∨ a + w ≤ u
    · have h := hng u hu hout
      rw [huv'] at h
      push_neg at h
      rcases Nat.lt_or_ge (pmin (win p a w)) v with h1 | h1
      · have h2 := h h1
        have hvx : v = pmax (win p a w) := by omega
        rw [hvx]
        exact pmax_mem hne
      · have hvx : v = pmin (win p a w) := by omega
        rw [hvx]
        exact pmin_mem hne
    · push_neg at hout
      rw [← huv']
      exact getD_mem_win hwa (by omega) (by omega)
  have heq := Finset.Subset.antisymm hsub1 hsub2
  have hcard : (win p a w).toFinset.card = w := by
    rw [List.toFinset_card_of_nodup hWnd, hlen]
  have hicc : (Finset.Icc (pmin (win p a w)) (pmax (win p a w))).card = w := by
    rw [← heq, hcard]
  rw [Nat.card_Icc] at hicc
  omega

theorem win_bounds {p : List Nat} {a w t : Nat} (hwa : a + w ≤ p.length)
    (ht1 : a ≤ t) (ht2 : t < a + w) :
    pmin (win p a w) ≤ p.getD t 0 ∧ p.getD t 0 ≤ pmax (win p a w) :=
  ⟨pmin_le (getD_mem_win hwa ht1 ht2), le_pmax (getD_mem_win hwa ht1 ht2)⟩

/-- the contracted base built by one `decomposition` step -/
def contr (base : List Nat) (i j : Nat) : List Nat :=
  base.take j ++ [base.getD j 0] ++ base.drop (i + j)

/-- the position embedding of the contracted base into the original base -/
def embi (i j t : Nat) : Nat := if t ≤ j then t else t + i - 1

theorem contr_length (base : List Nat) (i j : Nat) (hi : 1 ≤ i)
    (hij : j + i ≤ base.length) :
    (contr base i j).length = base.length - i + 1 := by
  unfold contr
  rw [List.length_append, List.length_append, List.length_take,
    List.length_singleton, List.length_drop]
  omega

theorem contr_getD (base : List Nat) (i j : Nat) (hi : 1 ≤ i)
    (hij : j + i ≤ base.length) :
    ∀ t, t < base.length - i + 1 →
      (contr base i j).getD t 0 = base.getD (embi i j t) 0 := by
  intro t ht
  have hjlen : (base.take j).length = j := by
    rw [List.length_take]
    omega
  unfold contr embi
  rw [List.getD_eq_getElem?_getD]
  by_cases h1 : t < j
  · rw [List.getElem?_append_left
      (show t < (base.take j ++ [base.getD j 0]).length by
        rw [List.length_append, hjlen, List.length_singleton]; omega)]
    rw [List.getElem?_append_left (by rw [hjlen]; exact h1)]
    rw [List.getElem?_take_of_lt h1]
    rw [if_pos (by omega : t ≤ j), ← List.getD_eq_getElem?_getD]
  · by_cases h2 : t = j
    · rw [h2]
      rw [List.getElem?_append_left
        (show j < (base.take j ++ [base.getD j 0]).length by
          rw [List.length_append, hjlen, List.length_singleton]; omega)]
      rw [List.getElem?_append_right (by rw [hjlen])]
      rw [hjlen, Nat.sub_self]
      rw [if_pos (le_refl j)]
      rfl
    · rw [List.getElem?_append_right
        (show (base.take j ++ [base.getD j 0]).length ≤ t by
          rw [List.length_append, hjlen, List.length_singleton]; omega)]
      rw [List.getElem?_drop]
      rw [List.length_append, hjlen, List.length_singleton]
      rw [show i + j + (t - (j + 1)) = t + i - 1 by omega]
      rw [if_neg (by omega), ← List.getD_eq_getElem?_getD]

theorem embi_lt {i j : Nat} (hi : 1 ≤ i) {t1 t2 : Nat} (h : t1 < t2) :
    embi i j t1 < embi i j t2 := by
  unfold embi
  split <;> split <;> omega

theorem embi_bound {i j t n : Nat} (hi : 1 ≤ i) (hij : j + i ≤ n)
    (ht : t < n - i + 1) : embi i j t < n := by
  unfold embi
  split <;> omega

/-- the embedded positions avoid the strict interior of the contracted
window -/
theorem embi_avoid {i j t : Nat} (ht : t ≠ j) :
    embi i j t < j ∨ i + j ≤ embi i j t ∨ (t = j ∧ embi i j t = j) := by
  unfold embi
  split <;> omega

theorem contr_nodup (base : List Nat) (hnd : base.Nodup) (i j : Nat)
    (hi : 1 ≤ i) (hij : j + i ≤ base.length) : (contr base i j).Nodup := by
  have hlen := contr_length base i j hi hij
  unfold List.Nodup
  rw [List.pairwise_iff_getElem]
  intro a b ha hb hab
  intro hceq
  rw [← getD_eq_getElem _ _ ha, ← getD_eq_getElem _ _ hb] at hceq
  rw [hlen] at ha hb
  rw [contr_getD base i j hi hij a ha, contr_getD base i j hi hij b hb] at hceq
  have := nodup_getD_inj hnd (embi_bound hi hij ha) (embi_bound hi hij hb) hceq
  have := embi_lt (j := j) hi hab
  omega

theorem ordIso_refl (s : List Nat) : ordIso s s := ⟨rfl, fun _ _ _ _ => Iff.rfl⟩

theorem ordIso_trans {a b c : List Nat} (h1 : ordIso a b) (h2 : ordIso b c) :
    ordIso a c := by
  obtain ⟨hl1, hi1⟩ := h1
  obtain ⟨hl2, hi2⟩ := h2
  refine ⟨hl1.trans hl2, ?_⟩
  intro i j hi hj
  rw [hi1 i j hi hj, hi2 i j (by omega) (by omega)]

theorem ordIso_nodup {s q : List Nat} (h : ordIso s q) (hq : q.Nodup) :
    s.Nodup := by
  obtain ⟨hlen, hiso⟩ := h
  unfold List.Nodup
  rw [List.pairwise_iff_getElem]
  intro a b ha hb hab heq
  have heq' : s.getD a 0 = s.getD b 0 := by
    rw [getD_eq_getElem _ _ ha, getD_eq_getElem _ _ hb, heq]
  have h1 := hiso a b ha hb
  have h2 := hiso b a hb ha
  have hq1 : ¬ (q.getD a 0 < q.getD b 0) := by
    intro hc
    have := h1.mpr hc
    omega
  have hq2 : ¬ (q.getD b 0 < q.getD a 0) := by
    intro hc
    have := h2.mpr hc
    omega
  have hqeq : q.getD a 0 = q.getD b 0 := by omega
  have := nodup_getD_inj hq (by omega) (by omega) hqeq
  omega

theorem ordIso_shift (c : List Nat) (s1 s2 : Nat) :
    ordIso (c.map (fun v => v + s1)) (c.map (fun v => v + s2)) := by
  refine ⟨by rw [List.length_map, List.length_map], ?_⟩
  intro a b ha hb
  rw [List.length_map] at ha hb
  rw [getD_map c _ ha, getD_map c _ hb, getD_map c _ ha, getD_map c _ hb]
  omega

/-- one block entirely below another -/
def blockLt (X Y : List Nat) : Prop := ∀ x ∈ X, ∀ y ∈ Y, x < y

theorem blockLt_of_ranges {X Y : List Nat} {x2 y1 : Nat}
    (hX : ∀ x ∈ X, x < x2) (hY : ∀ y ∈ Y, y1 ≤ y) (hxy : x2 ≤ y1) :
    blockLt X Y := by
  intro x hx y hy
  have := hX x hx
  have := hY y hy
  omega

theorem flatten_length_pair : ∀ (Bs Cs : List (List Nat)), Bs.length = Cs.length →
    (∀ t, t < Bs.length → (Bs.getD t []).length = (Cs.getD t []).length) →
    Bs.flatten.length = Cs.flatten.length := by
  intro Bs
  induction Bs with
  | nil =>
    intro Cs h _
    rcases Cs with _ | ⟨C, Cs⟩
    · rfl
    · simp at h
  | cons B Bs ih =>
    intro Cs h hlen
    rcases Cs with _ | ⟨C, Cs⟩
    · simp at h
    rw [List.flatten_cons, List.flatten_cons, List.length_append, List.length_append]
    have h0 : B.length = C.length := hlen 0 (by simp)
    rw [h0, ih Cs (by simpa using h) (fun t ht => hlen (t + 1) (by simp; omega))]

theorem flatten_getD_pair : ∀ (Bs Cs : List (List Nat)), Bs.length = Cs.length →
    (∀ t, t < Bs.length → (Bs.getD t []).length = (Cs.getD t []).length) →
    ∀ b, b < Bs.flatten.length →
      ∃ u k, u < Bs.length ∧ k < (Bs.getD u []).length
        ∧ Bs.flatten.getD b 0 = (Bs.getD u []).getD k 0
        ∧ Cs.flatten.getD b 0 = (Cs.getD u []).getD k 0 := by
  intro Bs
  induction Bs with
  | nil =>
    intro Cs _ _ b hb
    simp at hb
  | cons B Bs ih =>
    intro Cs h hlen b hb
    rcases Cs with _ | ⟨C, Cs⟩
    · simp at h
    have h0 : B.length = C.length := hlen 0 (by simp)
    by_cases hbB : b < B.length
    · refine ⟨0, b, by simp, hbB, ?_, ?_⟩
      · show (B ++ Bs.flatten).getD b 0 = B.getD b 0
        rw [List.getD_eq_getElem?_getD, List.getElem?_append_left hbB,
          ← List.getD_eq_getElem?_getD]
      · show (C ++ Cs.flatten).getD b 0 = C.getD b 0
        rw [List.getD_eq_getElem?_getD, List.getElem?_append_left (by omega),
          ← List.getD_eq_getElem?_getD]
    · have hb' : b - B.length < Bs.flatten.length := by
        rw [List.flatten_cons, List.length_append] at hb
        omega
      obtain ⟨u, k, hu, hk, he1, he2⟩ := ih Cs (by simpa using h)
        (fun t ht => hlen (t + 1) (by simp; omega)) (b - B.length) hb'
      refine ⟨u + 1, k, by simp; omega, hk, ?_, ?_⟩
      · show (B ++ Bs.flatten).getD b 0 = _
        rw [List.getD_eq_getElem?_getD, List.getElem?_append_right (by omega),
          ← List.getD_eq_getElem?_getD]
        exact he1
      · show (C ++ Cs.flatten).getD b 0 = _
        rw [List.getD_eq_getElem?_getD, List.getElem?_append_right (by omega),
          ← List.getD_eq_getElem?_getD, ← h0]
        exact he2

/-- order isomorphism of two flattenings, block by block: blocks are pairwise
iso and distinct blocks compare uniformly and consistently on both sides -/
theorem flatten_iso (Bs Cs : List (List Nat))
    (hlen : Bs.length = Cs.length)
    (hiso : ∀ t, t < Bs.length → ordIso (Bs.getD t []) (Cs.getD t []))
    (hcross : ∀ t u, t < u → u < Bs.length →
      (blockLt (Bs.getD t []) (Bs.getD u []) ∧ blockLt (Cs.getD t []) (Cs.getD u []))
      ∨ (blockLt (Bs.getD u []) (Bs.getD t []) ∧ blockLt (Cs.getD u []) (Cs.getD t []))) :
    ordIso Bs.flatten Cs.flatten := by
  have hblen : ∀ t, t < Bs.length → (Bs.getD t []).length = (Cs.getD t []).length :=
    fun t ht => (hiso t ht).1
  refine ⟨flatten_length_pair Bs Cs hlen hblen, ?_⟩
  intro g h hg hh
  obtain ⟨u1, k1, hu1, hk1, hv1, hw1⟩ := flatten_getD_pair Bs Cs hlen hblen g hg
  obtain ⟨u2, k2, hu2, hk2, hv2, hw2⟩ := flatten_getD_pair Bs Cs hlen hblen h hh
  rw [hv1, hv2, hw1, hw2]
  rcases Nat.lt_trichotomy u1 u2 with hc | hc | hc
  · rcases hcross u1 u2 hc hu2 with ⟨hb, hcq⟩ | ⟨hb, hcq⟩
    · apply iff_of_true
      · exact hb _ (mem_of_getD hk1) _ (mem_of_getD hk2)
      · exact hcq _ (mem_of_getD (by rw [← hblen u1 hu1]; exact hk1))
          _ (mem_of_getD (by rw [← hblen u2 hu2]; exact hk2))
    · apply iff_of_false
      · intro hlt
        have := hb _ (mem_of_getD hk2) _ (mem_of_getD hk1)
        omega
      · intro hlt
        have := hcq _ (mem_of_getD (by rw [← hblen u2 hu2]; exact hk2))
          _ (mem_of_getD (by rw [← hblen u1 hu1]; exact hk1))
        omega
  · subst hc
    exact (hiso u1 hu1).2 k1 k2 hk1 hk2
  · rcases hcross u2 u1 hc hu1 with ⟨hb, hcq⟩ | ⟨hb, hcq⟩
    · apply iff_of_false
      · intro hlt
        have := hb _ (mem_of_getD hk2) _ (mem_of_getD hk1)
        omega
      · intro hlt
        have := hcq _ (mem_of_getD (by rw [← hblen u2 hu2]; exact hk2))
          _ (mem_of_getD (by rw [← hblen u1 hu1]; exact hk1))
        omega
    · apply iff_of_true
      · exact hb _ (mem_of_getD hk1) _ (mem_of_getD hk2)
      · exact hcq _ (mem_of_getD (by rw [← hblen u1 hu1]; exact hk1))
          _ (mem_of_getD (by rw [← hblen u2 hu2]; exact hk2))

theorem sum_map_add (l : List Nat) (f g : Nat → Nat) :
    (l.map (fun x => f x + g x)).sum = (l.map f).sum + (l.map g).sum := by
  induction l with
  | nil => rfl
  | cons a l ih =>
    rw [List.map_cons, List.map_cons, List.map_cons, List.sum_cons,
      List.sum_cons, List.sum_cons, ih]
    ring

theorem sum_zero_of (l : List Nat) (h : ∀ x ∈ l, x = 0) : l.sum = 0 := by
  induction l with
  | nil => rfl
  | cons a l ih =>
    rw [List.sum_cons, h a (List.mem_cons_self a l),
      ih (fun x hx => h x (List.mem_cons_of_mem a hx))]

theorem sum_indicator (n t c : Nat) (ht : t < n) :
    ((List.range n).map (fun u => if u = t then c else 0)).sum = c := by
  induction n with
  | zero => omega
  | succ n ih =>
    rw [List.range_succ, List.map_append, List.sum_append]
    by_cases h : t < n
    · rw [ih h, show (([n] : List Nat).map (fun u => if u = t then c else 0)).sum = 0
        from by rw [List.map_cons, List.map_nil]; simp [show n ≠ t by omega]]
      omega
    · have htn : t = n := by omega
      rw [sum_zero_of _ (fun x hx => by
        rw [List.mem_map] at hx
        obtain ⟨u, hu, rfl⟩ := hx
        rw [List.mem_range] at hu
        rw [if_neg (by omega)]), Nat.zero_add]
      rw [List.map_cons, List.map_nil, if_pos htn.symm]
      simp

/-- the running `current_entry` of `inflate`: total length of the components
sitting at positions whose base value is below `v` -/
def shiftSum (base : List Nat) (comps : List (List Nat)) (v : Nat) : Nat :=
  ((List.range base.length).map
    (fun u => if base.getD u 0 < v then (comps.getD u []).length else 0)).sum

theorem shiftSum_mono {base : List Nat} {comps : List (List Nat)} {v1 v2 : Nat}
    (h : v1 ≤ v2) : shiftSum base comps v1 ≤ shiftSum base comps v2 := by
  unfold shiftSum
  apply List.sum_le_sum
  intro u hu
  dsimp only
  split_ifs <;> omega

theorem shiftSum_gap {base : List Nat} {comps : List (List Nat)} {t : Nat}
    (ht : t < base.length) {v2 : Nat} (hv : base.getD t 0 < v2) :
    shiftSum base comps (base.getD t 0) + (comps.getD t []).length
      ≤ shiftSum base comps v2 := by
  have hpt : ((List.range base.length).map
      (fun u => (if base.getD u 0 < base.getD t 0 then (comps.getD u []).length else 0)
        + (if u = t then (comps.getD t []).length else 0))).sum
      ≤ ((List.range base.length).map
      (fun u => if base.getD u 0 < v2 then (comps.getD u []).length else 0)).sum := by
    apply List.sum_le_sum
    intro u hu
    dsimp only
    by_cases h1 : u = t
    · subst h1
      rw [if_neg (by omega : ¬ (base.getD u 0 < base.getD u 0)), if_pos rfl,
        if_pos hv]
      omega
    · rw [if_neg h1]
      split_ifs <;> omega
  calc shiftSum base comps (base.getD t 0) + (comps.getD t []).length
      = ((List.range base.length).map
        (fun u => (if base.getD u 0 < base.getD t 0 then (comps.getD u []).length else 0)
          + (if u = t then (comps.getD t []).length else 0))).sum := by
        rw [sum_map_add, sum_indicator base.length t _ ht]
        rfl
    _ ≤ _ := hpt

theorem shiftSum_lt_iff {base : List Nat} {comps : List (List Nat)}
    (hne : ∀ u, u < base.length → 1 ≤ (comps.getD u []).length) {t u : Nat}
    (ht : t < base.length) (hu : u < base.length) :
    shiftSum base comps (base.getD t 0) < shiftSum base comps (base.getD u 0)
      ↔ base.getD t 0 < base.getD u 0 := by
  constructor
  · intro h
    by_contra hc
    push_neg at hc
    have := @shiftSum_mono base comps _ _ hc
    omega
  · intro h
    have := @shiftSum_gap _ comps _ ht _ h
    have := hne t ht
    omega

theorem shiftSum_succ {base : List Nat} {comps : List (List Nat)}
    (hnd : base.Nodup) {e : Nat} (he : e < base.length)
    (hidx : base.indexOf e < base.length)
    (hval : base.getD (base.indexOf e) 0 = e) :
    shiftSum base comps (e + 1)
      = shiftSum base comps e + (comps.getD (base.indexOf e) []).length := by
  unfold shiftSum
  rw [show ((List.range base.length).map
      (fun u => if base.getD u 0 < e + 1 then (comps.getD u []).length else 0))
      = ((List.range base.length).map
      (fun u => (if base.getD u 0 < e then (comps.getD u []).length else 0)
        + (if u = base.indexOf e then (comps.getD (base.indexOf e) []).length else 0)))
    from List.map_congr_left ?_]
  · rw [sum_map_add, sum_indicator base.length _ _ hidx]
  · intro u hu
    rw [List.mem_range] at hu
    by_cases h1 : u = base.indexOf e
    · subst h1
      rw [if_pos (by omega), if_neg (by omega), if_pos rfl]
      omega
    · have hne : base.getD u 0 ≠ e := by
        intro hc
        exact h1 (nodup_getD_inj hnd hu hidx (by rw [hval]; exact hc))
      rw [if_neg h1]
      by_cases h2 : base.getD u 0 < e
      · rw [if_pos h2, if_pos (by omega)]
        omega
      · rw [if_neg h2, if_neg (by omega)]

theorem shiftSum_zero (base : List Nat) (comps : List (List Nat)) :
    shiftSum base comps 0 = 0 := by
  unfold shiftSum
  apply sum_zero_of
  intro x hx
  rw [List.mem_map] at hx
  obtain ⟨u, _, rfl⟩ := hx
  rw [if_neg (by omega)]

/-- the list `NL_flat` built by `inflate`: each base position contributes its
component shifted by the total length of the components below it -/
def flatW (base : List Nat) (comps : List (List Nat)) : List Nat :=
  ((List.range base.length).map
    (fun t => (comps.getD t []).map
      (fun v => v + shiftSum base comps (base.getD t 0)))).flatten

theorem getD_set_eq {α : Type} (l : List α) (t : Nat) (a d : α)
    (h : t < l.length) : (l.set t a).getD t d = a := by
  rw [getD_eq_getElem _ _ (by rw [List.length_set]; exact h)]
  exact List.getElem_set_self _

theorem getD_set_ne2 {α : Type} (l : List α) {s t : Nat} (a d : α)
    (h : t ≠ s) : (l.set t a).getD s d = l.getD s d := by
  rw [List.getD_eq_getElem?_getD, List.getD_eq_getElem?_getD, List.getElem?_set_ne h]

/-- full characterization of the `for entry in range(0, len(self))` loop of
`inflate` on a permutation base -/
theorem inflateLoop_spec (base : List Nat) (comps : List (List Nat))
    (hp : isPerm base) :
    ∀ (rem : Nat) (entry : Nat) (NL : List (Nat ⊕ List Nat)) (current : Nat),
      entry + rem = base.length →
      NL.length = base.length →
      current = shiftSum base comps entry →
      (∀ t, t < base.length → base.getD t 0 < entry →
        NL.getD t (Sum.inl 0) = Sum.inr ((comps.getD t []).map
          (fun v => v + shiftSum base comps (base.getD t 0)))) →
      ∃ NL2, inflateLoop base comps rem entry NL current = some NL2
        ∧ NL2.length = base.length
        ∧ ∀ t, t < base.length →
            NL2.getD t (Sum.inl 0) = Sum.inr ((comps.getD t []).map
              (fun v => v + shiftSum base comps (base.getD t 0))) := by
  intro rem
  induction rem with
  | zero =>
    intro entry NL current he hlen hcur hinv
    refine ⟨NL, rfl, hlen, ?_⟩
    intro t ht
    refine hinv t ht ?_
    have := hp.lt_length (mem_of_getD (l := base) ht)
    omega
  | succ rem ih =>
    intro entry NL current he hlen hcur hinv
    have hent : entry < base.length := by omega
    have hmem : entry ∈ base := hp.mem_of_lt hent
    have hidx : base.indexOf entry < base.length := List.indexOf_lt_length.mpr hmem
    have hval : base.getD (base.indexOf entry) 0 = entry := by
      rw [getD_eq_getElem _ _ hidx]
      exact List.getElem_indexOf hidx
    have hunf : inflateLoop base comps (rem + 1) entry NL current
        = inflateLoop base comps rem (entry + 1)
            (NL.set (base.indexOf entry)
              (Sum.inr ((comps.getD (base.indexOf entry) []).map
                (fun v => v + current))))
            (current + (comps.getD (base.indexOf entry) []).length) := by
      show (if base.indexOf entry < base.length then _ else none) = _
      rw [if_pos hidx]
    have hinv2 : ∀ t, t < base.length → base.getD t 0 < entry + 1 →
        (NL.set (base.indexOf entry)
          (Sum.inr ((comps.getD (base.indexOf entry) []).map
            (fun v => v + current)))).getD t (Sum.inl 0)
          = Sum.inr ((comps.getD t []).map
              (fun v => v + shiftSum base comps (base.getD t 0))) := by
      intro t ht hlt
      by_cases h1 : t = base.indexOf entry
      · subst h1
        rw [getD_set_eq _ _ _ _ (by rw [hlen]; exact ht)]
        rw [hval, hcur]
      · rw [getD_set_ne2 _ _ _ (fun hc => h1 hc.symm)]
        refine hinv t ht ?_
        have hne : base.getD t 0 ≠ entry := by
          intro hc
          exact h1 (nodup_getD_inj hp.nodup ht hidx (by rw [hval]; exact hc))
        omega
    obtain ⟨NL2, hrun, hlen2, hprop⟩ := ih (entry + 1)
      (NL.set (base.indexOf entry)
        (Sum.inr ((comps.getD (base.indexOf entry) []).map (fun v => v + current))))
      (current + (comps.getD (base.indexOf entry) []).length)
      (by omega)
      (by rw [List.length_set]; exact hlen)
      (by rw [shiftSum_succ hp.nodup hent hidx hval, hcur])
      hinv2
    exact ⟨NL2, by rw [hunf]; exact hrun, hlen2, hprop⟩

theorem mapM_extract : ∀ (Ls : List (List Nat)),
    (Ls.map Sum.inr).mapM
      (fun e : Nat ⊕ List Nat =>
        match e with | Sum.inr l => some l | Sum.inl _ => none) = some Ls := by
  intro Ls
  induction Ls with
  | nil => rfl
  | cons L Ls ih =>
    rw [List.map_cons, List.mapM_cons, ih]
    rfl

/-- `inflate` on a permutation base computes the standardization of the
shifted-block flattening -/
theorem inflate_eq (base : List Nat) (comps : List (List Nat)) (hp : isPerm base)
    (hlen : base.length = comps.length) :
    inflate base comps = standardize (flatW base comps) := by
  obtain ⟨NL2, hrun, hlen2, hprop⟩ := inflateLoop_spec base comps hp base.length 0
    (base.map Sum.inl) 0 (by omega) (by rw [List.length_map])
    (by rw [shiftSum_zero]) (fun t _ h => by omega)
  have hNL2 : NL2 = ((List.range base.length).map
      (fun t => (comps.getD t []).map
        (fun v => v + shiftSum base comps (base.getD t 0)))).map Sum.inr := by
    apply List.ext_getElem
      (by rw [hlen2, List.length_map, List.length_map, List.length_range])
    intro t h1 h2
    have ht : t < base.length := by rw [hlen2] at h1; exact h1
    have hpr := hprop t ht
    rw [getD_eq_getElem _ _ h1] at hpr
    rw [hpr, List.getElem_map, List.getElem_map, List.getElem_range]
  rw [hNL2] at hrun
  unfold inflate
  rw [if_neg (show ¬ (base.length ≠ comps.length) from by omega)]
  simp only [hrun, mapM_extract]
  rfl

theorem drop_getD2 {α : Type} (l : List α) (m k : Nat) (d : α) :
    (l.drop m).getD k d = l.getD (m + k) d := by
  rw [List.getD_eq_getElem?_getD, List.getD_eq_getElem?_getD, List.getElem?_drop]

theorem take_getD {α : Type} (l : List α) {m k : Nat} (hk : k < m) (d : α) :
    (l.take m).getD k d = l.getD k d := by
  rw [List.getD_eq_getElem?_getD, List.getD_eq_getElem?_getD,
    List.getElem?_take_of_lt hk]

theorem tripleApp_getD {α : Type} (A : List α) (x : α) (B : List α) (d : α) :
    ∀ t, (A ++ [x] ++ B).getD t d
      = if t < A.length then A.getD t d
        else if t = A.length then x else B.getD (t - A.length - 1) d := by
  intro t
  by_cases h1 : t < A.length
  · rw [if_pos h1, List.getD_eq_getElem?_getD,
      List.getElem?_append_left (show t < (A ++ [x]).length by
        rw [List.length_append, List.length_singleton]; omega),
      List.getElem?_append_left h1, ← List.getD_eq_getElem?_getD]
  · rw [if_neg h1]
    by_cases h2 : t = A.length
    · rw [if_pos h2, h2, List.getD_eq_getElem?_getD,
        List.getElem?_append_left (show A.length < (A ++ [x]).length by
          rw [List.length_append, List.length_singleton]; omega),
        List.getElem?_append_right (le_refl _), Nat.sub_self]
      rfl
    · rw [if_neg h2, List.getD_eq_getElem?_getD,
        List.getElem?_append_right (show (A ++ [x]).length ≤ t by
          rw [List.length_append, List.length_singleton]; omega),
        List.length_append, List.length_singleton,
        show t - (A.length + 1) = t - A.length - 1 by omega,
        ← List.getD_eq_getElem?_getD]

theorem flatten_map_singleton {α β : Type} (l : List α) (g : α → β) :
    (l.map (fun x => [g x])).flatten = l.map g := by
  induction l with
  | nil => rfl
  | cons a l ih =>
    rw [List.map_cons, List.flatten_cons, List.map_cons, ih]
    rfl

theorem triple_split {α : Type} (l : List α) (i j : Nat) :
    l.take j ++ (l.drop j).take i ++ l.drop (i + j) = l := by
  have h1 : l.drop j = (l.drop j).take i ++ l.drop (i + j) := by
    conv_lhs => rw [← List.take_append_drop i (l.drop j)]
    rw [List.drop_drop, show j + i = i + j by omega]
  rw [List.append_assoc, ← h1, List.take_append_drop]

/-- one contraction step of `decomposition` preserves the inflation value: the
shifted-block flattening of the contracted base with the merged component list
is order-isomorphic to that of the original pair -/
theorem step_flatW_iso (base : List Nat) (comps : List (List Nat)) (i j : Nat)
    (hp : isPerm base) (hlenc : base.length = comps.length)
    (hcperm : ∀ t, t < base.length → isPerm (comps.getD t []))
    (hclen1 : ∀ t, t < base.length → 1 ≤ (comps.getD t []).length)
    (h2i : 2 ≤ i) (hji : j + i ≤ base.length)
    (hic : icond base i j = true)
    (hwin : ∀ t, j ≤ t → t < i + j → comps.getD t [] = [0]) :
    ordIso (flatW (stdSpec (contr base i j))
        (comps.take j ++ [stdSpec (win base j i)] ++ comps.drop (i + j)))
      (flatW base comps) := by
  have hnd := hp.nodup
  have hi1 : 1 ≤ i := by omega
  have hwlen : (win base j i).length = i := win_length hji
  have hwnodup : (win base j i).Nodup := win_nodup hnd j i
  set K := stdSpec (win base j i) with hK
  have hKlen : K.length = i := by rw [hK, stdSpec_length, hwlen]
  have hKperm : isPerm K := by rw [hK]; exact stdSpec_isPerm _ hwnodup
  have hKiso : ordIso (win base j i) K :=
    standardize_iso hwnodup hKperm (by rw [hK]; exact standardize_eq_stdSpec _ hwnodup)
  have hKord : ∀ k l, k < i → l < i →
      (K.getD k 0 < K.getD l 0 ↔ base.getD (j + k) 0 < base.getD (j + l) 0) := by
    intro k l hk hl
    obtain ⟨_, hiso⟩ := hKiso
    have h := hiso k l (by rw [hwlen]; omega) (by rw [hwlen]; omega)
    rw [win_getD hk, win_getD hl] at h
    exact h.symm
  have hclen : (contr base i j).length = base.length - i + 1 :=
    contr_length base i j hi1 hji
  have hcnd : (contr base i j).Nodup := contr_nodup base hnd i j hi1 hji
  set nb := stdSpec (contr base i j) with hnb
  have hnblen : nb.length = base.length - i + 1 := by
    rw [hnb, stdSpec_length, hclen]
  have hnbperm : isPerm nb := by rw [hnb]; exact stdSpec_isPerm _ hcnd
  have hnbiso : ordIso (contr base i j) nb :=
    standardize_iso hcnd hnbperm (by rw [hnb]; exact standardize_eq_stdSpec _ hcnd)
  have hnbord : ∀ t u, t < base.length - i + 1 → u < base.length - i + 1 →
      (nb.getD t 0 < nb.getD u 0
        ↔ base.getD (embi i j t) 0 < base.getD (embi i j u) 0) := by
    intro t u ht hu
    obtain ⟨_, hiso⟩ := hnbiso
    have h := hiso t u (by rw [hclen]; omega) (by rw [hclen]; omega)
    rw [contr_getD base i j hi1 hji t ht, contr_getD base i j hi1 hji u hu] at h
    exact h.symm
  set NC := comps.take j ++ [K] ++ comps.drop (i + j) with hNC
  have htakelen : (comps.take j).length = j := by
    rw [List.length_take]
    omega
  have hNCget : ∀ t, NC.getD t []
      = if t < j then comps.getD t [] else if t = j then K
        else comps.getD (t + i - 1) [] := by
    intro t
    rw [hNC, tripleApp_getD, htakelen]
    by_cases h1 : t < j
    · rw [if_pos h1, if_pos h1, take_getD _ h1]
    · rw [if_neg h1, if_neg h1]
      by_cases h2 : t = j
      · rw [if_pos h2, if_pos h2]
      · rw [if_neg h2, if_neg h2, drop_getD2,
          show i + j + (t - j - 1) = t + i - 1 by omega]
  have hNCperm : ∀ t, t < base.length - i + 1 → isPerm (NC.getD t []) := by
    intro t ht
    rw [hNCget t]
    split_ifs with h1 h2
    · exact hcperm t (by omega)
    · exact hKperm
    · exact hcperm (t + i - 1) (by omega)
  have hembj : embi i j j = j := by
    unfold embi
    rw [if_pos (le_refl j)]
  have hembout : ∀ t, t ≠ j → (embi i j t < j ∨ i + j ≤ embi i j t) := by
    intro t htj
    unfold embi
    split <;> omega
  have hembb : ∀ t, t < base.length - i + 1 → embi i j t < base.length :=
    fun t ht => embi_bound hi1 hji ht
  have hwinbd : ∀ t, j ≤ t → t < i + j →
      pmin (win base j i) ≤ base.getD t 0
        ∧ base.getD t 0 ≤ pmax (win base j i) :=
    fun t h1 h2 => win_bounds hji h1 (by omega)
  have houtside : ∀ u, u < base.length → (u < j ∨ i + j ≤ u) →
      base.getD u 0 < pmin (win base j i)
        ∨ pmax (win base j i) < base.getD u 0 := by
    intro u hu hout
    exact icond_outside hnd (by omega) hji hic u hu (by omega)
  set blocksB := (List.range base.length).map
    (fun t => (comps.getD t []).map
      (fun v => v + shiftSum base comps (base.getD t 0))) with hBB
  set mid := ((blocksB.drop j).take i).flatten with hmid
  set Bs := (List.range nb.length).map
    (fun t => (NC.getD t []).map
      (fun v => v + shiftSum nb NC (nb.getD t 0))) with hBs
  set Cs := blocksB.take j ++ [mid] ++ blocksB.drop (i + j) with hCs
  have hBBlen : blocksB.length = base.length := by
    rw [hBB, List.length_map, List.length_range]
  have hBBget : ∀ t, t < base.length → blocksB.getD t []
      = (comps.getD t []).map (fun v => v + shiftSum base comps (base.getD t 0)) := by
    intro t ht
    rw [hBB, getD_map_range _ _ ht]
  have hflatB : flatW base comps = blocksB.flatten := rfl
  have hflatN : flatW nb NC = Bs.flatten := rfl
  have hmidlist : (blocksB.drop j).take i
      = (List.range i).map
          (fun k => [shiftSum base comps (base.getD (j + k) 0)]) := by
    apply List.ext_getElem
    · rw [List.length_take, List.length_drop, hBBlen, List.length_map,
        List.length_range]
      omega
    intro k h1 h2
    have hk : k < i := by
      rw [List.length_map, List.length_range] at h2
      exact h2
    rw [List.getElem_map, List.getElem_range]
    rw [← getD_eq_getElem _ ([] : List Nat) h1, take_getD _ hk, drop_getD2,
      hBBget (j + k) (by omega), hwin (j + k) (by omega) (by omega)]
    rw [List.map_cons, List.map_nil, Nat.zero_add]
  have hmideq : mid = (List.range i).map
      (fun k => shiftSum base comps (base.getD (j + k) 0)) := by
    rw [hmid, hmidlist, flatten_map_singleton]
  have hCsflat : Cs.flatten = blocksB.flatten := by
    conv_rhs => rw [← triple_split blocksB i j]
    rw [hCs, List.flatten_append, List.flatten_append, List.flatten_append,
      List.flatten_append]
    rw [show ([mid] : List (List Nat)).flatten = mid from by
      rw [List.flatten_cons]; simp, hmid]
  have hCslen : Cs.length = base.length - i + 1 := by
    rw [hCs, List.length_append, List.length_append, List.length_take,
      List.length_singleton, List.length_drop, hBBlen]
    omega
  have hCsget : ∀ t, Cs.getD t []
      = if t < j then blocksB.getD t [] else if t = j then mid
        else blocksB.getD (t + i - 1) [] := by
    intro t
    rw [hCs, tripleApp_getD]
    rw [show (blocksB.take j).length = j from by
      rw [List.length_take, hBBlen]; omega]
    by_cases h1 : t < j
    · rw [if_pos h1, if_pos h1, take_getD _ h1]
    · rw [if_neg h1, if_neg h1]
      by_cases h2 : t = j
      · rw [if_pos h2, if_pos h2]
      · rw [if_neg h2, if_neg h2, drop_getD2,
          show i + j + (t - j - 1) = t + i - 1 by omega]
  have hBslen : Bs.length = base.length - i + 1 := by
    rw [hBs, List.length_map, List.length_range, hnblen]
  have hBsget : ∀ t, t < base.length - i + 1 → Bs.getD t []
      = (NC.getD t []).map (fun v => v + shiftSum nb NC (nb.getD t 0)) := by
    intro t ht
    rw [hBs, getD_map_range _ _ (by rw [hnblen]; omega)]
  have hisoB : ∀ t, t < Bs.length → ordIso (Bs.getD t []) (Cs.getD t []) := by
    intro t ht
    rw [hBslen] at ht
    rw [hBsget t ht, hCsget t, hNCget t]
    by_cases h1 : t < j
    · rw [if_pos h1, if_pos h1, hBBget t (by omega)]
      exact ordIso_shift _ _ _
    · rw [if_neg h1, if_neg h1]
      by_cases h2 : t = j
      · rw [if_pos h2, if_pos h2, hmideq]
        refine ⟨by rw [List.length_map, List.length_map, List.length_range,
          hKlen], ?_⟩
        intro k l hk hl
        rw [List.length_map, hKlen] at hk hl
        rw [getD_map K _ (by rw [hKlen]; omega),
          getD_map K _ (by rw [hKlen]; omega),
          getD_map_range _ _ hk, getD_map_range _ _ hl]
        have h3 := hKord k l hk hl
        have h4 := @shiftSum_lt_iff base comps
          (fun u hu => hclen1 u hu) _ _
          (show j + k < base.length by omega) (show j + l < base.length by omega)
        constructor
        · intro h5
          rw [h4]
          exact h3.mp (by omega)
        · intro h5
          have := h3.mpr (h4.mp h5)
          omega
      · rw [if_neg h2, if_neg h2, hBBget (t + i - 1) (by omega)]
        exact ordIso_shift _ _ _
  have hBsrange : ∀ t, t < base.length - i + 1 → ∀ x ∈ Bs.getD t [],
      shiftSum nb NC (nb.getD t 0) ≤ x
        ∧ x < shiftSum nb NC (nb.getD t 0) + (NC.getD t []).length := by
    intro t ht x hx
    rw [hBsget t ht, List.mem_map] at hx
    obtain ⟨v, hv, rfl⟩ := hx
    have := (hNCperm t ht).lt_length hv
    omega
  have hCrange : ∀ t, t < base.length - i + 1 → t ≠ j → ∀ x ∈ Cs.getD t [],
      shiftSum base comps (base.getD (embi i j t) 0) ≤ x
        ∧ x < shiftSum base comps (base.getD (embi i j t) 0)
            + (comps.getD (embi i j t) []).length := by
    intro t ht htj x hx
    rw [hCsget t] at hx
    by_cases h1 : t < j
    · rw [if_pos h1, hBBget t (by omega), List.mem_map] at hx
      obtain ⟨v, hv, rfl⟩ := hx
      have := (hcperm t (by omega)).lt_length hv
      have hembeq : embi i j t = t := by
        unfold embi
        rw [if_pos (by omega)]
      rw [hembeq]
      omega
    · rw [if_neg h1, if_neg htj, hBBget (t + i - 1) (by omega),
        List.mem_map] at hx
      obtain ⟨v, hv, rfl⟩ := hx
      have := (hcperm (t + i - 1) (by omega)).lt_length hv
      have hembeq : embi i j t = t + i - 1 := by
        unfold embi
        rw [if_neg (by omega)]
      rw [hembeq]
      omega
  have hmidmem : ∀ x ∈ mid, ∃ k, k < i
      ∧ x = shiftSum base comps (base.getD (j + k) 0) := by
    intro x hx
    rw [hmideq, List.mem_map] at hx
    obtain ⟨k, hk, rfl⟩ := hx
    rw [List.mem_range] at hk
    exact ⟨k, hk, rfl⟩
  have hCsLt : ∀ t u, t < base.length - i + 1 → u < base.length - i + 1 →
      t ≠ u → nb.getD t 0 < nb.getD u 0 →
      blockLt (Cs.getD t []) (Cs.getD u []) := by
    intro t u ht hu htu hlt
    have hbb := (hnbord t u ht hu).mp hlt
    by_cases h1 : t = j
    · intro x hx y hy
      rw [hCsget t, if_neg (by omega), if_pos h1] at hx
      obtain ⟨k, hk, rfl⟩ := hmidmem x hx
      obtain ⟨hy1, hy2⟩ := hCrange u hu (by omega) y hy
      have hbt : base.getD (embi i j t) 0 = base.getD j 0 := by rw [h1, hembj]
      have hout := houtside (embi i j u) (hembb u hu) (hembout u (by omega))
      have hjbd := hwinbd j (le_refl j) (by omega)
      have hkbd := hwinbd (j + k) (by omega) (by omega)
      have hlt2 : base.getD (j + k) 0 < base.getD (embi i j u) 0 := by
        rcases hout with h | h <;> omega
      have hgap := @shiftSum_gap _ comps _
        (show j + k < base.length by omega) _ hlt2
      have := hclen1 (j + k) (by omega)
      omega
    · by_cases h2 : u = j
      · intro x hx y hy
        rw [hCsget u, if_neg (by omega), if_pos h2] at hy
        obtain ⟨k, hk, rfl⟩ := hmidmem y hy
        obtain ⟨hx1, hx2⟩ := hCrange t ht h1 x hx
        have hbt : base.getD (embi i j u) 0 = base.getD j 0 := by rw [h2, hembj]
        have hout := houtside (embi i j t) (hembb t ht) (hembout t h1)
        have hjbd := hwinbd j (le_refl j) (by omega)
        have hkbd := hwinbd (j + k) (by omega) (by omega)
        have hlt2 : base.getD (embi i j t) 0 < base.getD (j + k) 0 := by
          rcases hout with h | h <;> omega
        have hgap := @shiftSum_gap _ comps _ (hembb t ht) _ hlt2
        have := hclen1 (embi i j t) (hembb t ht)
        omega
      · intro x hx y hy
        obtain ⟨hx1, hx2⟩ := hCrange t ht h1 x hx
        obtain ⟨hy1, hy2⟩ := hCrange u hu h2 y hy
        have hgap := @shiftSum_gap _ comps _ (hembb t ht) _ hbb
        omega
  have hBsLt : ∀ t u, t < base.length - i + 1 → u < base.length - i + 1 →
      nb.getD t 0 < nb.getD u 0 → blockLt (Bs.getD t []) (Bs.getD u []) := by
    intro t u ht hu hlt
    intro x hx y hy
    obtain ⟨hx1, hx2⟩ := hBsrange t ht x hx
    obtain ⟨hy1, hy2⟩ := hBsrange u hu y hy
    have hgap := @shiftSum_gap nb NC _
      (show t < nb.length by omega) _ hlt
    omega
  have hcross : ∀ t u, t < u → u < Bs.length →
      (blockLt (Bs.getD t []) (Bs.getD u []) ∧ blockLt (Cs.getD t []) (Cs.getD u []))
      ∨ (blockLt (Bs.getD u []) (Bs.getD t []) ∧ blockLt (Cs.getD u []) (Cs.getD t [])) := by
    intro t u htu hu
    rw [hBslen] at hu
    have ht : t < base.length - i + 1 := by omega
    have hne : nb.getD t 0 ≠ nb.getD u 0 := by
      intro hc
      have := nodup_getD_inj hnbperm.nodup (show t < nb.length by omega)
        (show u < nb.length by omega) hc
      omega
    rcases Nat.lt_or_ge (nb.getD t 0) (nb.getD u 0) with hlt | hge
    · exact Or.inl ⟨hBsLt t u ht hu hlt, hCsLt t u ht hu (by omega) hlt⟩
    · have hlt2 : nb.getD u 0 < nb.getD t 0 := by omega
      exact Or.inr ⟨hBsLt u t hu ht hlt2, hCsLt u t hu ht (by omega) hlt2⟩
  have hfin := flatten_iso Bs Cs (by rw [hBslen, hCslen]) hisoB hcross
  rw [hflatN, hflatB, ← hCsflat]
  exact hfin

theorem nb_length (base : List Nat) (i j : Nat) (hi1 : 1 ≤ i)
    (hji : j + i ≤ base.length) :
    (stdSpec (contr base i j)).length = base.length - i + 1 := by
  rw [stdSpec_length, contr_length base i j hi1 hji]

theorem nb_perm (base : List Nat) (hnd : base.Nodup) (i j : Nat) (hi1 : 1 ≤ i)
    (hji : j + i ≤ base.length) : isPerm (stdSpec (contr base i j)) :=
  stdSpec_isPerm _ (contr_nodup base hnd i j hi1 hji)

theorem nb_ord (base : List Nat) (hnd : base.Nodup) (i j : Nat) (hi1 : 1 ≤ i)
    (hji : j + i ≤ base.length) :
    ∀ t u, t < base.length - i + 1 → u < base.length - i + 1 →
      ((stdSpec (contr base i j)).getD t 0 < (stdSpec (contr base i j)).getD u 0
        ↔ base.getD (embi i j t) 0 < base.getD (embi i j u) 0) := by
  intro t u ht hu
  have hclen : (contr base i j).length = base.length - i + 1 :=
    contr_length base i j hi1 hji
  have hcnd : (contr base i j).Nodup := contr_nodup base hnd i j hi1 hji
  obtain ⟨_, hiso⟩ := standardize_iso hcnd (stdSpec_isPerm _ hcnd)
    (standardize_eq_stdSpec _ hcnd)
  have h := hiso t u (by rw [hclen]; omega) (by rw [hclen]; omega)
  rw [contr_getD base i j hi1 hji t ht, contr_getD base i j hi1 hji u hu] at h
  exact h.symm

/-- values at positions outside the contracted window are numerically outside
the window value block -/
theorem notblock (base : List Nat) (hnd : base.Nodup) (i j : Nat) (hi1 : 1 ≤ i)
    (hji : j + i ≤ base.length) (hic : icond base i j = true) :
    ∀ q, q < base.length → (q < j ∨ i + j ≤ q) →
      ¬ (pmin (win base j i) ≤ base.getD q 0
        ∧ base.getD q 0 < pmin (win base j i) + i) := by
  intro q hq hqout hin
  have hpx : pmin (win base j i) ≤ pmax (win base j i) :=
    pmin_le (pmax_mem (win_ne_nil (by omega) hji))
  have hicm := (icond_iff base i j).mp hic
  obtain ⟨t0, ht01, ht02, ht0v⟩ := icond_attain hnd (by omega) hji hic
    (base.getD q 0) hin.1 (by omega)
  have := nodup_getD_inj hnd (by omega) hq ht0v
  omega

/-- an interval window of the contracted base can never contain the
placeholder position: pulling it back would produce a longer interval of the
original base, contradicting the maximality of the contracted window -/
theorem no_containing_window (base : List Nat) (i j : Nat) (hp : isPerm base)
    (h2i : 2 ≤ i) (hji : j + i ≤ base.length) (hic : icond base i j = true)
    (hmax : ∀ L j2, i < L → L + 1 ≤ base.length → j2 + L ≤ base.length →
      icond base L j2 = false) :
    ∀ w a, 2 ≤ w → w + 1 ≤ base.length - i + 1 → a + w ≤ base.length - i + 1 →
      icond (stdSpec (contr base i j)) w a = true →
      ¬ (a ≤ j ∧ j < a + w) := by
  intro w a h2w hwlt hawle hicnb hj
  obtain ⟨hj1, hj2⟩ := hj
  have hnd := hp.nodup
  have hi1 : 1 ≤ i := by omega
  have hnblen := nb_length base i j hi1 hji
  have hnbperm := nb_perm base hnd i j hi1 hji
  have hnbord := nb_ord base hnd i j hi1 hji
  have hnotbl := notblock base hnd i j hi1 hji hic
  have hembj : embi i j j = j := by
    unfold embi
    rw [if_pos (le_refl j)]
  have hcond : icond base (w + i - 1) a = true := by
    apply icond_of_nogap hp (by omega) (by omega)
    intro u hu hout
    rintro ⟨hs1, hs2⟩
    have huold : u < j ∨ i + j ≤ u := by omega
    obtain ⟨u2, hu2a, hu2b, hu2c⟩ : ∃ u2, u2 < base.length - i + 1
        ∧ embi i j u2 = u ∧ (u2 < a ∨ a + w ≤ u2) := by
      rcases huold with hu1 | hu1
      · exact ⟨u, by omega, by unfold embi; rw [if_pos (by omega)], by omega⟩
      · exact ⟨u - i + 1, by omega,
          by unfold embi; rw [if_neg (by omega)]; omega, by omega⟩
    have hnbout := icond_outside hnbperm.nodup (show 1 ≤ w by omega)
      (show a + w ≤ (stdSpec (contr base i j)).length by omega) hicnb u2
      (by omega) hu2c
    have hq1 := pmin_mem (win_ne_nil (show 1 ≤ w + i - 1 by omega)
      (show a + (w + i - 1) ≤ base.length by omega))
    rw [mem_win (show a + (w + i - 1) ≤ base.length by omega)] at hq1
    obtain ⟨l1, hl1, hq1v⟩ := hq1
    have hq2 := pmax_mem (win_ne_nil (show 1 ≤ w + i - 1 by omega)
      (show a + (w + i - 1) ≤ base.length by omega))
    rw [mem_win (show a + (w + i - 1) ≤ base.length by omega)] at hq2
    obtain ⟨l2, hl2, hq2v⟩ := hq2
    rcases hnbout with hlow | hhigh
    · have hall : ∀ q, a ≤ q → q < a + (w + i - 1) →
          base.getD u 0 < base.getD q 0 := by
        intro q hqa hqb
        by_cases hqold : j ≤ q ∧ q < i + j
        · have hbj : base.getD u 0 < base.getD j 0 := by
            have hwb := win_bounds (p := stdSpec (contr base i j))
              (show a + w ≤ (stdSpec (contr base i j)).length by omega)
              hj1 (by omega)
            have hlt : (stdSpec (contr base i j)).getD u2 0
                < (stdSpec (contr base i j)).getD j 0 := by omega
            have hres := (hnbord u2 j (by omega) (by omega)).mp hlt
            rw [hu2b, hembj] at hres
            exact hres
          have hjbd := win_bounds (p := base) hji (le_refl j) (by omega)
          have hqbd := win_bounds (p := base) hji hqold.1 (by omega)
          have hicm := (icond_iff base i j).mp hic
          have hpx : pmin (win base j i) ≤ pmax (win base j i) :=
            pmin_le (pmax_mem (win_ne_nil (by omega) hji))
          rcases Nat.lt_or_ge (base.getD u 0) (pmin (win base j i)) with hc | hc
          · omega
          · exact absurd ⟨hc, by omega⟩ (hnotbl u hu huold)
        · obtain ⟨q2, hq2a, hq2b, hq2c, hq2d⟩ : ∃ q2, q2 < base.length - i + 1
              ∧ embi i j q2 = q ∧ a ≤ q2 ∧ q2 < a + w := by
            by_cases hql : q < j
            · exact ⟨q, by omega, by unfold embi; rw [if_pos (by omega)],
                by omega, by omega⟩
            · exact ⟨q - i + 1, by omega,
                by unfold embi; rw [if_neg (by omega)]; omega, by omega, by omega⟩
          have hwb := win_bounds (p := stdSpec (contr base i j))
            (show a + w ≤ (stdSpec (contr base i j)).length by omega) hq2c hq2d
          have hlt : (stdSpec (contr base i j)).getD u2 0
              < (stdSpec (contr base i j)).getD q2 0 := by omega
          have hres := (hnbord u2 q2 (by omega) (by omega)).mp hlt
          rw [hu2b, hq2b] at hres
          exact hres
      have := hall (a + l1) (by omega) (by omega)
      omega
    · have hall : ∀ q, a ≤ q → q < a + (w + i - 1) →
          base.getD q 0 < base.getD u 0 := by
        intro q hqa hqb
        by_cases hqold : j ≤ q ∧ q < i + j
        · have hbj : base.getD j 0 < base.getD u 0 := by
            have hwb := win_bounds (p := stdSpec (contr base i j))
              (show a + w ≤ (stdSpec (contr base i j)).length by omega)
              hj1 (by omega)
            have hlt : (stdSpec (contr base i j)).getD j 0
                < (stdSpec (contr base i j)).getD u2 0 := by omega
            have hres := (hnbord j u2 (by omega) (by omega)).mp hlt
            rw [hu2b, hembj] at hres
            exact hres
          have hjbd := win_bounds (p := base) hji (le_refl j) (by omega)
          have hqbd := win_bounds (p := base) hji hqold.1 (by omega)
          have hicm := (icond_iff base i j).mp hic
          have hpx : pmin (win base j i) ≤ pmax (win base j i) :=
            pmin_le (pmax_mem (win_ne_nil (by omega) hji))
          rcases Nat.lt_or_ge (base.getD u 0) (pmin (win base j i) + i) with hc | hc
          · exact absurd ⟨by omega, hc⟩ (hnotbl u hu huold)
          · omega
        · obtain ⟨q2, hq2a, hq2b, hq2c, hq2d⟩ : ∃ q2, q2 < base.length - i + 1
              ∧ embi i j q2 = q ∧ a ≤ q2 ∧ q2 < a + w := by
            by_cases hql : q < j
            · exact ⟨q, by omega, by unfold embi; rw [if_pos (by omega)],
                by omega, by omega⟩
            · exact ⟨q - i + 1, by omega,
                by unfold embi; rw [if_neg (by omega)]; omega, by omega, by omega⟩
          have hwb := win_bounds (p := stdSpec (contr base i j))
            (show a + w ≤ (stdSpec (contr base i j)).length by omega) hq2c hq2d
          have hlt : (stdSpec (contr base i j)).getD q2 0
              < (stdSpec (contr base i j)).getD u2 0 := by omega
          have hres := (hnbord q2 u2 (by omega) (by omega)).mp hlt
          rw [hu2b, hq2b] at hres
          exact hres
      have := hall (a + l2) (by omega) (by omega)
      omega
  have hfalse := hmax (w + i - 1) a (by omega) (by omega) (by omega)
  rw [hcond] at hfalse
  cases hfalse

/-- an interval window of the contracted base that avoids the placeholder
pulls back to an interval window of the original base -/
theorem pullback_window (base : List Nat) (i j : Nat) (hp : isPerm base)
    (h2i : 2 ≤ i) (hji : j + i ≤ base.length) (hic : icond base i j = true) :
    ∀ w a, 1 ≤ w → a + w ≤ base.length - i + 1 →
      icond (stdSpec (contr base i j)) w a = true →
      (a + w ≤ j ∨ j < a) →
      icond base w (embi i j a) = true := by
  intro w a h1w hawle hicnb hcase
  have hnd := hp.nodup
  have hi1 : 1 ≤ i := by omega
  have hnblen := nb_length base i j hi1 hji
  have hnbperm := nb_perm base hnd i j hi1 hji
  have hnbord := nb_ord base hnd i j hi1 hji
  have hnotbl := notblock base hnd i j hi1 hji hic
  have hembj : embi i j j = j := by
    unfold embi
    rw [if_pos (le_refl j)]
  have hembval : ∀ k, k ≤ w → embi i j (a + k) = embi i j a + k := by
    intro k hk
    unfold embi
    split_ifs <;> omega
  have hAbound : embi i j a + w ≤ base.length := by
    unfold embi
    split <;> omega
  apply icond_of_nogap hp h1w hAbound
  intro u hu hout
  rintro ⟨hs1, hs2⟩
  have hq1 := pmin_mem (win_ne_nil h1w hAbound)
  rw [mem_win hAbound] at hq1
  obtain ⟨l1, hl1, hq1v⟩ := hq1
  have hq2 := pmax_mem (win_ne_nil h1w hAbound)
  rw [mem_win hAbound] at hq2
  obtain ⟨l2, hl2, hq2v⟩ := hq2
  by_cases huin : j < u ∧ u < i + j
  · have hnbout := icond_outside hnbperm.nodup h1w
      (show a + w ≤ (stdSpec (contr base i j)).length by omega) hicnb j
      (by omega) (by omega)
    have hjbd := win_bounds (p := base) hji (le_refl j) (by omega)
    have hubd := win_bounds (p := base) (t := u) hji (by omega) (by omega)
    have hicm := (icond_iff base i j).mp hic
    have hpx : pmin (win base j i) ≤ pmax (win base j i) :=
      pmin_le (pmax_mem (win_ne_nil (by omega) hji))
    have hl1out : embi i j a + l1 < j ∨ i + j ≤ embi i j a + l1 := by
      rw [← hembval l1 (by omega)]
      unfold embi
      split <;> omega
    have hl2out : embi i j a + l2 < j ∨ i + j ≤ embi i j a + l2 := by
      rw [← hembval l2 (by omega)]
      unfold embi
      split <;> omega
    have hl1nb := hnotbl (embi i j a + l1) (by omega) hl1out
    have hl2nb := hnotbl (embi i j a + l2) (by omega) hl2out
    rcases hnbout with hlow | hhigh
    · have hbj : base.getD j 0 < base.getD (embi i j a + l1) 0 := by
        have hwb := win_bounds (p := stdSpec (contr base i j))
          (show a + w ≤ (stdSpec (contr base i j)).length by omega)
          (show a ≤ a + l1 by omega) (by omega)
        have hlt : (stdSpec (contr base i j)).getD j 0
            < (stdSpec (contr base i j)).getD (a + l1) 0 := by omega
        have hres := (hnbord j (a + l1) (by omega) (by omega)).mp hlt
        rw [hembj, hembval l1 (by omega)] at hres
        exact hres
      rcases Nat.lt_or_ge (base.getD (embi i j a + l1) 0)
        (pmin (win base j i) + i) with hc | hc
      · exact absurd ⟨by omega, hc⟩ hl1nb
      · omega
    · have hbj : base.getD (embi i j a + l2) 0 < base.getD j 0 := by
        have hwb := win_bounds (p := stdSpec (contr base i j))
          (show a + w ≤ (stdSpec (contr base i j)).length by omega)
          (show a ≤ a + l2 by omega) (by omega)
        have hlt : (stdSpec (contr base i j)).getD (a + l2) 0
            < (stdSpec (contr base i j)).getD j 0 := by omega
        have hres := (hnbord (a + l2) j (by omega) (by omega)).mp hlt
        rw [hembj, hembval l2 (by omega)] at hres
        exact hres
      rcases Nat.lt_or_ge (base.getD (embi i j a + l2) 0)
        (pmin (win base j i)) with hc | hc
      · omega
      · exact absurd ⟨hc, by omega⟩ hl2nb
  · obtain ⟨u2, hu2a, hu2b, hu2c⟩ : ∃ u2, u2 < base.length - i + 1
        ∧ embi i j u2 = u ∧ (u2 < a ∨ a + w ≤ u2) := by
      by_cases hql : u ≤ j
      · refine ⟨u, by omega, by unfold embi; rw [if_pos hql], ?_⟩
        rcases hcase with hc1 | hc1
        · have hAeq : embi i j a = a := by
            unfold embi
            rw [if_pos (by omega)]
          rw [hAeq] at hout
          omega
        · omega
      · have hge : i + j ≤ u := by omega
        refine ⟨u - i + 1, by omega,
          by unfold embi; rw [if_neg (by omega)]; omega, ?_⟩
        rcases hcase with hc1 | hc1
        · omega
        · have hAeq : embi i j a = a + i - 1 := by
            unfold embi
            rw [if_neg (by omega)]
          rw [hAeq] at hout
          omega
    have hnbout := icond_outside hnbperm.nodup h1w
      (show a + w ≤ (stdSpec (contr base i j)).length by omega) hicnb u2
      (by omega) hu2c
    rcases hnbout with hlow | hhigh
    · have hwb := win_bounds (p := stdSpec (contr base i j))
        (show a + w ≤ (stdSpec (contr base i j)).length by omega)
        (show a ≤ a + l1 by omega) (by omega)
      have hlt : (stdSpec (contr base i j)).getD u2 0
          < (stdSpec (contr base i j)).getD (a + l1) 0 := by omega
      have hres := (hnbord u2 (a + l1) (by omega) (by omega)).mp hlt
      rw [hu2b, hembval l1 (by omega)] at hres
      omega
    · have hwb := win_bounds (p := stdSpec (contr base i j))
        (show a + w ≤ (stdSpec (contr base i j)).length by omega)
        (show a ≤ a + l2 by omega) (by omega)
      have hlt : (stdSpec (contr base i j)).getD (a + l2) 0
          < (stdSpec (contr base i j)).getD u2 0 := by omega
      have hres := (hnbord (a + l2) u2 (by omega) (by omega)).mp hlt
      rw [hu2b, hembval l2 (by omega)] at hres
      omega

/-- one contraction step preserves the invariant that interval windows cover
only singleton components -/
theorem step_nosplit (base : List Nat) (comps : List (List Nat)) (i j : Nat)
    (hp : isPerm base) (hlenc : base.length = comps.length)
    (h2i : 2 ≤ i) (hji : j + i ≤ base.length) (hic : icond base i j = true)
    (hmax : ∀ L j2, i < L → L + 1 ≤ base.length → j2 + L ≤ base.length →
      icond base L j2 = false)
    (hns : ∀ w a, 2 ≤ w → w + 1 ≤ base.length → a + w ≤ base.length →
      icond base w a = true → ∀ t, a ≤ t → t < a + w → comps.getD t [] = [0]) :
    ∀ w a, 2 ≤ w → w + 1 ≤ base.length - i + 1 → a + w ≤ base.length - i + 1 →
      icond (stdSpec (contr base i j)) w a = true →
      ∀ t, a ≤ t → t < a + w →
        (comps.take j ++ [stdSpec (win base j i)] ++ comps.drop (i + j)).getD t []
          = [0] := by
  intro w a h2w hwlt hawle hicnb t hta htw
  have hjout := no_containing_window base i j hp h2i hji hic hmax w a h2w hwlt
    hawle hicnb
  have hcase : a + w ≤ j ∨ j < a := by
    rcases Nat.lt_or_ge j a with h | h
    · right
      exact h
    · left
      by_contra hcc
      push_neg at hcc
      exact hjout ⟨h, by omega⟩
  have hA := pullback_window base i j hp h2i hji hic w a (by omega) hawle
    hicnb hcase
  have htakelen : (comps.take j).length = j := by
    rw [List.length_take]
    omega
  rw [tripleApp_getD, htakelen]
  have htj : t ≠ j := by omega
  have hembvalt : embi i j t = embi i j a + (t - a) := by
    unfold embi
    split_ifs <;> omega
  have hApos : embi i j a + w ≤ base.length := by
    unfold embi
    split <;> omega
  have hres := hns w (embi i j a) h2w (by omega) hApos hA (embi i j t)
    (by rw [hembvalt]; omega) (by rw [hembvalt]; omega)
  by_cases h1 : t < j
  · rw [if_pos h1, take_getD _ h1]
    have hemb1 : embi i j t = t := by
      unfold embi
      rw [if_pos (by omega)]
    rw [← hemb1]
    exact hres
  · rw [if_neg h1, if_neg htj, drop_getD2,
      show i + j + (t - j - 1) = t + i - 1 by omega]
    have hemb1 : embi i j t = t + i - 1 := by
      unfold embi
      rw [if_neg (by omega)]
    rw [← hemb1]
    exact hres

theorem getD_replicate {α : Type} (n t : Nat) (x d : α) (ht : t < n) :
    (List.replicate n x).getD t d = x := by
  rw [List.getD_eq_getElem _ _ (by rw [List.length_replicate]; exact ht)]
  exact List.getElem_replicate _ _

theorem sum_map_indicator_countP (l : List Nat) (v : Nat) :
    (l.map (fun y => if y < v then 1 else 0)).sum
      = l.countP (fun y => decide (y < v)) := by
  induction l with
  | nil => rfl
  | cons a l ih =>
    rw [List.map_cons, List.sum_cons, ih, List.countP_cons]
    by_cases h : a < v
    · rw [if_pos h, if_pos (by simpa using h)]
      omega
    · rw [if_neg h, if_neg (by simpa using h)]
      omega

theorem getD_lt_of_isPerm {p : List Nat} (hp : isPerm p) {t : Nat}
    (ht : t < p.length) : p.getD t 0 < p.length := by
  have hm : p.getD t 0 ∈ p := by
    rw [getD_eq_getElem _ _ ht]
    exact List.getElem_mem _
  exact List.mem_range.mp (hp.mem_iff.mp hm)

theorem shiftSum_replicate (p : List Nat) (hp : isPerm p) (v : Nat)
    (hv : v ≤ p.length) :
    shiftSum p (List.replicate p.length [0]) v = v := by
  unfold shiftSum
  rw [List.map_congr_left (l := List.range p.length)
    (f := fun u => if p.getD u 0 < v
      then ((List.replicate p.length ([0] : List Nat)).getD u []).length else 0)
    (g := fun u => (fun y => if y < v then 1 else 0) (p.getD u 0))
    (fun u hu => by
      show (if p.getD u 0 < v
          then ((List.replicate p.length ([0] : List Nat)).getD u []).length
          else 0)
        = (if p.getD u 0 < v then 1 else 0)
      rw [getD_replicate _ _ _ _ (List.mem_range.mp hu)]
      rfl)]
  have hcomp : (List.range p.length).map
        (fun u => (fun y => if y < v then 1 else 0) (p.getD u 0))
      = ((List.range p.length).map (fun u => p.getD u 0)).map
        (fun y => if y < v then 1 else 0) := by
    rw [List.map_map]
    rfl
  rw [hcomp, map_getD_range, sum_map_indicator_countP, countP_lt_of_isPerm hp]
  omega

theorem flatW_replicate (p : List Nat) (hp : isPerm p) :
    flatW p (List.replicate p.length [0]) = p := by
  unfold flatW
  rw [List.map_congr_left (l := List.range p.length)
    (g := fun t => [p.getD t 0])
    (fun t htm => by
      have ht : t < p.length := List.mem_range.mp htm
      rw [getD_replicate _ _ _ _ ht, List.map_cons, List.map_nil, Nat.zero_add,
        shiftSum_replicate p hp _ (le_of_lt (getD_lt_of_isPerm hp ht))])]
  rw [flatten_map_singleton, map_getD_range]

theorem isPerm_single : isPerm [0] := by
  unfold isPerm
  decide

/-- the reduction loop of `decomposition` terminates with a simple base whose
shifted-block flattening stays order-isomorphic to the original permutation -/
theorem decompLoop_spec (p : List Nat) :
    ∀ fuel base comps, base.length < fuel →
      isPerm base → base.length = comps.length →
      (∀ t, t < base.length → isPerm (comps.getD t [])) →
      (∀ t, t < base.length → 1 ≤ (comps.getD t []).length) →
      (∀ w a, 2 ≤ w → w + 1 ≤ base.length → a + w ≤ base.length →
        icond base w a = true → ∀ t, a ≤ t → t < a + w → comps.getD t [] = [0]) →
      ordIso (flatW base comps) p →
      ∃ b c, decompLoop fuel base comps = some (b, c) ∧ is_simple b = true
        ∧ isPerm b ∧ b.length = c.length ∧ ordIso (flatW b c) p := by
  intro fuel
  induction fuel with
  | zero =>
    intro base comps hf
    exact absurd hf (by omega)
  | succ f ih =>
    intro base comps hf hbp hbc hcp hcl hns hiso
    by_cases hsimp : is_simple base = true
    · refine ⟨base, comps, ?_, hsimp, hbp, hbc, hiso⟩
      unfold decompLoop
      rw [if_pos hsimp]
    · have hsimp2 : is_simple base = false := by
        simpa using hsimp
      rcases hmij : maximal_interval base with ⟨i, j⟩
      have hi0 : i ≠ 0 := by
        intro h0
        have hfz : (miOuter base (base.length - 1)).1 = 0 := by
          rw [show miOuter base (base.length - 1) = maximal_interval base from rfl,
            hmij, h0]
        have hz : maximal_interval base = (0, 0) :=
          miOuter_fst_zero base (base.length - 1) hfz
        have hsl : simple_location base = (0, 0) :=
          (simple_location_zero_iff base).mpr hz
        have hst : is_simple base = true := by
          unfold is_simple
          rw [hsl]
          rfl
        rw [hst] at hsimp2
        cases hsimp2
      have hmij2 : miOuter base (base.length - 1) = (i, j) := hmij
      obtain ⟨h2i, hile, hji, hic, hmaxm, _⟩ :=
        miOuter_eq_some base (base.length - 1) i j (by omega) hmij2 hi0
      have hn3 : 3 ≤ base.length := by omega
      have hmax : ∀ L j2, i < L → L + 1 ≤ base.length → L + j2 ≤ base.length →
          icond base L j2 = false :=
        fun L j2 hL hL1 hjL => hmaxm L j2 hL (by omega) (by omega)
      have hmax2 : ∀ L j2, i < L → L + 1 ≤ base.length → j2 + L ≤ base.length →
          icond base L j2 = false :=
        fun L j2 hL hL1 hjL => hmax L j2 hL hL1 (by omega)
      have hwin : ∀ t, j ≤ t → t < i + j → comps.getD t [] = [0] := by
        intro t ht1 ht2
        exact hns i j h2i (by omega) hji hic t ht1 (by omega)
      have hstdK : standardize ((base.drop j).take i)
          = some (stdSpec (win base j i)) :=
        standardize_eq_stdSpec _ (win_nodup hbp.nodup j i)
      have hstdnb : standardize (base.take j ++ [base.getD j 0] ++ base.drop (i + j))
          = some (stdSpec (contr base i j)) :=
        standardize_eq_stdSpec _ (contr_nodup base hbp.nodup i j (by omega) hji)
      have hstep : decompLoop (f + 1) base comps
          = decompLoop f (stdSpec (contr base i j))
              (comps.take j ++ [stdSpec (win base j i)] ++ comps.drop (i + j)) := by
        conv_lhs => unfold decompLoop
        rw [if_neg hsimp, if_neg (fun h => h hbc)]
        simp only [hmij]
        rw [if_neg hi0, hstdK, hstdnb]
      have hnbperm : isPerm (stdSpec (contr base i j)) :=
        stdSpec_isPerm _ (contr_nodup base hbp.nodup i j (by omega) hji)
      have hnblen : (stdSpec (contr base i j)).length = base.length - i + 1 := by
        rw [stdSpec_length, contr_length base i j (by omega) hji]
      have htakelen : (comps.take j).length = j :=
        List.length_take_of_le (by omega)
      have hNClen :
          (comps.take j ++ [stdSpec (win base j i)] ++ comps.drop (i + j)).length
            = base.length - i + 1 := by
        rw [List.length_append, List.length_append, htakelen, List.length_drop,
          List.length_singleton]
        omega
      have hKlen : (stdSpec (win base j i)).length = i := by
        rw [stdSpec_length, win_length hji]
      have hKperm : isPerm (stdSpec (win base j i)) :=
        stdSpec_isPerm _ (win_nodup hbp.nodup j i)
      have hNCget : ∀ t,
          (comps.take j ++ [stdSpec (win base j i)] ++ comps.drop (i + j)).getD t []
            = if t < j then comps.getD t [] else if t = j then stdSpec (win base j i)
              else comps.getD (t + i - 1) [] := by
        intro t
        rw [tripleApp_getD, htakelen]
        by_cases h1 : t < j
        · rw [if_pos h1, if_pos h1, take_getD _ h1]
        · rw [if_neg h1, if_neg h1]
          by_cases h2 : t = j
          · rw [if_pos h2, if_pos h2]
          · rw [if_neg h2, if_neg h2, drop_getD2,
              show i + j + (t - j - 1) = t + i - 1 by omega]
      have hNCperm : ∀ t, t < (stdSpec (contr base i j)).length →
          isPerm ((comps.take j ++ [stdSpec (win base j i)]
            ++ comps.drop (i + j)).getD t []) := by
        intro t ht
        rw [hnblen] at ht
        rw [hNCget t]
        split_ifs with h1 h2
        · exact hcp t (by omega)
        · exact hKperm
        · exact hcp (t + i - 1) (by omega)
      have hNCl1 : ∀ t, t < (stdSpec (contr base i j)).length →
          1 ≤ ((comps.take j ++ [stdSpec (win base j i)]
            ++ comps.drop (i + j)).getD t []).length := by
        intro t ht
        rw [hnblen] at ht
        rw [hNCget t]
        split_ifs with h1 h2
        · exact hcl t (by omega)
        · rw [hKlen]
          omega
        · exact hcl (t + i - 1) (by omega)
      have hNCns : ∀ w a, 2 ≤ w → w + 1 ≤ (stdSpec (contr base i j)).length →
          a + w ≤ (stdSpec (contr base i j)).length →
          icond (stdSpec (contr base i j)) w a = true →
          ∀ t, a ≤ t → t < a + w →
            (comps.take j ++ [stdSpec (win base j i)]
              ++ comps.drop (i + j)).getD t [] = [0] := by
        intro w a h2w hw1 haw hicnb t hta htw
        rw [hnblen] at hw1 haw
        exact step_nosplit base comps i j hbp hbc h2i hji hic hmax2 hns w a h2w
          hw1 haw hicnb t hta htw
      have hNCi : ordIso (flatW (stdSpec (contr base i j))
          (comps.take j ++ [stdSpec (win base j i)] ++ comps.drop (i + j))) p :=
        ordIso_trans
          (step_flatW_iso base comps i j hbp hbc hcp hcl h2i hji hic hwin) hiso
      rw [hstep]
      exact ih (stdSpec (contr base i j))
        (comps.take j ++ [stdSpec (win base j i)] ++ comps.drop (i + j))
        (by omega) hnbperm (by rw [hnblen, hNClen]) hNCperm hNCl1 hNCns hNCi

/-- C2: for every permutation `p`, `decomposition` returns a pair
`(base, components)`, the base is simple, and `inflate base components`
reconstructs `p` exactly -/
theorem decomposition_inflate_round_trip (p : List Nat) (hp : isPerm p) :
    ∃ b c, decomposition p = some (b, c) ∧ inflate b c = some p
      ∧ is_simple b = true := by
  obtain ⟨b, c, hdec, hsimp, hbperm, hbc, hiso⟩ := decompLoop_spec p
    (p.length + 1) p (List.replicate p.length [0]) (by omega) hp
    (by rw [List.length_replicate])
    (fun t ht => by
      rw [getD_replicate _ _ _ _ ht]
      exact isPerm_single)
    (fun t ht => by
      rw [getD_replicate _ _ _ _ ht]
      decide)
    (fun w a h2w hw1 haw hicp t hta htw => by
      rw [getD_replicate _ _ _ _ (show t < p.length by omega)])
    (by
      rw [flatW_replicate p hp]
      exact ordIso_refl p)
  refine ⟨b, c, hdec, ?_, hsimp⟩
  rw [inflate_eq b c hbperm hbc]
  exact iso_standardize (ordIso_nodup hiso hp.nodup) hp hiso

theorem decomposition_inflate_round_trip_witness :
    isPerm [1, 0, 2] ∧ ∃ b c, decomposition [1, 0, 2] = some (b, c)
      ∧ inflate b c = some [1, 0, 2] ∧ is_simple b = true :=
  ⟨by decide, decomposition_inflate_round_trip [1, 0, 2] (by decide)⟩

theorem indexing_bijection_witness :
    4 < Nat.factorial 3 ∧ isPerm [2, 0, 1]
    ∧ ((ind2perm 4 3).map perm2ind = some 4
       ∧ ind2perm (perm2ind [2, 0, 1]) (List.length [2, 0, 1]) = some [2, 0, 1]) :=
  ⟨by decide, by decide, indexing_bijection 3 4 (by decide) [2, 0, 1] (by decide)⟩

end Permpy
